import Mathlib

/-!
# Math3D: the indexed triangle mesh builder (`TriangleMesh.cpp`)

A shallow embedding of `TriangleMesh::BeginMesh`, `AddTriangle`, `End`,
`SaveMesh(FILE*)` and `LoadMesh(FILE*, bool, bool)`.

Conventions of the embedding.

* `float` is a type parameter `F`.  The functions of `math3d.h` and `libm` that
  `TriangleMesh.cpp` calls are not part of the translation unit; they are the
  fields of `FloatOps F`.  `FloatOps.exact` is their reading over an ordered field
  (exact arithmetic, no rounding, no NaN); `FloatOps.binary32` is their reading in
  IEEE 754 binary32 (`Binary32`: every operation rounded once, with NaN, infinities
  and both zeros).  Properties that hold for any `FloatOps F` hold for both.
* An array is a function from slot number to value: slot `i` of `pVerts` is
  `pVerts i`.  Slots at or past the allocated size stand for the memory behind
  the allocation, so a store the code makes there is visible in the model.
* `pNorms` / `pTexCoords` (members) and `vNorms` / `vTexCoords` (arguments) may
  be `NULL`; they are `Option`s, and reading or writing through a `NULL` one
  makes the operation return `none`.  `pIndexes` and `pVerts` are `NULL` only in
  a mesh that was constructed and never begun or loaded, where all counts are
  `0` and no slot is touched, so they are plain arrays.
* `uint32_t` counters are `Nat`s; every increment is reduced modulo `2 ^ 32`.
-/

namespace Math3D

/-- Three floats: `typedef float M3DVector3f[3]`; `x`, `y`, `z` are `[0]`, `[1]`, `[2]`. -/
structure M3DVector3f (F : Type) where
  x : F
  y : F
  z : F
deriving DecidableEq, Repr

/-- Two floats: `typedef float M3DVector2f[2]`; `x`, `y` are `[0]`, `[1]`. -/
structure M3DVector2f (F : Type) where
  x : F
  y : F
deriving DecidableEq, Repr

/-- The `float` operations that `TriangleMesh.cpp` uses and does not define: the inline
functions of `math3d.h`, `sqrt`, the literal `0.0f` and the comparison `>`. -/
structure FloatOps (F : Type) where
  m3dCloseEnough : F → F → F → Bool
  m3dNormalizeVector3 : M3DVector3f F → M3DVector3f F
  m3dGetVectorLengthSquared3 : M3DVector3f F → F
  sqrt : F → F
  zero : F
  gt : F → F → Bool

/-- Modelled from the spec: `m3dGetVectorLengthSquared3` of `math3d.h` (the header is not
under `src/`), the "squared distance from the origin" `x^2 + y^2 + z^2`. -/
def lengthSquared3 {F : Type} [LinearOrderedField F] (u : M3DVector3f F) : F :=
  u.x * u.x + u.y * u.y + u.z * u.z

/-- Modelled from the spec: `m3dNormalizeVector3` of `math3d.h` (the header is not under
`src/`), "normalized to unit length": the vector scaled by the inverse of its length, in
exact arithmetic.  At the zero vector the field convention `1 / 0 = 0` makes the result the
zero vector, where `float` arithmetic gives NaN (`FloatOps.binary32`); and `float` results
for `n` and `c * n` may differ by rounding. -/
def normalize3 {F : Type} [LinearOrderedField F] (sqrt : F → F) (u : M3DVector3f F) :
    M3DVector3f F :=
  let s := 1 / sqrt (lengthSquared3 u)
  ⟨u.x * s, u.y * s, u.z * s⟩

/-- Modelled from the spec: `m3dCloseEnough` of `math3d.h` (the header is not under
`src/`), the "absolute-difference tolerance comparison per component": the candidate is
within `epsilon` of the stored value when `|candidate - compare| < epsilon`. -/
def closeEnough {F : Type} [LinearOrderedField F] (fCandidate fCompare fEpsilon : F) : Bool :=
  decide (|fCandidate - fCompare| < fEpsilon)

/-- Modelled from the spec: the primitives of `math3d.h` read over an ordered field, with
the square root left as a parameter (an ordered field need not have one). -/
def FloatOps.exact {F : Type} [LinearOrderedField F] (sqrt : F → F) : FloatOps F where
  m3dCloseEnough := closeEnough
  m3dNormalizeVector3 := normalize3 sqrt
  m3dGetVectorLengthSquared3 := lengthSquared3
  sqrt := sqrt
  zero := 0
  gt := fun a b => decide (a > b)

/-- Reduction of a counter to the range of `uint32_t`. -/
def u32 (n : Nat) : Nat := n % 2 ^ 32

/-- The data members of `class TriangleMesh`. -/
structure TriangleMesh (F : Type) where
  pIndexes : Nat → Nat
  pVerts : Nat → M3DVector3f F
  pNorms : Option (Nat → M3DVector3f F)
  pTexCoords : Option (Nat → M3DVector2f F)
  nMaxIndexes : Nat
  nNumIndexes : Nat
  nNumVerts : Nat
  bMadeStuff : Bool
  boundingSphereRadius : F

/-- The contents of the four blocks handed out by `new[]`.  C++ leaves them indeterminate,
so they are an argument of every operation that allocates. -/
structure Storage (F : Type) where
  indexes : Nat → Nat
  verts : Nat → M3DVector3f F
  norms : Nat → M3DVector3f F
  texCoords : Nat → M3DVector2f F

/-- The constructor `TriangleMesh::TriangleMesh`: all pointers `NULL`, all counts `0`, radius
`0.0f`.  The arrays behind the two `NULL` pointers that are modelled as plain arrays are
never read; `mem` supplies them. -/
def TriangleMesh.new {F : Type} (ops : FloatOps F) (mem : Storage F) : TriangleMesh F where
  pIndexes := mem.indexes
  pVerts := mem.verts
  pNorms := none
  pTexCoords := none
  nMaxIndexes := 0
  nNumIndexes := 0
  nNumVerts := 0
  bMadeStuff := false
  boundingSphereRadius := ops.zero

/-- The method `TriangleMesh::BeginMesh(uint32_t nMaxVerts)`: the three counters are set and four
fresh blocks of `nMaxIndexes` elements are allocated (`mem` is what they hold).
`bMadeStuff` and `boundingSphereRadius` are not assigned. -/
def BeginMesh {F : Type} (m : TriangleMesh F) (nMaxVerts : Nat) (mem : Storage F) :
    TriangleMesh F :=
  { m with
    nMaxIndexes := nMaxVerts
    nNumIndexes := 0
    nNumVerts := 0
    pIndexes := mem.indexes
    pVerts := mem.verts
    pNorms := some mem.norms
    pTexCoords := some mem.texCoords }

/-- One corner of a submitted triangle, as the loop body sees it: `verts[iVertex]`, and
`vNorms[iVertex]`, `vTexCoords[iVertex]` when the respective argument is not `NULL`. -/
structure Corner (F : Type) where
  vert : M3DVector3f F
  norm : Option (M3DVector3f F)
  texCoord : Option (M3DVector2f F)

/-- The condition of the `if` inside the search loop of `AddTriangle` at slot `iMatch`,
with the short-circuit order of `&&`: `none` when a `NULL` argument is dereferenced. -/
def matchAt {F : Type} (ops : FloatOps F) (m : TriangleMesh F) (iMatch : Nat) (c : Corner F)
    (epsilon : F) : Option Bool :=
  match m.pTexCoords, m.pNorms with
  | some pTexCoords, some pNorms =>
    if ops.m3dCloseEnough (m.pVerts iMatch).x c.vert.x epsilon &&
       ops.m3dCloseEnough (m.pVerts iMatch).y c.vert.y epsilon &&
       ops.m3dCloseEnough (m.pVerts iMatch).z c.vert.z epsilon then
      match c.norm with
      | none => none
      | some vNorm =>
        if ops.m3dCloseEnough (pNorms iMatch).x vNorm.x epsilon &&
           ops.m3dCloseEnough (pNorms iMatch).y vNorm.y epsilon &&
           ops.m3dCloseEnough (pNorms iMatch).z vNorm.z epsilon then
          match c.texCoord with
          | none => none
          | some vTexCoord =>
            some (ops.m3dCloseEnough (pTexCoords iMatch).x vTexCoord.x epsilon &&
                  ops.m3dCloseEnough (pTexCoords iMatch).y vTexCoord.y epsilon)
        else some false
    else some false
  | _, _ => some false

/-- The two statements `pIndexes[nNumIndexes] = i; nNumIndexes++;`, which `AddTriangle` executes
both when a match is found and when a vertex is appended.  The store is made at slot
`nNumIndexes` whatever its value: the code compares it with nothing here. -/
def pushIndex {F : Type} (m : TriangleMesh F) (i : Nat) : TriangleMesh F :=
  { m with
    pIndexes := Function.update m.pIndexes m.nNumIndexes i
    nNumIndexes := u32 (m.nNumIndexes + 1) }

/-- The search loop `for(iMatch = 0; iMatch < nNumVerts; iMatch++)` of `AddTriangle`, entered
at `iMatch` with `remaining = nNumVerts - iMatch` slots to visit.  On a match the index is
stored at `pIndexes[nNumIndexes]`, `nNumIndexes` is incremented and the loop is left.  The
result is the final value of `iMatch` and the mesh. -/
def searchLoop {F : Type} (ops : FloatOps F) (m : TriangleMesh F) (c : Corner F) (epsilon : F) :
    Nat → Nat → Option (Nat × TriangleMesh F)
  | 0, iMatch => some (iMatch, m)
  | remaining + 1, iMatch =>
    match matchAt ops m iMatch c epsilon with
    | none => none
    | some true => some (iMatch, pushIndex m iMatch)
    | some false => searchLoop ops m c epsilon remaining (iMatch + 1)

/-- The block "No match for this vertex, add to end of list" of `AddTriangle`: the three
`memcpy`s into slot `nNumVerts`, the index store and the two increments. -/
def appendVertex {F : Type} (m : TriangleMesh F) (c : Corner F) : Option (TriangleMesh F) :=
  match m.pNorms, c.norm, m.pTexCoords, c.texCoord with
  | some pNorms, some vNorm, some pTexCoords, some vTexCoord =>
    some { pushIndex m m.nNumVerts with
      pVerts := Function.update m.pVerts m.nNumVerts c.vert
      pNorms := some (Function.update pNorms m.nNumVerts vNorm)
      pTexCoords := some (Function.update pTexCoords m.nNumVerts vTexCoord)
      nNumVerts := u32 (m.nNumVerts + 1) }
  | _, _, _, _ => none

/-- The body of `for(iVertex = 0; iVertex < 3; iVertex++)` in `AddTriangle` for one corner:
the search loop, then the guarded append. -/
def addCorner {F : Type} (ops : FloatOps F) (m : TriangleMesh F) (c : Corner F) (epsilon : F) :
    Option (TriangleMesh F) :=
  match searchLoop ops m c epsilon m.nNumVerts 0 with
  | none => none
  | some (iMatch, m1) =>
    if iMatch = m1.nNumVerts ∧ m1.nNumVerts < m1.nMaxIndexes ∧ m1.nNumIndexes < m1.nMaxIndexes then
      appendVertex m1 c
    else some m1

/-- The corner `iVertex` of a call `AddTriangle(verts, vNorms, vTexCoords, epsilon)`, after the
normals have been normalized in place (which happens only when `vNorms != NULL`). -/
def cornerOf {F : Type} (ops : FloatOps F) (verts : Fin 3 → M3DVector3f F)
    (vNorms : Option (Fin 3 → M3DVector3f F)) (vTexCoords : Option (Fin 3 → M3DVector2f F))
    (iVertex : Fin 3) : Corner F where
  vert := verts iVertex
  norm := vNorms.map (fun n => ops.m3dNormalizeVector3 (n iVertex))
  texCoord := vTexCoords.map (fun t => t iVertex)

/-- The outer loop of `AddTriangle` run for the corners `0 .. n - 1`: the mesh at the moment
`iVertex` becomes `n`. -/
def cornerLoop {F : Type} (ops : FloatOps F) (m : TriangleMesh F) (verts : Fin 3 → M3DVector3f F)
    (vNorms : Option (Fin 3 → M3DVector3f F)) (vTexCoords : Option (Fin 3 → M3DVector2f F))
    (epsilon : F) : Nat → Option (TriangleMesh F)
  | 0 => some m
  | n + 1 =>
    match cornerLoop ops m verts vNorms vTexCoords epsilon n with
    | none => none
    | some m1 =>
      if h : n < 3 then addCorner ops m1 (cornerOf ops verts vNorms vTexCoords ⟨n, h⟩) epsilon
      else some m1

/-- The method `TriangleMesh::AddTriangle(verts, vNorms, vTexCoords, epsilon)`. -/
def AddTriangle {F : Type} (ops : FloatOps F) (m : TriangleMesh F) (verts : Fin 3 → M3DVector3f F)
    (vNorms : Option (Fin 3 → M3DVector3f F)) (vTexCoords : Option (Fin 3 → M3DVector2f F))
    (epsilon : F) : Option (TriangleMesh F) :=
  cornerLoop ops m verts vNorms vTexCoords epsilon 3

/-- The loop of `End` over the slots `i .. i + remaining - 1` of `pVerts`; `acc` is the running
value of `boundingSphereRadius`, which holds the largest squared length seen so far. -/
def radiusLoop {F : Type} (ops : FloatOps F) (pVerts : Nat → M3DVector3f F) :
    Nat → Nat → F → F
  | 0, _, acc => acc
  | remaining + 1, i, acc =>
    let r := ops.m3dGetVectorLengthSquared3 (pVerts i)
    radiusLoop ops pVerts remaining (i + 1) (if ops.gt r acc then r else acc)

/-- The method `TriangleMesh::End`: sets `bMadeStuff`, and sets `boundingSphereRadius` to the square
root of the value the loop leaves, which starts from `0.0f`. -/
def End {F : Type} (ops : FloatOps F) (m : TriangleMesh F) : TriangleMesh F :=
  { m with
    bMadeStuff := true
    boundingSphereRadius := ops.sqrt (radiusLoop ops m.pVerts m.nNumVerts 0 ops.zero) }

/-- The arguments of one call of `AddTriangle`. -/
structure Call (F : Type) where
  verts : Fin 3 → M3DVector3f F
  vNorms : Option (Fin 3 → M3DVector3f F)
  vTexCoords : Option (Fin 3 → M3DVector2f F)
  epsilon : F

/-- A sequence of `AddTriangle` calls made one after the other on a mesh. -/
def addTriangles {F : Type} (ops : FloatOps F) (m : TriangleMesh F) :
    List (Call F) → Option (TriangleMesh F)
  | [] => some m
  | c :: cs =>
    match AddTriangle ops m c.verts c.vNorms c.vTexCoords c.epsilon with
    | none => none
    | some m1 => addTriangles ops m1 cs

/-- A call made on a mesh that has been begun: `AddTriangle` with its arguments, or `End`. -/
inductive MeshOp (F : Type) where
  | addTriangle (c : Call F)
  | finish

/-- A sequence of `AddTriangle` and `End` calls made one after the other on a mesh. -/
def perform {F : Type} (ops : FloatOps F) (m : TriangleMesh F) :
    List (MeshOp F) → Option (TriangleMesh F)
  | [] => some m
  | MeshOp.addTriangle c :: rest =>
    match AddTriangle ops m c.verts c.vNorms c.vTexCoords c.epsilon with
    | none => none
    | some m1 => perform ops m1 rest
  | MeshOp.finish :: rest => perform ops (End ops m) rest

/-! ### The file format

A stream is the list of its bytes, each a number below `256`.  A `uint32_t` is written as its
four bytes, least significant first; a `float` is written as the four bytes of its object
representation, which `FloatBits` maps to and from a 32-bit pattern. -/

/-- The object representation of a `float`: its 32-bit pattern and the value a pattern stands
for. -/
structure FloatBits (F : Type) where
  toBits : F → Nat
  ofBits : Nat → F

/-- The four bytes of a 32-bit value, least significant first. -/
def le32 (n : Nat) : List Nat :=
  [n % 256, n / 256 % 256, n / 65536 % 256, n / 16777216 % 256]

/-- The 32-bit value held by the first four bytes of `bs`. -/
def de32 (bs : List Nat) : Nat :=
  bs.getD 0 0 + 256 * bs.getD 1 0 + 65536 * bs.getD 2 0 + 16777216 * bs.getD 3 0

/-- The four bytes of a `float`. -/
def floatBytes {F : Type} (bits : FloatBits F) (v : F) : List Nat :=
  le32 (bits.toBits v)

/-- The `float` held by the first four bytes of `bs`. -/
def floatOfBytes {F : Type} (bits : FloatBits F) (bs : List Nat) : F :=
  bits.ofBits (de32 bs)

/-- The twelve bytes of an `M3DVector3f`. -/
def vec3Bytes {F : Type} (bits : FloatBits F) (v : M3DVector3f F) : List Nat :=
  floatBytes bits v.x ++ floatBytes bits v.y ++ floatBytes bits v.z

/-- The `M3DVector3f` held by the first twelve bytes of `bs`. -/
def vec3OfBytes {F : Type} (bits : FloatBits F) (bs : List Nat) : M3DVector3f F :=
  ⟨floatOfBytes bits bs, floatOfBytes bits (bs.drop 4), floatOfBytes bits (bs.drop 8)⟩

/-- The eight bytes of an `M3DVector2f`. -/
def vec2Bytes {F : Type} (bits : FloatBits F) (v : M3DVector2f F) : List Nat :=
  floatBytes bits v.x ++ floatBytes bits v.y

/-- The `M3DVector2f` held by the first eight bytes of `bs`. -/
def vec2OfBytes {F : Type} (bits : FloatBits F) (bs : List Nat) : M3DVector2f F :=
  ⟨floatOfBytes bits bs, floatOfBytes bits (bs.drop 4)⟩

/-- The bytes of the first `n` elements of an array, each element written by `enc`: what
`fwrite(p, sizeof(T) * n, 1, pFile)` puts on the stream. -/
def arrayBytes {α : Type} (enc : α → List Nat) (p : Nat → α) : Nat → List Nat
  | 0 => []
  | n + 1 => arrayBytes enc p n ++ enc (p n)

/-- The call `fread(ptr, size, 1, pFile)` on a stream: whether it returned `1` (the whole item
was there and `size` is not `0`), the bytes it transferred, and the stream left. -/
def fread (size : Nat) (stream : List Nat) : Bool × List Nat × List Nat :=
  (decide (0 < size ∧ size ≤ stream.length), stream.take size, stream.drop size)

/-- An array after `fread` has transferred `bytes` into a fresh block: an element whose
`size` bytes all arrived is decoded by `dec`, any other keeps what the block held. -/
def arrayOfBytes {α : Type} (dec : List Nat → α) (size : Nat) (bytes : List Nat)
    (block : Nat → α) : Nat → α :=
  fun i => if (i + 1) * size ≤ bytes.length then dec ((bytes.drop (i * size)).take size)
    else block i

/-- The method `TriangleMesh::SaveMesh(FILE *pFile)`: the value returned and the bytes written to the
stream, in the order of the `fwrite` calls. -/
def SaveMesh {F : Type} (bits : FloatBits F) (m : TriangleMesh F) : Bool × List Nat :=
  (true,
    le32 m.nNumIndexes ++ le32 m.nNumVerts ++ floatBytes bits m.boundingSphereRadius ++
    arrayBytes le32 m.pIndexes m.nNumIndexes ++
    arrayBytes (vec3Bytes bits) m.pVerts m.nNumVerts ++
    (match m.pNorms with
     | some pNorms => arrayBytes (vec3Bytes bits) pNorms m.nNumVerts
     | none => []) ++
    (match m.pTexCoords with
     | some pTexCoords => arrayBytes (vec2Bytes bits) pTexCoords m.nNumVerts
     | none => []))

/-- The method `TriangleMesh::LoadMesh(FILE *pFile, bool bNormals, bool bTexCoords)`: the value
returned, the mesh, and the stream left.  `mem` is what the blocks from `new[]` hold before
`fread` fills them.  A header field whose four bytes are not all there is left as it was
(C leaves it indeterminate). -/
def LoadMesh {F : Type} (bits : FloatBits F) (m : TriangleMesh F) (stream : List Nat)
    (bNormals bTexCoords : Bool) (mem : Storage F) : Bool × TriangleMesh F × List Nat :=
  let r1 := fread 4 stream
  let nNumIndexes := if r1.1 then de32 r1.2.1 else m.nNumIndexes
  let r2 := fread 4 r1.2.2
  let nNumVerts := if r2.1 then de32 r2.2.1 else m.nNumVerts
  let r3 := fread 4 r2.2.2
  let boundingSphereRadius := if r3.1 then floatOfBytes bits r3.2.1 else m.boundingSphereRadius
  let r4 := fread (4 * nNumIndexes) r3.2.2
  let pIndexes := arrayOfBytes de32 4 r4.2.1 mem.indexes
  let r5 := fread (12 * nNumVerts) r4.2.2
  let pVerts := arrayOfBytes (vec3OfBytes bits) 12 r5.2.1 mem.verts
  let r6 := if bNormals then fread (12 * nNumVerts) r5.2.2 else (false, [], r5.2.2)
  let pNorms :=
    if bNormals then
      (if r6.1 then some (arrayOfBytes (vec3OfBytes bits) 12 r6.2.1 mem.norms) else none)
    else m.pNorms
  let r7 := if bTexCoords then fread (8 * nNumVerts) r6.2.2 else (false, [], r6.2.2)
  let pTexCoords :=
    if bTexCoords then
      (if r7.1 then some (arrayOfBytes (vec2OfBytes bits) 8 r7.2.1 mem.texCoords) else none)
    else m.pTexCoords
  (true,
    { m with
      nNumIndexes := nNumIndexes
      nNumVerts := nNumVerts
      boundingSphereRadius := boundingSphereRadius
      pIndexes := pIndexes
      pVerts := pVerts
      pNorms := pNorms
      pTexCoords := pTexCoords },
    r7.2.2)

/-! ### Notions used to state the properties -/

/-- A vertex with all three attributes: a position, a normal and a texture coordinate. -/
structure Vertex (F : Type) where
  vert : M3DVector3f F
  norm : M3DVector3f F
  texCoord : M3DVector2f F

/-- The corner submitted for a vertex when both `vNorms` and `vTexCoords` are supplied. -/
def Vertex.corner {F : Type} (v : Vertex F) : Corner F :=
  ⟨v.vert, some v.norm, some v.texCoord⟩

/-- The eight comparisons that `AddTriangle` makes between a stored vertex and a submitted
one: all eight components of `submitted` are close enough to those of `stored`. -/
def closeVertex {F : Type} (ops : FloatOps F) (epsilon : F) (stored submitted : Vertex F) : Bool :=
  ops.m3dCloseEnough stored.vert.x submitted.vert.x epsilon &&
  ops.m3dCloseEnough stored.vert.y submitted.vert.y epsilon &&
  ops.m3dCloseEnough stored.vert.z submitted.vert.z epsilon &&
  ops.m3dCloseEnough stored.norm.x submitted.norm.x epsilon &&
  ops.m3dCloseEnough stored.norm.y submitted.norm.y epsilon &&
  ops.m3dCloseEnough stored.norm.z submitted.norm.z epsilon &&
  ops.m3dCloseEnough stored.texCoord.x submitted.texCoord.x epsilon &&
  ops.m3dCloseEnough stored.texCoord.y submitted.texCoord.y epsilon

/-- A triangle submitted with normals and texture coordinates. -/
structure Triangle (F : Type) where
  verts : Fin 3 → M3DVector3f F
  norms : Fin 3 → M3DVector3f F
  texCoords : Fin 3 → M3DVector2f F

/-- The call `AddTriangle(verts, vNorms, vTexCoords, epsilon)` that submits a triangle with
normals and texture coordinates. -/
def Triangle.call {F : Type} (t : Triangle F) (epsilon : F) : Call F :=
  ⟨t.verts, some t.norms, some t.texCoords, epsilon⟩

/-- The corner `i` of a triangle as the caller supplies it. -/
def Triangle.supplied {F : Type} (t : Triangle F) (i : Fin 3) : Vertex F :=
  ⟨t.verts i, t.norms i, t.texCoords i⟩

/-- The corner `i` of a triangle as `AddTriangle` compares and stores it: the normal is
normalized first. -/
def Triangle.vertex {F : Type} (ops : FloatOps F) (t : Triangle F) (i : Fin 3) : Vertex F :=
  ⟨t.verts i, ops.m3dNormalizeVector3 (t.norms i), t.texCoords i⟩

/-- The three corners of a triangle in the order `AddTriangle` handles them. -/
def Triangle.vertices {F : Type} (ops : FloatOps F) (t : Triangle F) : List (Vertex F) :=
  [t.vertex ops 0, t.vertex ops 1, t.vertex ops 2]

/-- The corners of a sequence of triangles in submission order. -/
def allVertices {F : Type} (ops : FloatOps F) : List (Triangle F) → List (Vertex F)
  | [] => []
  | t :: ts => t.vertices ops ++ allVertices ops ts

/-- The vertex stored in slot `i`, when the mesh has its normal and texture arrays. -/
def TriangleMesh.vertexAt {F : Type} (m : TriangleMesh F) (i : Nat) : Option (Vertex F) :=
  match m.pNorms, m.pTexCoords with
  | some pNorms, some pTexCoords => some ⟨m.pVerts i, pNorms i, pTexCoords i⟩
  | _, _ => none

/-- The loop body of `AddTriangle` run over a list of corners with one `epsilon`. -/
def addCorners {F : Type} (ops : FloatOps F) (epsilon : F) (m : TriangleMesh F) :
    List (Corner F) → Option (TriangleMesh F)
  | [] => some m
  | c :: cs =>
    match addCorner ops m c epsilon with
    | none => none
    | some m1 => addCorners ops epsilon m1 cs

/-- The index that handling one corner emitted, read off the meshes before and after: the
value stored at the old `nNumIndexes`, when `nNumIndexes` was incremented. -/
def emitted {F : Type} (before after : TriangleMesh F) : Option Nat :=
  if after.nNumIndexes = u32 (before.nNumIndexes + 1) then some (after.pIndexes before.nNumIndexes)
  else none

/-- A mesh that has been begun with the given capacity: both optional arrays are allocated,
`nMaxIndexes` is the capacity and no more than `capacity` vertices are stored. -/
def Begun {F : Type} (capacity : Nat) (m : TriangleMesh F) : Prop :=
  m.pNorms.isSome = true ∧ m.pTexCoords.isSome = true ∧ m.nMaxIndexes = capacity ∧
    m.nNumVerts ≤ capacity

/-- Slot `k` is the one the search loop stops at for corner `c`: it is a stored slot, it
matches, and no slot before it does. -/
def FirstMatch {F : Type} (ops : FloatOps F) (epsilon : F) (m : TriangleMesh F) (c : Corner F)
    (k : Nat) : Prop :=
  k < m.nNumVerts ∧ matchAt ops m k c epsilon = some true ∧
    ∀ j, j < k → matchAt ops m j c epsilon = some false

/-- The mesh at the moment the loop of `AddTriangle` reaches `iVertex = n` in the call that
submits `t`, made after the calls that submit `ts` on a mesh begun with `capacity`. -/
def stateAt {F : Type} (ops : FloatOps F) (m0 : TriangleMesh F) (capacity : Nat) (mem : Storage F)
    (epsilon : F) (ts : List (Triangle F)) (t : Triangle F) (n : Nat) : Option (TriangleMesh F) :=
  match addTriangles ops (BeginMesh m0 capacity mem) (ts.map (fun t => t.call epsilon)) with
  | none => none
  | some s => cornerLoop ops s t.verts (some t.norms) (some t.texCoords) epsilon n

/-- The index array holds only indices of stored vertices. -/
def ValidIndexes {F : Type} (m : TriangleMesh F) : Prop :=
  ∀ k, k < m.nNumIndexes → m.pIndexes k < m.nNumVerts

/-- The result of `load(save(mesh))`: a freshly constructed mesh loads, with both flags set, the
bytes that `m` saved. -/
def loadSaved {F : Type} (ops : FloatOps F) (bits : FloatBits F) (m : TriangleMesh F)
    (mem1 mem2 : Storage F) : Bool × TriangleMesh F × List Nat :=
  LoadMesh bits (TriangleMesh.new ops mem1) (SaveMesh bits m).2 true true mem2

/-- A stand-in for `float` whose values are the 32-bit patterns themselves, with comparison by
equality; it serves to run the file format on a concrete mesh. -/
def patternOps : FloatOps (Fin 4294967296) where
  m3dCloseEnough := fun a b _ => decide (a = b)
  m3dNormalizeVector3 := fun v => v
  m3dGetVectorLengthSquared3 := fun v => v.x
  sqrt := fun a => a
  zero := 0
  gt := fun a b => decide (a > b)

/-- The object representation of a 32-bit pattern is the pattern. -/
def patternBits : FloatBits (Fin 4294967296) where
  toBits := fun a => a.val
  ofBits := fun n => ⟨n % 4294967296, Nat.mod_lt n (by decide)⟩

/-- Blocks of 32-bit patterns that hold zeros. -/
def patternStorage : Storage (Fin 4294967296) :=
  ⟨fun _ => 0, fun _ => ⟨0, 0, 0⟩, fun _ => ⟨0, 0, 0⟩, fun _ => ⟨0, 0⟩⟩

/-- A triangle of 32-bit patterns with three different corners. -/
def patternTriangle : Triangle (Fin 4294967296) :=
  ⟨![⟨0, 0, 0⟩, ⟨1, 0, 0⟩, ⟨0, 1, 0⟩], fun _ => ⟨0, 0, 1⟩, fun _ => ⟨0, 0⟩⟩

/-! ### The worked example of the specification -/

/-- Blocks that hold zeros: one possible content of freshly allocated arrays. -/
def zeroStorage {F : Type} [LinearOrderedField F] : Storage F :=
  ⟨fun _ => 0, fun _ => ⟨0, 0, 0⟩, fun _ => ⟨0, 0, 0⟩, fun _ => ⟨0, 0⟩⟩

/-- The positions `(0,0,0), (1,0,0), (0,1,0)` of the first triangle of the worked example. -/
def exampleVerts1 {F : Type} [LinearOrderedField F] : Fin 3 → M3DVector3f F :=
  ![⟨0, 0, 0⟩, ⟨1, 0, 0⟩, ⟨0, 1, 0⟩]

/-- The positions `(0,0,0), (1,0,0), (0,0,1)` of the second triangle of the worked example. -/
def exampleVerts2 {F : Type} [LinearOrderedField F] : Fin 3 → M3DVector3f F :=
  ![⟨0, 0, 0⟩, ⟨1, 0, 0⟩, ⟨0, 0, 1⟩]

/-- The positions `(2,0,0), (3,0,0), (2,1,0)`: a triangle that shares no corner with the
triangles of the worked example. -/
def exampleVerts3 {F : Type} [LinearOrderedField F] : Fin 3 → M3DVector3f F :=
  ![⟨2, 0, 0⟩, ⟨3, 0, 0⟩, ⟨2, 1, 0⟩]

/-- The tolerance of the worked example, `1e-7`. -/
def exampleEpsilon {F : Type} [LinearOrderedField F] : F := 1 / 10000000

/-- A triangle with the given positions, and the normal `N` and the texture coordinate `T` at
each of its corners. -/
def flatTriangle {F : Type} (verts : Fin 3 → M3DVector3f F) (N : M3DVector3f F)
    (T : M3DVector2f F) : Triangle F :=
  ⟨verts, fun _ => N, fun _ => T⟩

/-- The worked example with the normal `N` and the texture coordinate `T` supplied at every
corner, on a mesh begun with `capacity`. -/
def exampleSupplied {F : Type} [LinearOrderedField F] (sqrt : F → F) (capacity : Nat)
    (N : M3DVector3f F) (T : M3DVector2f F) : Option (TriangleMesh F) :=
  addTriangles (FloatOps.exact sqrt)
    (BeginMesh (TriangleMesh.new (FloatOps.exact sqrt) zeroStorage) capacity zeroStorage)
    [(flatTriangle exampleVerts1 N T).call exampleEpsilon,
     (flatTriangle exampleVerts2 N T).call exampleEpsilon]

/-- The first triangle of the worked example submitted twice, with the normal `N` and the texture
coordinate `T` at every corner, on a mesh begun with `capacity`. -/
def exampleTwice {F : Type} [LinearOrderedField F] (sqrt : F → F) (capacity : Nat)
    (N : M3DVector3f F) (T : M3DVector2f F) : Option (TriangleMesh F) :=
  addTriangles (FloatOps.exact sqrt)
    (BeginMesh (TriangleMesh.new (FloatOps.exact sqrt) zeroStorage) capacity zeroStorage)
    [(flatTriangle exampleVerts1 N T).call exampleEpsilon,
     (flatTriangle exampleVerts1 N T).call exampleEpsilon]

/-- Two triangles without a common corner, with the normal `N` and the texture coordinate `T`
at every corner, submitted on a mesh begun with `capacity`. -/
def exampleApart {F : Type} [LinearOrderedField F] (sqrt : F → F) (capacity : Nat)
    (N : M3DVector3f F) (T : M3DVector2f F) : Option (TriangleMesh F) :=
  addTriangles (FloatOps.exact sqrt)
    (BeginMesh (TriangleMesh.new (FloatOps.exact sqrt) zeroStorage) capacity zeroStorage)
    [(flatTriangle exampleVerts1 N T).call exampleEpsilon,
     (flatTriangle exampleVerts3 N T).call exampleEpsilon]

/-- No stored vertex is close to an earlier stored vertex: for slots `i < j < nNumVerts`, the
eight comparisons of the vertex in slot `j` against the vertex in slot `i` do not all
succeed. -/
def NoWeldablePair {F : Type} (ops : FloatOps F) (epsilon : F) (m : TriangleMesh F) : Prop :=
  ∀ i j, i < j → j < m.nNumVerts →
    ∃ si sj, m.vertexAt i = some si ∧ m.vertexAt j = some sj ∧
      closeVertex ops epsilon si sj = false

/-- The corners of a sequence of calls, each made with its own tolerance, in submission order:
every corner as `AddTriangle` compares and stores it, paired with the `epsilon` of its call. -/
def submittedCorners {F : Type} (ops : FloatOps F) : List (Triangle F × F) → List (Vertex F × F)
  | [] => []
  | p :: rest =>
    [(p.1.vertex ops 0, p.2), (p.1.vertex ops 1, p.2), (p.1.vertex ops 2, p.2)] ++
      submittedCorners ops rest

/-- The loop body of `AddTriangle` run over a list of corners, each with its own tolerance. -/
def addCornersWith {F : Type} (ops : FloatOps F) (m : TriangleMesh F) :
    List (Vertex F × F) → Option (TriangleMesh F)
  | [] => some m
  | p :: rest =>
    match addCorner ops m p.1.corner p.2 with
    | none => none
    | some m1 => addCornersWith ops m1 rest

/-- A stream that holds a header (the three 4-byte fields), an index block, a position block
and whatever follows them. -/
def meshStream (hIndexes hVerts hRadius indexBlock positionBlock rest : List Nat) : List Nat :=
  hIndexes ++ (hVerts ++ (hRadius ++ (indexBlock ++ (positionBlock ++ rest))))

/-- The mesh that a freshly constructed instance holds after `LoadMesh` on a stream. -/
def loadFresh {F : Type} (ops : FloatOps F) (bits : FloatBits F) (stream : List Nat)
    (bNormals bTexCoords : Bool) (mem1 mem : Storage F) : TriangleMesh F :=
  (LoadMesh bits (TriangleMesh.new ops mem1) stream bNormals bTexCoords mem).2.1

/-! ### The geometry transform composer (`M3DGeometryTransform.h`) -/

/-- A 4x4 matrix of floats, `M3DMatrix44f`. -/
abbrev M3DMatrix44f (F : Type) := Matrix (Fin 4) (Fin 4) F

/-- A 3x3 matrix of floats, `M3DMatrix33f`. -/
abbrev M3DMatrix33f (F : Type) := Matrix (Fin 3) (Fin 3) F

/-- Modelled from the spec: `m3dMatrixMultiply44(product, a, b)` of `math3d.h` (the header is
not under `src/`), the "4x4 matrix multiply": `product` is the matrix product `a x b`. -/
def m3dMatrixMultiply44 {F : Type} [LinearOrderedField F] (a b : M3DMatrix44f F) :
    M3DMatrix44f F :=
  a * b

/-- Modelled from the spec: the class `M3DMatrixStack` of `M3DMatrixStack.h` (not under `src/`), a
stack of matrices that is never empty: its top and the matrices below it. -/
structure M3DMatrixStack (F : Type) where
  top : M3DMatrix44f F
  below : List (M3DMatrix44f F)

/-- Modelled from the spec: `M3DMatrixStack::GetMatrix`, which "forwards the current top" of
the stack. -/
def M3DMatrixStack.GetMatrix {F : Type} (s : M3DMatrixStack F) : M3DMatrix44f F :=
  s.top

/-- The data members of `class M3DGeometryTransform`.  The two stacks belong to the caller;
the members are pointers, here the address of a stack or `none` for `NULL`. -/
structure M3DGeometryTransform (F : Type) where
  _mModelViewProjection : M3DMatrix44f F
  _mNormalMatrix : M3DMatrix33f F
  _mModelView : Option Nat
  _mProjection : Option Nat

/-- The method `SetModelViewMatrixStack`: binds the model-view stack at `mModelView`. -/
def SetModelViewMatrixStack {F : Type} (g : M3DGeometryTransform F) (mModelView : Nat) :
    M3DGeometryTransform F :=
  { g with _mModelView := some mModelView }

/-- The method `SetProjectionMatrixStack`: binds the projection stack at `mProjection`. -/
def SetProjectionMatrixStack {F : Type} (g : M3DGeometryTransform F) (mProjection : Nat) :
    M3DGeometryTransform F :=
  { g with _mProjection := some mProjection }

/-- The method `SetMatrixStacks`: binds both stacks. -/
def SetMatrixStacks {F : Type} (g : M3DGeometryTransform F) (mModelView mProjection : Nat) :
    M3DGeometryTransform F :=
  { g with _mModelView := some mModelView, _mProjection := some mProjection }

/-- The method `GetModelViewProjectionMatrix`, given the stacks the caller owns (`stackAt`, by address) as
they are at the time of the call: the product is computed into `_mModelViewProjection` and
returned; `none` when a stack pointer is `NULL`. -/
def GetModelViewProjectionMatrix {F : Type} [LinearOrderedField F]
    (stackAt : Nat → M3DMatrixStack F) (g : M3DGeometryTransform F) :
    Option (M3DMatrix44f F × M3DGeometryTransform F) :=
  match g._mProjection, g._mModelView with
  | some pProjection, some pModelView =>
    let product := m3dMatrixMultiply44 (stackAt pProjection).GetMatrix (stackAt pModelView).GetMatrix
    some (product, { g with _mModelViewProjection := product })
  | _, _ => none

/-- A state with `nNumIndexes = nMaxIndexes = 2^32 - 1`: two stored vertices, `(0,0,0)` and
`(1,0,0)`, both with the normal `N` (normalized) and the texture coordinate `T`, index `0`
in slot `0` and index `1` in every other slot.  It is the state after `BeginMesh(4294967295)`,
one triangle with the corners `(0,0,0), (1,0,0), (1,0,0)` and `1431655764` triangles with
three times the corner `(1,0,0)`. -/
def fullIndexState {F : Type} [LinearOrderedField F] (sqrt : F → F) (N : M3DVector3f F)
    (T : M3DVector2f F) : TriangleMesh F where
  pIndexes := fun k => if k = 0 then 0 else 1
  pVerts := fun i => if i = 0 then ⟨0, 0, 0⟩ else ⟨1, 0, 0⟩
  pNorms := some (fun _ => normalize3 sqrt N)
  pTexCoords := some (fun _ => T)
  nMaxIndexes := 4294967295
  nNumIndexes := 4294967295
  nNumVerts := 2
  bMadeStuff := false
  boundingSphereRadius := 0

/-- The state `fullIndexState` while it is being filled: `nVerts` vertices are stored and
`nIndexes` indices are written. -/
def fillState {F : Type} [LinearOrderedField F] (sqrt : F → F) (N : M3DVector3f F)
    (T : M3DVector2f F) (nVerts nIndexes : Nat) : TriangleMesh F :=
  { fullIndexState sqrt N T with
    nNumVerts := nVerts
    nNumIndexes := nIndexes }

/-- One possible content of freshly allocated arrays: what the filling of `fullIndexState`
writes anyway, so that every store of that run leaves the array as it is. -/
def fullStorage {F : Type} [LinearOrderedField F] (sqrt : F → F) (N : M3DVector3f F)
    (T : M3DVector2f F) : Storage F :=
  ⟨fun k => if k = 0 then 0 else 1, fun i => if i = 0 then ⟨0, 0, 0⟩ else ⟨1, 0, 0⟩,
    fun _ => normalize3 sqrt N, fun _ => T⟩

/-- The call with three times the corner `(1,0,0)`. -/
def sameCornerCall {F : Type} [LinearOrderedField F] (N : M3DVector3f F) (T : M3DVector2f F) :
    Call F :=
  ⟨fun _ => ⟨1, 0, 0⟩, some (fun _ => N), some (fun _ => T), exampleEpsilon⟩

/-- The calls that fill `fullIndexState`: the triangle `(0,0,0), (1,0,0), (1,0,0)`, then
`1431655764` triangles with three times the corner `(1,0,0)`. -/
def fullIndexCalls {F : Type} [LinearOrderedField F] (N : M3DVector3f F) (T : M3DVector2f F) :
    List (Call F) :=
  ⟨![⟨0, 0, 0⟩, ⟨1, 0, 0⟩, ⟨1, 0, 0⟩], some (fun _ => N), some (fun _ => T), exampleEpsilon⟩ ::
    List.replicate 1431655764 (sameCornerCall N T)

/-! ### The type `float` as IEEE 754 binary32 -/

/-- A value of the C++ type `float`, read as IEEE 754 binary32: a NaN, an infinity with its
sign, or a finite value with its sign and its magnitude `units * 2^-149`.  Every finite
binary32 magnitude is such a multiple of the smallest subnormal `2^-149`, with
`units < 2^128 * 2^149`.  Both zeros are kept; the sign and payload of a NaN are not. -/
inductive Binary32 where
  | nan : Binary32
  | inf (negative : Bool) : Binary32
  | finite (negative : Bool) (units : Nat) : Binary32
deriving DecidableEq

/-- The loop that counts the binary digits of `n` by halving it until it is `0`. -/
def bitLengthLoop : Nat → Nat → Nat → Nat
  | 0, _, count => count
  | fuel + 1, n, count => if n = 0 then count else bitLengthLoop fuel (n / 2) (count + 1)

/-- The number of binary digits of `n`, `0` for `0`. -/
def bitLength (n : Nat) : Nat := bitLengthLoop n n 0

/-- The iteration `x := (x + n / x) / 2` for the integer square root of `n`, run from a value
`x` that is not below the root until it stops decreasing. -/
def sqrtLoop (n : Nat) : Nat → Nat → Nat
  | 0, x => x
  | fuel + 1, x => if (x + n / x) / 2 < x then sqrtLoop n fuel ((x + n / x) / 2) else x

/-- The integer square root of `n`: the largest `r` with `r * r <= n`.  The iteration starts
from a power of two that is not below the root. -/
def natSqrt (n : Nat) : Nat :=
  sqrtLoop n (2 ^ ((bitLength n + 1) / 2)) (2 ^ ((bitLength n + 1) / 2))

/-- Rounding to nearest, ties to even: `n` when less than half of `scale` remains, `n + 1`
when more than half remains, and the even one of the two at exactly half. -/
def nearest (n twiceRemainder scale : Nat) : Nat :=
  if twiceRemainder < scale then n
  else if scale < twiceRemainder then n + 1
  else if n % 2 = 0 then n else n + 1

/-- The binary32 value nearest to the exact magnitude `num / den` units of `2^-149`
(`den > 0`), ties to even: the quotient is cut to 24 significant binary digits (fewer in
the subnormal range, where one unit is the spacing), and a result of `2^128` or more is an
infinity. -/
def Binary32.roundUnits (negative : Bool) (num den : Nat) : Binary32 :=
  let shift := bitLength (num / den) - 24
  let scale := den * 2 ^ shift
  let units := nearest (num / scale) (2 * (num % scale)) scale * 2 ^ shift
  if units < 2 ^ 128 * 2 ^ 149 then Binary32.finite negative units else Binary32.inf negative

/-- The unary minus of `float`. -/
def Binary32.neg : Binary32 → Binary32
  | Binary32.nan => Binary32.nan
  | Binary32.inf a => Binary32.inf (!a)
  | Binary32.finite a x => Binary32.finite (!a) x

/-- The operator `+` of `float`: the exact sum rounded once.  Infinities of opposite sign
give NaN; an exact sum of zero is `+0` unless both operands are `-0`. -/
def Binary32.add : Binary32 → Binary32 → Binary32
  | Binary32.nan, _ => Binary32.nan
  | _, Binary32.nan => Binary32.nan
  | Binary32.inf a, Binary32.inf b => if a = b then Binary32.inf a else Binary32.nan
  | Binary32.inf a, Binary32.finite _ _ => Binary32.inf a
  | Binary32.finite _ _, Binary32.inf b => Binary32.inf b
  | Binary32.finite a x, Binary32.finite b y =>
    if a = b then Binary32.roundUnits a (x + y) 1
    else if y < x then Binary32.roundUnits a (x - y) 1
    else if x < y then Binary32.roundUnits b (y - x) 1
    else Binary32.finite false 0

/-- The operator `-` of `float`. -/
def Binary32.sub (x y : Binary32) : Binary32 := x.add y.neg

/-- The operator `*` of `float`: the exact product rounded once.  Zero times an infinity is
NaN. -/
def Binary32.mul : Binary32 → Binary32 → Binary32
  | Binary32.nan, _ => Binary32.nan
  | _, Binary32.nan => Binary32.nan
  | Binary32.inf a, Binary32.inf b => Binary32.inf (a != b)
  | Binary32.inf a, Binary32.finite b y => if y = 0 then Binary32.nan else Binary32.inf (a != b)
  | Binary32.finite a x, Binary32.inf b => if x = 0 then Binary32.nan else Binary32.inf (a != b)
  | Binary32.finite a x, Binary32.finite b y => Binary32.roundUnits (a != b) (x * y) (2 ^ 149)

/-- The operator `/` of `float`: the exact quotient rounded once.  A non-zero value divided
by zero is an infinity; zero by zero and infinity by infinity are NaN. -/
def Binary32.div : Binary32 → Binary32 → Binary32
  | Binary32.nan, _ => Binary32.nan
  | _, Binary32.nan => Binary32.nan
  | Binary32.inf _, Binary32.inf _ => Binary32.nan
  | Binary32.inf a, Binary32.finite b _ => Binary32.inf (a != b)
  | Binary32.finite a _, Binary32.inf b => Binary32.finite (a != b) 0
  | Binary32.finite a x, Binary32.finite b y =>
    if y = 0 then (if x = 0 then Binary32.nan else Binary32.inf (a != b))
    else Binary32.roundUnits (a != b) (x * 2 ^ 149) y

/-- The function `sqrtf`: the exact square root rounded once.  With `K = units * 2^149` the
root is `sqrt K` units; it is cut to its 24 leading binary digits `n`, and `n` or `n + 1`
is chosen by comparing `4 K` with `(2 n + 1)^2 * 4^shift`.  A negative value gives NaN. -/
def Binary32.sqrt : Binary32 → Binary32
  | Binary32.nan => Binary32.nan
  | Binary32.inf a => if a then Binary32.nan else Binary32.inf false
  | Binary32.finite a x =>
    if x = 0 then Binary32.finite a 0
    else if a then Binary32.nan
    else
      let shift := bitLength (natSqrt (x * 2 ^ 149)) - 24
      let n := natSqrt (x * 2 ^ 149) / 2 ^ shift
      Binary32.finite false
        (nearest n (4 * (x * 2 ^ 149) - (2 * n) ^ 2 * 4 ^ shift) ((4 * n + 1) * 4 ^ shift)
          * 2 ^ shift)

/-- The function `fabs`. -/
def Binary32.abs : Binary32 → Binary32
  | Binary32.nan => Binary32.nan
  | Binary32.inf _ => Binary32.inf false
  | Binary32.finite _ x => Binary32.finite false x

/-- The operator `<` of `float`: false whenever an operand is NaN; the two zeros are equal. -/
def Binary32.lt : Binary32 → Binary32 → Bool
  | Binary32.nan, _ => false
  | _, Binary32.nan => false
  | Binary32.inf a, Binary32.inf b => a && !b
  | Binary32.inf a, Binary32.finite _ _ => a
  | Binary32.finite _ _, Binary32.inf b => !b
  | Binary32.finite false x, Binary32.finite false y => decide (x < y)
  | Binary32.finite true x, Binary32.finite true y => decide (y < x)
  | Binary32.finite true x, Binary32.finite false y => decide (0 < x) || decide (0 < y)
  | Binary32.finite false _, Binary32.finite true _ => false

/-- The `float` nearest to the natural number `n`. -/
def Binary32.ofNat (n : Nat) : Binary32 := Binary32.roundUnits false (n * 2 ^ 149) 1

/-- Modelled from the spec: the primitives of `math3d.h` (the header is not under `src/`)
computed in binary32, every operation rounded once.  `m3dCloseEnough` is the
"absolute-difference tolerance comparison" `fabs(candidate - compare) < epsilon`,
`m3dGetVectorLengthSquared3` is `x*x + y*y + z*z`, and `m3dNormalizeVector3` scales the three
components by `1.0f / sqrtf(x*x + y*y + z*z)`. -/
def FloatOps.binary32 : FloatOps Binary32 where
  m3dCloseEnough := fun fCandidate fCompare fEpsilon =>
    ((fCandidate.sub fCompare).abs).lt fEpsilon
  m3dNormalizeVector3 := fun u =>
    let scale := (Binary32.ofNat 1).div
      ((((u.x.mul u.x).add (u.y.mul u.y)).add (u.z.mul u.z)).sqrt)
    ⟨u.x.mul scale, u.y.mul scale, u.z.mul scale⟩
  m3dGetVectorLengthSquared3 := fun u => ((u.x.mul u.x).add (u.y.mul u.y)).add (u.z.mul u.z)
  sqrt := Binary32.sqrt
  zero := Binary32.finite false 0
  gt := fun a b => b.lt a

/-- The vector with the components `x`, `y`, `z` as `float`s. -/
def float32Vector (x y z : Nat) : M3DVector3f Binary32 :=
  ⟨Binary32.ofNat x, Binary32.ofNat y, Binary32.ofNat z⟩

/-- The literal `1e-7f`: the `float` nearest to `1/10000000`. -/
def float32Epsilon : Binary32 := Binary32.roundUnits false (2 ^ 149) 10000000

/-- Blocks of `float`s that hold zeros. -/
def float32Storage : Storage Binary32 :=
  ⟨fun _ => 0, fun _ => float32Vector 0 0 0, fun _ => float32Vector 0 0 0,
    fun _ => ⟨Binary32.ofNat 0, Binary32.ofNat 0⟩⟩

/-- The triangle with the positions `(0,0,0), (1,0,0), (0,1,0)` of the first triangle of the
worked example, the normal `(x,y,z)` at every corner and the texture coordinate `(0,0)`. -/
def float32Triangle (x y z : Nat) : Triangle Binary32 :=
  ⟨![float32Vector 0 0 0, float32Vector 1 0 0, float32Vector 0 1 0],
    fun _ => float32Vector x y z, fun _ => ⟨Binary32.ofNat 0, Binary32.ofNat 0⟩⟩

/-- The triangle with the positions `(0,0,0), (1,0,0), (0,0,1)` of the second triangle of the
worked example, the normal `(x,y,z)` at every corner and the texture coordinate `(0,0)`. -/
def float32Triangle2 (x y z : Nat) : Triangle Binary32 :=
  ⟨![float32Vector 0 0 0, float32Vector 1 0 0, float32Vector 0 0 1],
    fun _ => float32Vector x y z, fun _ => ⟨Binary32.ofNat 0, Binary32.ofNat 0⟩⟩

/-- Whether a `float` is neither a NaN nor an infinity. -/
def Binary32.isFinite : Binary32 → Bool
  | Binary32.finite _ _ => true
  | _ => false

/-! ### The search loop and the loop body -/

section Loop

variable {F : Type} (ops : FloatOps F) (m : TriangleMesh F) (c : Corner F) (epsilon : F)

theorem searchLoop_miss (remaining iMatch : Nat)
    (h : ∀ k, iMatch ≤ k → k < iMatch + remaining → matchAt ops m k c epsilon = some false) :
    searchLoop ops m c epsilon remaining iMatch = some (iMatch + remaining, m) := by
  induction remaining generalizing iMatch with
  | zero => rfl
  | succ r ih =>
    have h0 : matchAt ops m iMatch c epsilon = some false := h iMatch (le_refl _) (by omega)
    rw [searchLoop, h0]
    simp only
    rw [ih (iMatch + 1) (fun k hk1 hk2 => h k (by omega) (by omega))]
    congr 2
    omega

theorem searchLoop_hit (remaining iMatch j : Nat) (hij : iMatch ≤ j) (hj : j < iMatch + remaining)
    (hhit : matchAt ops m j c epsilon = some true)
    (h : ∀ k, iMatch ≤ k → k < j → matchAt ops m k c epsilon = some false) :
    searchLoop ops m c epsilon remaining iMatch = some (j, pushIndex m j) := by
  induction remaining generalizing iMatch with
  | zero => omega
  | succ r ih =>
    rcases Nat.eq_or_lt_of_le hij with heq | hlt
    · subst heq
      rw [searchLoop, hhit]
    · have h0 : matchAt ops m iMatch c epsilon = some false := h iMatch (le_refl _) hlt
      rw [searchLoop, h0]
      simp only
      exact ih (iMatch + 1) hlt (by omega) (fun k hk1 hk2 => h k (by omega) hk2)

/-- What the search loop can return: it ran through all slots without a match, or it stopped
at the first matching slot and pushed its index. -/
theorem searchLoop_cases (remaining iMatch j : Nat) (m1 : TriangleMesh F)
    (h : searchLoop ops m c epsilon remaining iMatch = some (j, m1)) :
    (j = iMatch + remaining ∧ m1 = m ∧
      ∀ k, iMatch ≤ k → k < iMatch + remaining → matchAt ops m k c epsilon = some false) ∨
    (iMatch ≤ j ∧ j < iMatch + remaining ∧ m1 = pushIndex m j ∧
      matchAt ops m j c epsilon = some true ∧
      ∀ k, iMatch ≤ k → k < j → matchAt ops m k c epsilon = some false) := by
  induction remaining generalizing iMatch with
  | zero =>
    simp only [searchLoop, Option.some.injEq, Prod.mk.injEq] at h
    exact Or.inl ⟨by omega, h.2.symm, fun k h1 h2 => by omega⟩
  | succ r ih =>
    rw [searchLoop] at h
    cases h0 : matchAt ops m iMatch c epsilon with
    | none => rw [h0] at h; simp at h
    | some b =>
      cases b with
      | true =>
        rw [h0] at h
        simp only [Option.some.injEq, Prod.mk.injEq] at h
        obtain ⟨hj, hm1⟩ := h
        subst hj
        exact Or.inr ⟨le_refl _, by omega, hm1.symm, h0, fun k h1 h2 => by omega⟩
      | false =>
        rw [h0] at h
        simp only at h
        rcases ih (iMatch + 1) h with ⟨h1, h2, h3⟩ | ⟨h1, h2, h3, h4, h5⟩
        · refine Or.inl ⟨by omega, h2, fun k hk1 hk2 => ?_⟩
          rcases Nat.eq_or_lt_of_le hk1 with heq | hlt
          · rw [← heq]; exact h0
          · exact h3 k hlt (by omega)
        · refine Or.inr ⟨by omega, by omega, h3, h4, fun k hk1 hk2 => ?_⟩
          rcases Nat.eq_or_lt_of_le hk1 with heq | hlt
          · rw [← heq]; exact h0
          · exact h5 k hlt hk2

theorem addCorner_hit (j : Nat) (hj : j < m.nNumVerts)
    (hhit : matchAt ops m j c epsilon = some true)
    (h : ∀ k, k < j → matchAt ops m k c epsilon = some false) :
    addCorner ops m c epsilon = some (pushIndex m j) := by
  have hs := searchLoop_hit ops m c epsilon m.nNumVerts 0 j (Nat.zero_le _) (by omega) hhit
    (fun k _ hk => h k hk)
  unfold addCorner
  rw [hs]
  have hne : ¬ (j = (pushIndex m j).nNumVerts ∧ (pushIndex m j).nNumVerts < (pushIndex m j).nMaxIndexes ∧
      (pushIndex m j).nNumIndexes < (pushIndex m j).nMaxIndexes) := by
    intro hc
    have : (pushIndex m j).nNumVerts = m.nNumVerts := rfl
    omega
  simp only [hne, if_false]

theorem addCorner_miss (h : ∀ k, k < m.nNumVerts → matchAt ops m k c epsilon = some false) :
    addCorner ops m c epsilon =
      if m.nNumVerts < m.nMaxIndexes ∧ m.nNumIndexes < m.nMaxIndexes then appendVertex m c
      else some m := by
  have hs := searchLoop_miss ops m c epsilon m.nNumVerts 0 (fun k _ hk => h k (by omega))
  unfold addCorner
  rw [hs]
  simp

/-- What the loop body can do to the mesh: nothing (the corner is dropped), push the index
of the first matching slot, or append the corner as a new vertex. -/
theorem addCorner_cases (m1 : TriangleMesh F) (h : addCorner ops m c epsilon = some m1) :
    (m1 = m ∧ ¬ (m.nNumVerts < m.nMaxIndexes ∧ m.nNumIndexes < m.nMaxIndexes) ∧
      ∀ k, k < m.nNumVerts → matchAt ops m k c epsilon = some false) ∨
    (∃ j, j < m.nNumVerts ∧ m1 = pushIndex m j ∧ matchAt ops m j c epsilon = some true ∧
      ∀ k, k < j → matchAt ops m k c epsilon = some false) ∨
    (m.nNumVerts < m.nMaxIndexes ∧ m.nNumIndexes < m.nMaxIndexes ∧ appendVertex m c = some m1 ∧
      ∀ k, k < m.nNumVerts → matchAt ops m k c epsilon = some false) := by
  unfold addCorner at h
  cases hs : searchLoop ops m c epsilon m.nNumVerts 0 with
  | none => rw [hs] at h; simp at h
  | some r =>
    obtain ⟨j, m2⟩ := r
    rw [hs] at h
    simp only at h
    rcases searchLoop_cases ops m c epsilon m.nNumVerts 0 j m2 hs with
      ⟨h1, h2, h3⟩ | ⟨_, h2, h3, h4, h5⟩
    · subst h2
      have hall : ∀ k, k < m2.nNumVerts → matchAt ops m2 k c epsilon = some false :=
        fun k hk => h3 k (Nat.zero_le _) (by omega)
      by_cases hg : m2.nNumVerts < m2.nMaxIndexes ∧ m2.nNumIndexes < m2.nMaxIndexes
      · have hcond : j = m2.nNumVerts ∧ m2.nNumVerts < m2.nMaxIndexes ∧
            m2.nNumIndexes < m2.nMaxIndexes := ⟨by omega, hg.1, hg.2⟩
        rw [if_pos hcond] at h
        exact Or.inr (Or.inr ⟨hg.1, hg.2, h, hall⟩)
      · have hcond : ¬ (j = m2.nNumVerts ∧ m2.nNumVerts < m2.nMaxIndexes ∧
            m2.nNumIndexes < m2.nMaxIndexes) := fun hc => hg ⟨hc.2.1, hc.2.2⟩
        rw [if_neg hcond] at h
        simp only [Option.some.injEq] at h
        exact Or.inl ⟨h.symm, hg, hall⟩
    · subst h3
      have hcond : ¬ (j = (pushIndex m j).nNumVerts ∧
          (pushIndex m j).nNumVerts < (pushIndex m j).nMaxIndexes ∧
          (pushIndex m j).nNumIndexes < (pushIndex m j).nMaxIndexes) := by
        intro hc
        have : (pushIndex m j).nNumVerts = m.nNumVerts := rfl
        omega
      rw [if_neg hcond] at h
      simp only [Option.some.injEq] at h
      exact Or.inr (Or.inl ⟨j, by omega, h.symm, h4, fun k hk => h5 k (Nat.zero_le _) hk⟩)

end Loop

/-! ### What one corner does to a begun mesh -/

section Step

variable {F : Type} (ops : FloatOps F)

theorem u32_eq_of_lt {n : Nat} (h : n < 2 ^ 32) : u32 n = n := Nat.mod_eq_of_lt h

theorem u32_succ_ne (n : Nat) : u32 (n + 1) ≠ n := by
  unfold u32; omega

theorem u32_le (n : Nat) : u32 n ≤ n := Nat.mod_le _ _

theorem matchAt_pushIndex (m : TriangleMesh F) (i j : Nat) (c : Corner F) (epsilon : F) :
    matchAt ops (pushIndex m j) i c epsilon = matchAt ops m i c epsilon := rfl

theorem appendVertex_some (m m1 : TriangleMesh F) (c : Corner F) (h : appendVertex m c = some m1) :
    ∃ pNorms vNorm pTexCoords vTexCoord,
      m.pNorms = some pNorms ∧ c.norm = some vNorm ∧ m.pTexCoords = some pTexCoords ∧
      c.texCoord = some vTexCoord ∧
      m1 = { pushIndex m m.nNumVerts with
        pVerts := Function.update m.pVerts m.nNumVerts c.vert
        pNorms := some (Function.update pNorms m.nNumVerts vNorm)
        pTexCoords := some (Function.update pTexCoords m.nNumVerts vTexCoord)
        nNumVerts := u32 (m.nNumVerts + 1) } := by
  unfold appendVertex at h
  split at h
  · rename_i pn vn pt vt h1 h2 h3 h4
    simp only [Option.some.injEq] at h
    exact ⟨pn, vn, pt, vt, h1, h2, h3, h4, h.symm⟩
  · simp at h

theorem matchAt_appendVertex (m m1 : TriangleMesh F) (c c2 : Corner F) (epsilon : F) (i : Nat)
    (h : appendVertex m c = some m1) (hi : i ≠ m.nNumVerts) :
    matchAt ops m1 i c2 epsilon = matchAt ops m i c2 epsilon := by
  obtain ⟨pn, vn, pt, vt, h1, h2, h3, h4, rfl⟩ := appendVertex_some m m1 c h
  simp only [matchAt, h1, h3, pushIndex, Function.update_noteq hi]

theorem matchAt_vertex (m : TriangleMesh F) (i : Nat) (v sv : Vertex F) (epsilon : F)
    (h : m.vertexAt i = some sv) :
    matchAt ops m i v.corner epsilon = some (closeVertex ops epsilon sv v) := by
  unfold TriangleMesh.vertexAt at h
  split at h
  · rename_i pn pt h1 h2
    simp only [Option.some.injEq] at h
    subst h
    simp only [matchAt, h1, h2, closeVertex, Vertex.corner]
    split_ifs with ha hb <;> simp_all
  · simp at h

theorem Begun.vertexAt {capacity : Nat} {m : TriangleMesh F} (h : Begun capacity m) (i : Nat) :
    ∃ sv, m.vertexAt i = some sv ∧ sv.vert = m.pVerts i := by
  obtain ⟨h1, h2, _, _⟩ := h
  obtain ⟨pn, hpn⟩ := Option.isSome_iff_exists.mp h1
  obtain ⟨pt, hpt⟩ := Option.isSome_iff_exists.mp h2
  exact ⟨⟨m.pVerts i, pn i, pt i⟩, by simp [TriangleMesh.vertexAt, hpn, hpt], rfl⟩

theorem begun_BeginMesh (m0 : TriangleMesh F) (capacity : Nat) (mem : Storage F) :
    Begun capacity (BeginMesh m0 capacity mem) :=
  ⟨rfl, rfl, rfl, Nat.zero_le _⟩

/-- One corner keeps a begun mesh begun, never lowers `nNumVerts`, and leaves every stored
vertex where it is. -/
theorem addCorner_begun {capacity : Nat} (hcap : capacity < 2 ^ 32) (m m1 : TriangleMesh F)
    (c : Corner F) (epsilon : F) (hm : Begun capacity m) (h : addCorner ops m c epsilon = some m1) :
    Begun capacity m1 ∧ m.nNumVerts ≤ m1.nNumVerts ∧
      ∀ i, i < m.nNumVerts → ∀ c2 e2, matchAt ops m1 i c2 e2 = matchAt ops m i c2 e2 := by
  obtain ⟨b1, b2, b3, b4⟩ := hm
  rcases addCorner_cases ops m c epsilon m1 h with ⟨rfl, _, _⟩ | ⟨j, _, rfl, _, _⟩ | ⟨g1, _, ha, _⟩
  · exact ⟨⟨b1, b2, b3, b4⟩, le_refl _, fun _ _ _ _ => rfl⟩
  · exact ⟨⟨b1, b2, b3, b4⟩, le_refl _, fun _ _ _ _ => rfl⟩
  · have hlt : m.nNumVerts + 1 < 2 ^ 32 := by omega
    refine ⟨?_, ?_, fun i hi c2 e2 => matchAt_appendVertex ops m m1 c c2 e2 i ha (by omega)⟩
    · obtain ⟨pn, vn, pt, vt, h1, h2, h3, h4, rfl⟩ := appendVertex_some m m1 c ha
      refine ⟨rfl, rfl, b3, ?_⟩
      show u32 (m.nNumVerts + 1) ≤ capacity
      rw [u32_eq_of_lt hlt]; omega
    · obtain ⟨pn, vn, pt, vt, h1, h2, h3, h4, rfl⟩ := appendVertex_some m m1 c ha
      show m.nNumVerts ≤ u32 (m.nNumVerts + 1)
      rw [u32_eq_of_lt hlt]; omega

/-- A corner with a normal and a texture coordinate is always handled on a begun mesh. -/
theorem addCorner_total {capacity : Nat} (m : TriangleMesh F) (v : Vertex F) (epsilon : F)
    (hm : Begun capacity m) : ∃ m1, addCorner ops m v.corner epsilon = some m1 := by
  have hmatch : ∀ k, ∃ b, matchAt ops m k v.corner epsilon = some b := fun k => by
    obtain ⟨sv, hsv, _⟩ := hm.vertexAt k
    exact ⟨_, matchAt_vertex ops m k v sv epsilon hsv⟩
  by_cases hex : ∃ j, j < m.nNumVerts ∧ matchAt ops m j v.corner epsilon = some true
  · classical
    let j := Nat.find hex
    have hj : j < m.nNumVerts ∧ matchAt ops m j v.corner epsilon = some true := Nat.find_spec hex
    refine ⟨_, addCorner_hit ops m v.corner epsilon j hj.1 hj.2 (fun k hk => ?_)⟩
    obtain ⟨b, hb⟩ := hmatch k
    cases b with
    | false => exact hb
    | true => exact absurd ⟨by omega, hb⟩ (Nat.find_min hex hk)
  · have hall : ∀ k, k < m.nNumVerts → matchAt ops m k v.corner epsilon = some false := by
      intro k hk
      obtain ⟨b, hb⟩ := hmatch k
      cases b with
      | false => exact hb
      | true => exact absurd ⟨k, hk, hb⟩ hex
    rw [addCorner_miss ops m v.corner epsilon hall]
    split_ifs
    · obtain ⟨h1, h2, _, _⟩ := hm
      obtain ⟨pn, hpn⟩ := Option.isSome_iff_exists.mp h1
      obtain ⟨pt, hpt⟩ := Option.isSome_iff_exists.mp h2
      simp [appendVertex, hpn, hpt, Vertex.corner]
    · exact ⟨m, rfl⟩

theorem FirstMatch.step {capacity : Nat} (hcap : capacity < 2 ^ 32) (m m1 : TriangleMesh F)
    (c c2 : Corner F) (epsilon e2 : F) (k : Nat) (hm : Begun capacity m)
    (h : addCorner ops m c2 e2 = some m1) (hk : FirstMatch ops epsilon m c k) :
    FirstMatch ops epsilon m1 c k := by
  obtain ⟨_, hle, hsame⟩ := addCorner_begun ops hcap m m1 c2 e2 hm h
  obtain ⟨k1, k2, k3⟩ := hk
  refine ⟨by omega, ?_, fun j hj => ?_⟩
  · rw [hsame k k1]; exact k2
  · rw [hsame j (by omega)]; exact k3 j hj

/-- Handling a corner whose first match is slot `k` pushes `k` and stores no vertex. -/
theorem FirstMatch.addCorner (m : TriangleMesh F) (c : Corner F) (epsilon : F) (k : Nat)
    (hk : FirstMatch ops epsilon m c k) :
    Math3D.addCorner ops m c epsilon = some (pushIndex m k) :=
  addCorner_hit ops m c epsilon k hk.1 hk.2.1 hk.2.2

end Step

/-! ### Whole calls and sequences of calls -/

section Calls

variable {F : Type} (ops : FloatOps F)

theorem cornerLoop_succ (m : TriangleMesh F) (verts : Fin 3 → M3DVector3f F)
    (vNorms : Option (Fin 3 → M3DVector3f F)) (vTexCoords : Option (Fin 3 → M3DVector2f F))
    (epsilon : F) (n : Nat) (h : n < 3) :
    cornerLoop ops m verts vNorms vTexCoords epsilon (n + 1) =
      match cornerLoop ops m verts vNorms vTexCoords epsilon n with
      | none => none
      | some m1 => addCorner ops m1 (cornerOf ops verts vNorms vTexCoords ⟨n, h⟩) epsilon := by
  rw [cornerLoop]
  cases cornerLoop ops m verts vNorms vTexCoords epsilon n with
  | none => rfl
  | some m1 => simp only [dif_pos h]

/-- A property that every handled corner preserves holds at every later point of the loop of
`AddTriangle`. -/
theorem cornerLoop_inv (Inv : TriangleMesh F → Prop)
    (hstep : ∀ m c e m1, Inv m → addCorner ops m c e = some m1 → Inv m1)
    (m : TriangleMesh F) (verts : Fin 3 → M3DVector3f F)
    (vNorms : Option (Fin 3 → M3DVector3f F)) (vTexCoords : Option (Fin 3 → M3DVector2f F))
    (epsilon : F) (n d : Nat) (a b : TriangleMesh F)
    (ha : cornerLoop ops m verts vNorms vTexCoords epsilon n = some a)
    (hb : cornerLoop ops m verts vNorms vTexCoords epsilon (n + d) = some b) (hInv : Inv a) :
    Inv b := by
  induction d generalizing b with
  | zero =>
    rw [Nat.add_zero, ha] at hb
    simp only [Option.some.injEq] at hb
    exact hb ▸ hInv
  | succ d ih =>
    rw [← Nat.add_assoc, cornerLoop] at hb
    cases hc : cornerLoop ops m verts vNorms vTexCoords epsilon (n + d) with
    | none => rw [hc] at hb; simp at hb
    | some m1 =>
      rw [hc] at hb
      simp only at hb
      have h1 := ih m1 hc
      split_ifs at hb with hlt
      · exact hstep _ _ _ _ h1 hb
      · simp only [Option.some.injEq] at hb
        exact hb ▸ h1

/-- The loop of `AddTriangle` reaches every earlier point before it reaches a later one. -/
theorem cornerLoop_earlier (m : TriangleMesh F) (verts : Fin 3 → M3DVector3f F)
    (vNorms : Option (Fin 3 → M3DVector3f F)) (vTexCoords : Option (Fin 3 → M3DVector2f F))
    (epsilon : F) (n d : Nat) (b : TriangleMesh F)
    (hb : cornerLoop ops m verts vNorms vTexCoords epsilon (n + d) = some b) :
    ∃ a, cornerLoop ops m verts vNorms vTexCoords epsilon n = some a := by
  induction d generalizing b with
  | zero => exact ⟨b, hb⟩
  | succ d ih =>
    rw [← Nat.add_assoc, cornerLoop] at hb
    cases hc : cornerLoop ops m verts vNorms vTexCoords epsilon (n + d) with
    | none => rw [hc] at hb; simp at hb
    | some m1 => exact ih m1 hc

theorem AddTriangle_inv (Inv : TriangleMesh F → Prop)
    (hstep : ∀ m c e m1, Inv m → addCorner ops m c e = some m1 → Inv m1)
    (m m1 : TriangleMesh F) (verts : Fin 3 → M3DVector3f F)
    (vNorms : Option (Fin 3 → M3DVector3f F)) (vTexCoords : Option (Fin 3 → M3DVector2f F))
    (epsilon : F) (h : AddTriangle ops m verts vNorms vTexCoords epsilon = some m1)
    (hInv : Inv m) : Inv m1 :=
  cornerLoop_inv ops Inv hstep m verts vNorms vTexCoords epsilon 0 3 m m1 rfl
    (by rw [Nat.zero_add]; exact h) hInv

theorem addTriangles_inv (Inv : TriangleMesh F → Prop)
    (hstep : ∀ m c e m1, Inv m → addCorner ops m c e = some m1 → Inv m1)
    (calls : List (Call F)) (m m1 : TriangleMesh F)
    (h : addTriangles ops m calls = some m1) (hInv : Inv m) : Inv m1 := by
  induction calls generalizing m with
  | nil =>
    simp only [addTriangles, Option.some.injEq] at h
    exact h ▸ hInv
  | cons c cs ih =>
    rw [addTriangles] at h
    cases hc : AddTriangle ops m c.verts c.vNorms c.vTexCoords c.epsilon with
    | none => rw [hc] at h; simp at h
    | some m2 =>
      rw [hc] at h
      exact ih m2 h (AddTriangle_inv ops Inv hstep m m2 _ _ _ _ hc hInv)

theorem addTriangles_append (m : TriangleMesh F) (xs ys : List (Call F)) :
    addTriangles ops m (xs ++ ys) =
      match addTriangles ops m xs with
      | none => none
      | some m1 => addTriangles ops m1 ys := by
  induction xs generalizing m with
  | nil => rfl
  | cons c cs ih =>
    rw [List.cons_append, addTriangles, addTriangles]
    cases AddTriangle ops m c.verts c.vNorms c.vTexCoords c.epsilon with
    | none => rfl
    | some m2 => exact ih m2

theorem begun_step {capacity : Nat} (hcap : capacity < 2 ^ 32) :
    ∀ (m : TriangleMesh F) (c : Corner F) (e : F) (m1 : TriangleMesh F),
      Begun capacity m → addCorner ops m c e = some m1 → Begun capacity m1 :=
  fun m c e m1 hm h => (addCorner_begun ops hcap m m1 c e hm h).1

theorem cornerOf_triangle (t : Triangle F) (i : Fin 3) :
    cornerOf ops t.verts (some t.norms) (some t.texCoords) i = (t.vertex ops i).corner := rfl

/-- Submitting a triangle with normals and texture coordinates on a begun mesh reaches every
point of the loop. -/
theorem cornerLoop_total {capacity : Nat} (hcap : capacity < 2 ^ 32) (m : TriangleMesh F)
    (t : Triangle F) (epsilon : F) (hm : Begun capacity m) (n : Nat) :
    ∃ m1, cornerLoop ops m t.verts (some t.norms) (some t.texCoords) epsilon n = some m1 ∧
      Begun capacity m1 := by
  induction n with
  | zero => exact ⟨m, rfl, hm⟩
  | succ n ih =>
    obtain ⟨m1, h1, b1⟩ := ih
    rw [cornerLoop, h1]
    simp only
    split_ifs with hlt
    · rw [cornerOf_triangle]
      obtain ⟨m2, h2⟩ := addCorner_total ops m1 (t.vertex ops ⟨n, hlt⟩) epsilon b1
      exact ⟨m2, h2, begun_step ops hcap _ _ _ _ b1 h2⟩
    · exact ⟨m1, rfl, b1⟩

/-- A sequence of triangles submitted with normals and texture coordinates on a begun mesh is
handled to the end. -/
theorem addTriangles_total {capacity : Nat} (hcap : capacity < 2 ^ 32) (epsilon : F)
    (ts : List (Triangle F)) (m : TriangleMesh F) (hm : Begun capacity m) :
    ∃ m1, addTriangles ops m (ts.map (fun t => t.call epsilon)) = some m1 ∧ Begun capacity m1 := by
  induction ts generalizing m with
  | nil => exact ⟨m, rfl, hm⟩
  | cons t ts ih =>
    obtain ⟨m1, h1, b1⟩ := cornerLoop_total ops hcap m t epsilon hm 3
    obtain ⟨m2, h2, b2⟩ := ih m1 b1
    refine ⟨m2, ?_, b2⟩
    rw [List.map_cons, addTriangles]
    have : AddTriangle ops m (t.call epsilon).verts (t.call epsilon).vNorms
        (t.call epsilon).vTexCoords (t.call epsilon).epsilon = some m1 := h1
    rw [this]
    exact h2

theorem vertex_eq_of_supplied_eq (ops : FloatOps F) (t t2 : Triangle F) (i j : Fin 3)
    (h : t2.supplied j = t.supplied i) : t2.vertex ops j = t.vertex ops i := by
  simp only [Triangle.supplied, Vertex.mk.injEq] at h
  simp only [Triangle.vertex, h.1, h.2.1, h.2.2]

theorem weld_step (ops : FloatOps F) {capacity : Nat} (hcap : capacity < 2 ^ 32) (epsilon : F)
    (c : Corner F) (k : Nat) :
    ∀ (m : TriangleMesh F) (c2 : Corner F) (e2 : F) (m1 : TriangleMesh F),
      (Begun capacity m ∧ FirstMatch ops epsilon m c k) → addCorner ops m c2 e2 = some m1 →
      (Begun capacity m1 ∧ FirstMatch ops epsilon m1 c k) :=
  fun m c2 e2 m1 hm h =>
    ⟨begun_step ops hcap m c2 e2 m1 hm.1 h, FirstMatch.step ops hcap m m1 c c2 epsilon e2 k hm.1 h hm.2⟩

end Calls

/-! ### Welding of shared corners -/

section WeldExact

variable {F : Type} [LinearOrderedField F]

theorem closeEnough_self (a epsilon : F) (heps : 0 < epsilon) : closeEnough a a epsilon = true := by
  simp [closeEnough, heps]

theorem closeVertex_self (sqrt : F → F) (epsilon : F) (heps : 0 < epsilon) (v : Vertex F) :
    closeVertex (FloatOps.exact sqrt) epsilon v v = true := by
  simp [closeVertex, FloatOps.exact, closeEnough_self _ _ heps]

end WeldExact

section Weld

variable {F : Type}

/-- After a corner has been handled and an index `k` was emitted for it, slot `k` is the
first slot that matches the corner, provided the eight comparisons accept the corner against
itself. -/
theorem firstMatch_of_emitted (ops : FloatOps F) {capacity : Nat} (hcap : capacity < 2 ^ 32)
    (epsilon : F) (s s1 : TriangleMesh F) (v : Vertex F) (k : Nat)
    (hself : closeVertex ops epsilon v v = true) (hs : Begun capacity s)
    (h : addCorner ops s v.corner epsilon = some s1)
    (hk : emitted s s1 = some k) :
    FirstMatch ops epsilon s1 v.corner k := by
  obtain ⟨vv, vn, vt⟩ := v
  rcases addCorner_cases _ s _ epsilon s1 h with
    ⟨rfl, _, _⟩ | ⟨j, hj, rfl, hhit, hbefore⟩ | ⟨g1, _, ha, hall⟩
  · simp only [emitted] at hk
    split_ifs at hk with h0
    exact absurd h0.symm (u32_succ_ne _)
  · have hkj : j = k := by simpa [emitted, pushIndex] using hk
    subst hkj
    exact ⟨hj, hhit, hbefore⟩
  · have hlt : s.nNumVerts + 1 < 2 ^ 32 := by have := hs.2.2.1; omega
    have hmatch : ∀ i c2 e2, i ≠ s.nNumVerts →
        matchAt ops s1 i c2 e2 = matchAt ops s i c2 e2 :=
      fun i c2 e2 hi => matchAt_appendVertex _ s s1 _ c2 e2 i ha hi
    obtain ⟨pn, vn1, pt, vt1, h1, h2, h3, h4, rfl⟩ := appendVertex_some s s1 _ ha
    simp only [Vertex.corner, Option.some.injEq] at h2 h4
    subst h2 h4
    have hkj : s.nNumVerts = k := by simpa [emitted, pushIndex] using hk
    subst hkj
    refine ⟨?_, ?_, fun j hj => ?_⟩
    · show s.nNumVerts < u32 (s.nNumVerts + 1)
      rw [u32_eq_of_lt hlt]; omega
    · rw [matchAt_vertex _ _ _ ⟨vv, vn, vt⟩ ⟨vv, vn, vt⟩ epsilon
        (by simp [TriangleMesh.vertexAt, pushIndex, Vertex.corner])]
      rw [hself]
    · rw [hmatch j _ _ (by omega)]
      exact hall j hj

/-- A corner that `AddTriangle` sees as the same vertex as an earlier corner for which index
`k` was emitted gets index `k` and stores nothing, provided the eight comparisons accept
that vertex against itself. -/
theorem weld_same_vertex (ops : FloatOps F) (m0 : TriangleMesh F) (capacity : Nat)
    (mem : Storage F) (hcap : capacity < 2 ^ 32) (epsilon : F)
    (earlier : List (Triangle F)) (t : Triangle F) (i : Fin 3)
    (between : List (Triangle F)) (t2 : Triangle F) (j : Fin 3)
    (hsame : t2.vertex ops j = t.vertex ops i)
    (hself : closeVertex ops epsilon (t.vertex ops i) (t.vertex ops i) = true) (k : Nat)
    (s s1 : TriangleMesh F)
    (hs : stateAt ops m0 capacity mem epsilon earlier t i = some s)
    (hs1 : stateAt ops m0 capacity mem epsilon earlier t (i + 1) = some s1)
    (hem : emitted s s1 = some k) :
    ∃ r r1,
      stateAt ops m0 capacity mem epsilon (earlier ++ t :: between) t2 j = some r ∧
      stateAt ops m0 capacity mem epsilon (earlier ++ t :: between) t2 (j + 1) = some r1 ∧
      emitted r r1 = some k ∧ r1.nNumVerts = r.nNumVerts := by
  have b0 := begun_BeginMesh m0 capacity mem
  obtain ⟨sA, hA, bA⟩ := addTriangles_total ops hcap epsilon earlier _ b0
  simp only [stateAt, hA] at hs hs1
  have bs : Begun capacity s := by
    obtain ⟨x, hx, bx⟩ := cornerLoop_total ops hcap sA t epsilon bA i
    rw [hs] at hx
    simp only [Option.some.injEq] at hx
    exact hx ▸ bx
  have hstep : addCorner ops s (t.vertex ops i).corner epsilon = some s1 := by
    rw [cornerLoop_succ _ _ _ _ _ _ i i.isLt, hs] at hs1
    exact hs1
  have fm1 := firstMatch_of_emitted ops hcap epsilon s s1 _ k hself bs hstep hem
  have inv1 : Begun capacity s1 ∧ FirstMatch ops epsilon s1 (t.vertex ops i).corner k :=
    ⟨begun_step _ hcap _ _ _ _ bs hstep, fm1⟩
  obtain ⟨sT, hT, bT⟩ := cornerLoop_total ops hcap sA t epsilon bA 3
  have hi3 : (i : Nat) + 1 + (2 - (i : Nat)) = 3 := by have := i.isLt; omega
  have invT := cornerLoop_inv _ _ (weld_step ops hcap epsilon (t.vertex ops i).corner k)
      sA t.verts (some t.norms) (some t.texCoords)
      epsilon (i + 1) (2 - (i : Nat)) s1 sT hs1 (by rw [hi3]; exact hT) inv1
  obtain ⟨sB, hB, bB⟩ := addTriangles_total ops hcap epsilon between sT bT
  have invB := addTriangles_inv _ _ (weld_step ops hcap epsilon (t.vertex ops i).corner k)
      _ sT sB hB invT
  have hAll : addTriangles ops (BeginMesh m0 capacity mem)
      ((earlier ++ t :: between).map (fun t => t.call epsilon)) = some sB := by
    rw [List.map_append, addTriangles_append, hA]
    show addTriangles _ sA (List.map _ (t :: between)) = some sB
    rw [List.map_cons, addTriangles]
    have : AddTriangle ops sA (t.call epsilon).verts (t.call epsilon).vNorms
        (t.call epsilon).vTexCoords (t.call epsilon).epsilon = some sT := hT
    simp only [this]
    exact hB
  obtain ⟨r, hr, br⟩ := cornerLoop_total ops hcap sB t2 epsilon bB j
  have invr := cornerLoop_inv _ _ (weld_step ops hcap epsilon (t.vertex ops i).corner k)
      sB t2.verts (some t2.norms) (some t2.texCoords) epsilon 0 j sB r rfl
      (by rw [Nat.zero_add]; exact hr) invB
  have hr1 : cornerLoop ops sB t2.verts (some t2.norms) (some t2.texCoords)
      epsilon (j + 1) = some (pushIndex r k) := by
    rw [cornerLoop_succ _ _ _ _ _ _ j j.isLt, hr]
    simp only [Fin.eta, cornerOf_triangle, hsame]
    exact FirstMatch.addCorner _ r _ epsilon k invr.2
  refine ⟨r, pushIndex r k, ?_, ?_, ?_, rfl⟩
  · simp only [stateAt, hAll]; exact hr
  · simp only [stateAt, hAll]; exact hr1
  · simp [emitted, pushIndex]

/-- C1, as amended.  Shared corners weld.  On a mesh begun with any capacity, with all
triangles submitted with normals and texture coordinates and one `epsilon`, for any `float`
operations: if the call for triangle `t` emitted index `k` for its corner `i`, and the eight
comparisons of the matcher accept that corner (with its normal normalized) against itself,
then a later call for a triangle `t2` whose corner `j` is identical (position, normal,
texture coordinate) reaches that corner, emits the same index `k` for it, and leaves
`nNumVerts` as it was.  The room left in the index array plays no role. -/
theorem shared_corner_welds (ops : FloatOps F) (m0 : TriangleMesh F) (capacity : Nat)
    (mem : Storage F) (hcap : capacity < 2 ^ 32) (epsilon : F)
    (earlier : List (Triangle F)) (t : Triangle F) (i : Fin 3)
    (between : List (Triangle F)) (t2 : Triangle F) (j : Fin 3)
    (hsame : t2.supplied j = t.supplied i)
    (hself : closeVertex ops epsilon (t.vertex ops i) (t.vertex ops i) = true) (k : Nat)
    (hk : ∃ s s1,
      stateAt ops m0 capacity mem epsilon earlier t i = some s ∧
      stateAt ops m0 capacity mem epsilon earlier t (i + 1) = some s1 ∧
      emitted s s1 = some k) :
    ∃ r r1,
      stateAt ops m0 capacity mem epsilon (earlier ++ t :: between) t2 j = some r ∧
      stateAt ops m0 capacity mem epsilon (earlier ++ t :: between) t2 (j + 1) = some r1 ∧
      emitted r r1 = some k ∧ r1.nNumVerts = r.nNumVerts := by
  obtain ⟨s, s1, hs, hs1, hem⟩ := hk
  exact weld_same_vertex ops m0 capacity mem hcap epsilon earlier t i between t2 j
    (vertex_eq_of_supplied_eq ops t t2 i j hsame) hself k s s1 hs hs1 hem

end Weld

/-! ### Triangles whose corners are all distinct -/

section Distinct

variable {F : Type} (ops : FloatOps F)

theorem addCorners_append (epsilon : F) (m : TriangleMesh F) (xs ys : List (Corner F)) :
    addCorners ops epsilon m (xs ++ ys) =
      match addCorners ops epsilon m xs with
      | none => none
      | some m1 => addCorners ops epsilon m1 ys := by
  induction xs generalizing m with
  | nil => rfl
  | cons c cs ih =>
    rw [List.cons_append, addCorners, addCorners]
    cases addCorner ops m c epsilon with
    | none => rfl
    | some m2 => exact ih m2

/-- A call that submits a triangle with normals and texture coordinates handles its three
corners in order. -/
theorem AddTriangle_eq_addCorners (m : TriangleMesh F) (t : Triangle F) (epsilon : F) :
    AddTriangle ops m t.verts (some t.norms) (some t.texCoords) epsilon =
      addCorners ops epsilon m ((t.vertices ops).map Vertex.corner) := by
  have h0 : (0 : Nat) < 3 := by omega
  have h1 : (1 : Nat) < 3 := by omega
  have h2 : (2 : Nat) < 3 := by omega
  simp only [AddTriangle, cornerLoop, dif_pos h0, dif_pos h1, dif_pos h2, Nat.zero_add,
    Triangle.vertices, List.map_cons, List.map_nil, addCorners, cornerOf_triangle]
  have e0 : (⟨0, h0⟩ : Fin 3) = 0 := rfl
  have e1 : (⟨1, h1⟩ : Fin 3) = 1 := rfl
  have e2 : (⟨2, h2⟩ : Fin 3) = 2 := rfl
  rw [e0, e1, e2]
  cases addCorner ops m (t.vertex ops 0).corner epsilon with
  | none => rfl
  | some m1 =>
    simp only
    cases addCorner ops m1 (t.vertex ops 1).corner epsilon with
    | none => rfl
    | some m2 =>
      simp only
      cases addCorner ops m2 (t.vertex ops 2).corner epsilon with
      | none => rfl
      | some m3 => rfl

theorem addTriangles_eq_addCorners (epsilon : F) (ts : List (Triangle F)) (m : TriangleMesh F) :
    addTriangles ops m (ts.map (fun t => t.call epsilon)) =
      addCorners ops epsilon m ((allVertices ops ts).map Vertex.corner) := by
  induction ts generalizing m with
  | nil => rfl
  | cons t ts ih =>
    rw [List.map_cons, addTriangles, allVertices, List.map_append, addCorners_append]
    have : AddTriangle ops m (t.call epsilon).verts (t.call epsilon).vNorms
        (t.call epsilon).vTexCoords (t.call epsilon).epsilon =
        addCorners ops epsilon m ((t.vertices ops).map Vertex.corner) :=
      AddTriangle_eq_addCorners ops m t epsilon
    rw [this]
    cases addCorners ops epsilon m ((t.vertices ops).map Vertex.corner) with
    | none => rfl
    | some m1 => exact ih m1

theorem length_allVertices (ts : List (Triangle F)) :
    (allVertices ops ts).length = 3 * ts.length := by
  induction ts with
  | nil => rfl
  | cons t ts ih =>
    simp only [allVertices, List.length_append, Triangle.vertices, List.length_cons,
      List.length_nil, ih]
    omega

theorem vertexAt_appendVertex (m m1 : TriangleMesh F) (v : Vertex F)
    (h : appendVertex m v.corner = some m1) :
    m1.vertexAt m.nNumVerts = some v ∧
      ∀ i, i ≠ m.nNumVerts → m1.vertexAt i = m.vertexAt i := by
  obtain ⟨vv, vn, vt⟩ := v
  obtain ⟨pn, vn1, pt, vt1, h1, h2, h3, h4, rfl⟩ := appendVertex_some m m1 _ h
  simp only [Vertex.corner, Option.some.injEq] at h2 h4
  subst h2 h4
  refine ⟨by simp [TriangleMesh.vertexAt, pushIndex, Vertex.corner], fun i hi => ?_⟩
  simp [TriangleMesh.vertexAt, pushIndex, h1, h3, Function.update_noteq hi]

/-- Corners none of which is close to a stored vertex or to an earlier corner are appended one
by one while there is room, and dropped afterwards. -/
theorem addCorners_distinct {capacity : Nat} (hcap : capacity < 2 ^ 32) (epsilon : F)
    (vs : List (Vertex F)) (m : TriangleMesh F) (hm : Begun capacity m)
    (hcount : m.nNumIndexes = m.nNumVerts)
    (hstored : ∀ i, i < m.nNumVerts → ∃ sv, m.vertexAt i = some sv ∧
      ∀ v ∈ vs, closeVertex ops epsilon sv v = false)
    (hpair : vs.Pairwise (fun a b => closeVertex ops epsilon a b = false)) :
    ∃ m1, addCorners ops epsilon m (vs.map Vertex.corner) = some m1 ∧
      m1.nNumVerts = min (m.nNumVerts + vs.length) capacity ∧
      m1.nNumIndexes = m1.nNumVerts := by
  induction vs generalizing m with
  | nil =>
    refine ⟨m, rfl, ?_, hcount⟩
    have := hm.2.2.2
    simp only [List.length_nil, Nat.add_zero]
    omega
  | cons v vs ih =>
    obtain ⟨b1, b2, b3, b4⟩ := hm
    have hall : ∀ k, k < m.nNumVerts → matchAt ops m k v.corner epsilon = some false := by
      intro k hk
      obtain ⟨sv, hsv, hfar⟩ := hstored k hk
      rw [matchAt_vertex ops m k v sv epsilon hsv, hfar v (List.mem_cons_self _ _)]
    have hstep := addCorner_miss ops m v.corner epsilon hall
    rw [List.pairwise_cons] at hpair
    rw [List.map_cons, addCorners, hstep]
    by_cases hroom : m.nNumVerts < m.nMaxIndexes ∧ m.nNumIndexes < m.nMaxIndexes
    · rw [if_pos hroom]
      obtain ⟨pn, hpn⟩ := Option.isSome_iff_exists.mp b1
      obtain ⟨pt, hpt⟩ := Option.isSome_iff_exists.mp b2
      cases ha : appendVertex m v.corner with
      | none => simp [appendVertex, hpn, hpt, Vertex.corner] at ha
      | some m1 =>
        simp only
        obtain ⟨hnew, hold⟩ := vertexAt_appendVertex m m1 v ha
        have hlt : m.nNumVerts + 1 < 2 ^ 32 := by omega
        obtain ⟨pn2, vn2, pt2, vt2, h1, h2, h3, h4, hm1⟩ := appendVertex_some m m1 _ ha
        have hv1 : m1.nNumVerts = m.nNumVerts + 1 := by
          rw [hm1]; show u32 (m.nNumVerts + 1) = _; exact u32_eq_of_lt hlt
        have hi1 : m1.nNumIndexes = m.nNumIndexes + 1 := by
          rw [hm1]; show u32 (m.nNumIndexes + 1) = _; exact u32_eq_of_lt (by omega)
        have hmax : m1.nMaxIndexes = m.nMaxIndexes := by rw [hm1]; rfl
        have hb1 : Begun capacity m1 := by
          refine ⟨by rw [hm1]; rfl, by rw [hm1]; rfl, by rw [hmax]; exact b3, by omega⟩
        obtain ⟨m2, hrun, hv2, hi2⟩ := ih m1 hb1 (by omega) (fun i hi => by
          by_cases hieq : i = m.nNumVerts
          · subst hieq
            exact ⟨v, hnew, fun w hw => hpair.1 w hw⟩
          · obtain ⟨sv, hsv, hfar⟩ := hstored i (by omega)
            exact ⟨sv, by rw [hold i hieq]; exact hsv,
              fun w hw => hfar w (List.mem_cons_of_mem _ hw)⟩) hpair.2
        refine ⟨m2, hrun, ?_, hi2⟩
        rw [hv2, hv1, List.length_cons]
        congr 1
        omega
    · rw [if_neg hroom]
      simp only
      obtain ⟨m2, hrun, hv2, hi2⟩ := ih m ⟨b1, b2, b3, b4⟩ hcount (fun i hi => by
        obtain ⟨sv, hsv, hfar⟩ := hstored i hi
        exact ⟨sv, hsv, fun w hw => hfar w (List.mem_cons_of_mem _ hw)⟩) hpair.2
      refine ⟨m2, hrun, ?_, hi2⟩
      rw [hv2, List.length_cons]
      have hfull : m.nNumVerts = capacity := by
        by_contra hne
        exact hroom ⟨by omega, by omega⟩
      omega

/-- C2. Distinct corners are all kept.  On a mesh begun with `capacity >= 3n`, `n` triangles
submitted with normals and texture coordinates and one `epsilon`, no corner of which is
within `epsilon` of an earlier one in all eight components (position, normalized normal,
texture coordinate), are all handled and leave `nNumVerts = 3n` and `nNumIndexes = 3n`. -/
theorem distinct_corners_all_kept (m0 : TriangleMesh F) (capacity : Nat) (mem : Storage F)
    (h32 : capacity < 2 ^ 32) (epsilon : F) (ts : List (Triangle F))
    (hcap : 3 * ts.length ≤ capacity)
    (hdistinct : (allVertices ops ts).Pairwise (fun a b => closeVertex ops epsilon a b = false)) :
    ∃ m, addTriangles ops (BeginMesh m0 capacity mem) (ts.map (fun t => t.call epsilon)) = some m ∧
      m.nNumVerts = 3 * ts.length ∧ m.nNumIndexes = 3 * ts.length := by
  obtain ⟨m, hrun, hv, hi⟩ := addCorners_distinct ops h32 epsilon (allVertices ops ts)
    (BeginMesh m0 capacity mem) (begun_BeginMesh m0 capacity mem) rfl
    (fun i hi => absurd hi (Nat.not_lt_zero i)) hdistinct
  rw [length_allVertices] at hv
  have hz : (BeginMesh m0 capacity mem).nNumVerts = 0 := rfl
  rw [hz, Nat.zero_add, Nat.min_eq_left hcap] at hv
  exact ⟨m, by rw [addTriangles_eq_addCorners]; exact hrun, hv, by rw [hi, hv]⟩

/-- C5. Capacity exhaustion drops corners silently.  On a mesh begun with any capacity
(`capacity >= 1` included), `n` triangles submitted with normals and texture coordinates and
one `epsilon`, no corner of which is within `epsilon` of an earlier one, are all handled
without a fault and leave `nNumVerts = nNumIndexes = min (3n) capacity`; with capacity `3`
and two triangles that is `3` and `3`. -/
theorem capacity_exhaustion_drops (m0 : TriangleMesh F) (capacity : Nat) (mem : Storage F)
    (h32 : capacity < 2 ^ 32) (epsilon : F) (ts : List (Triangle F))
    (hdistinct : (allVertices ops ts).Pairwise (fun a b => closeVertex ops epsilon a b = false)) :
    ∃ m, addTriangles ops (BeginMesh m0 capacity mem) (ts.map (fun t => t.call epsilon)) = some m ∧
      m.nNumVerts = min (3 * ts.length) capacity ∧
      m.nNumIndexes = min (3 * ts.length) capacity := by
  obtain ⟨m, hrun, hv, hi⟩ := addCorners_distinct ops h32 epsilon (allVertices ops ts)
    (BeginMesh m0 capacity mem) (begun_BeginMesh m0 capacity mem) rfl
    (fun i hi => absurd hi (Nat.not_lt_zero i)) hdistinct
  rw [length_allVertices] at hv
  have hz : (BeginMesh m0 capacity mem).nNumVerts = 0 := rfl
  rw [hz, Nat.zero_add] at hv
  exact ⟨m, by rw [addTriangles_eq_addCorners]; exact hrun, hv, by rw [hi, hv]⟩

end Distinct

/-! ### Evaluation of the examples -/

section Examples

variable {F : Type} [LinearOrderedField F]

/-- C3. The worked example as written cannot be run: in the first call `vNorms` is `NULL`, the
search loop has nothing to visit, and the append block copies from `vNorms[0]`. -/
theorem worked_example_null_normals (sqrt : F → F) (m0 : TriangleMesh F) (mem : Storage F) :
    AddTriangle (FloatOps.exact sqrt) (BeginMesh m0 12 mem) exampleVerts1 none none
      exampleEpsilon = none := by
  simp [AddTriangle, cornerLoop, addCorner, searchLoop, appendVertex, BeginMesh, cornerOf]

set_option maxHeartbeats 1000000 in
/-- The first triangle submitted twice: the second call finds all three corners and pushes
three more indices, whatever the capacity. -/
theorem exampleTwice_eval (sqrt : F → F) (N : M3DVector3f F) (T : M3DVector2f F) :
    ∃ m, exampleTwice sqrt 3 N T = some m ∧ m.nMaxIndexes = 3 ∧ m.nNumVerts = 3 ∧
      m.nNumIndexes = 6 ∧ m.pIndexes 3 = 0 ∧ m.pIndexes 4 = 1 ∧ m.pIndexes 5 = 2 := by
  norm_num [exampleTwice, addTriangles, AddTriangle, cornerLoop, addCorner, searchLoop, matchAt,
    appendVertex, BeginMesh, cornerOf, FloatOps.exact, closeEnough, u32, pushIndex,
    Function.update, Triangle.call, flatTriangle, exampleVerts1, exampleEpsilon,
    TriangleMesh.new, zeroStorage]

set_option maxHeartbeats 1000000 in
/-- Two triangles without a common corner on a mesh of capacity `4`: the fourth corner is
appended, the fifth and the sixth are dropped. -/
theorem exampleApart_eval (sqrt : F → F) (N : M3DVector3f F) (T : M3DVector2f F) :
    ∃ m, exampleApart sqrt 4 N T = some m ∧ m.nNumVerts = 4 ∧ m.nNumIndexes = 4 := by
  norm_num [exampleApart, addTriangles, AddTriangle, cornerLoop, addCorner, searchLoop, matchAt,
    appendVertex, BeginMesh, cornerOf, FloatOps.exact, closeEnough, u32, pushIndex,
    Function.update, Triangle.call, flatTriangle, exampleVerts1, exampleVerts3, exampleEpsilon,
    TriangleMesh.new, zeroStorage]

set_option maxHeartbeats 1000000 in
/-- The worked example with normals and texture coordinates supplied: the counts and the
indices the specification lists, and the four stored positions. -/
theorem exampleSupplied_eval (sqrt : F → F) (N : M3DVector3f F) (T : M3DVector2f F) :
    ∃ m, exampleSupplied sqrt 12 N T = some m ∧ m.nNumVerts = 4 ∧ m.nNumIndexes = 6 ∧
      (List.range 6).map m.pIndexes = [0, 1, 2, 0, 1, 3] ∧
      (List.range 4).map m.pVerts = [⟨0, 0, 0⟩, ⟨1, 0, 0⟩, ⟨0, 1, 0⟩, ⟨0, 0, 1⟩] ∧
      (End (FloatOps.exact sqrt) m).boundingSphereRadius = sqrt 1 := by
  norm_num [exampleSupplied, addTriangles, AddTriangle, cornerLoop, addCorner, searchLoop,
    matchAt, appendVertex, BeginMesh, cornerOf, FloatOps.exact, closeEnough, u32, pushIndex,
    Function.update, Triangle.call, flatTriangle, exampleVerts1, exampleVerts2, exampleEpsilon,
    TriangleMesh.new, zeroStorage, List.range, List.range.loop, End, radiusLoop, lengthSquared3]

end Examples

/-! ### Bounds and validity of the index array -/

section Indexes

variable {F : Type} (ops : FloatOps F)

/-- C6. The index count can pass the capacity.  Capacity `3`, the triangle
`(0,0,0), (1,0,0), (0,1,0)` with normal `(0,0,1)` and texture coordinate `(0,0)` submitted
twice with `epsilon = 1e-7`: the second call stores the indices `0, 1, 2` in the slots
`3, 4, 5` of an array of three elements and leaves `nNumIndexes = 6`. -/
theorem index_count_exceeds_capacity :
    ∃ m : TriangleMesh ℚ, exampleTwice Rat.sqrt 3 ⟨0, 0, 1⟩ ⟨0, 0⟩ = some m ∧
      m.nMaxIndexes = 3 ∧ m.nNumIndexes = 6 ∧ ¬ m.nNumIndexes ≤ m.nMaxIndexes ∧
      m.pIndexes 3 = 0 ∧ m.pIndexes 4 = 1 ∧ m.pIndexes 5 = 2 := by
  obtain ⟨m, h, h1, _, h2, h3, h4, h5⟩ := exampleTwice_eval Rat.sqrt (⟨0, 0, 1⟩ : M3DVector3f ℚ)
    ⟨0, 0⟩
  exact ⟨m, h, h1, h2, by omega, h3, h4, h5⟩

theorem perform_inv (Inv : TriangleMesh F → Prop)
    (hstep : ∀ m c e m1, Inv m → addCorner ops m c e = some m1 → Inv m1)
    (hend : ∀ m, Inv m → Inv (End ops m))
    (script : List (MeshOp F)) (m m1 : TriangleMesh F)
    (h : perform ops m script = some m1) (hInv : Inv m) : Inv m1 := by
  induction script generalizing m with
  | nil =>
    simp only [perform, Option.some.injEq] at h
    exact h ▸ hInv
  | cons op rest ih =>
    cases op with
    | addTriangle c =>
      rw [perform] at h
      cases hc : AddTriangle ops m c.verts c.vNorms c.vTexCoords c.epsilon with
      | none => rw [hc] at h; simp at h
      | some m2 =>
        rw [hc] at h
        exact ih m2 h (AddTriangle_inv ops Inv hstep m m2 _ _ _ _ hc hInv)
    | finish =>
      rw [perform] at h
      exact ih (End ops m) h (hend m hInv)

/-- One corner keeps the index array valid on a begun mesh. -/
theorem valid_step {capacity : Nat} (hcap : capacity < 2 ^ 32) :
    ∀ (m : TriangleMesh F) (c : Corner F) (e : F) (m1 : TriangleMesh F),
      (Begun capacity m ∧ ValidIndexes m) → addCorner ops m c e = some m1 →
      (Begun capacity m1 ∧ ValidIndexes m1) := by
  intro m c e m1 hm h
  refine ⟨begun_step ops hcap m c e m1 hm.1 h, ?_⟩
  obtain ⟨⟨_, _, b3, b4⟩, hv⟩ := hm
  rcases addCorner_cases ops m c e m1 h with ⟨rfl, _, _⟩ | ⟨j, hj, rfl, _, _⟩ | ⟨g1, _, ha, _⟩
  · exact hv
  · intro k hk
    have hk1 : k < u32 (m.nNumIndexes + 1) := hk
    have hle := u32_le (m.nNumIndexes + 1)
    show Function.update m.pIndexes m.nNumIndexes j k < m.nNumVerts
    by_cases hkn : k = m.nNumIndexes
    · rw [hkn, Function.update_same]; exact hj
    · rw [Function.update_noteq hkn]; exact hv k (by omega)
  · obtain ⟨pn, vn, pt, vt, h1, h2, h3, h4, rfl⟩ := appendVertex_some m m1 c ha
    have hlt : m.nNumVerts + 1 < 2 ^ 32 := by omega
    intro k hk
    have hk1 : k < u32 (m.nNumIndexes + 1) := hk
    have hle := u32_le (m.nNumIndexes + 1)
    show Function.update m.pIndexes m.nNumIndexes m.nNumVerts k < u32 (m.nNumVerts + 1)
    rw [u32_eq_of_lt hlt]
    by_cases hkn : k = m.nNumIndexes
    · rw [hkn, Function.update_same]; omega
    · rw [Function.update_noteq hkn]
      have := hv k (by omega)
      omega

/-- C7. Index validity.  In every state reached from `BeginMesh(capacity)` by a sequence of
`AddTriangle` calls (any arguments) and `End` calls, every value stored in
`pIndexes[0 .. nNumIndexes)` is less than `nNumVerts`. -/
theorem index_validity (m0 : TriangleMesh F) (capacity : Nat) (mem : Storage F)
    (h32 : capacity < 2 ^ 32) (script : List (MeshOp F)) (m : TriangleMesh F)
    (hrun : perform ops (BeginMesh m0 capacity mem) script = some m) :
    ∀ k, k < m.nNumIndexes → m.pIndexes k < m.nNumVerts :=
  (perform_inv ops (fun m => Begun capacity m ∧ ValidIndexes m) (valid_step ops h32)
    (fun _ hm => hm) script _ m hrun
    ⟨begun_BeginMesh m0 capacity mem, fun k hk => absurd hk (Nat.not_lt_zero k)⟩).2

/-- While three more indices fit, a call that returns has pushed exactly three. -/
theorem cornerLoop_count {capacity : Nat} (hcap : capacity < 2 ^ 32) (m : TriangleMesh F)
    (verts : Fin 3 → M3DVector3f F) (vNorms : Option (Fin 3 → M3DVector3f F))
    (vTexCoords : Option (Fin 3 → M3DVector2f F)) (epsilon : F)
    (hm : Begun capacity m) (hle : m.nNumVerts ≤ m.nNumIndexes)
    (hroom : m.nNumIndexes + 3 ≤ capacity) (n : Nat) (hn : n ≤ 3) (m1 : TriangleMesh F)
    (h : cornerLoop ops m verts vNorms vTexCoords epsilon n = some m1) :
    Begun capacity m1 ∧ m1.nNumIndexes = m.nNumIndexes + n ∧ m1.nNumVerts ≤ m1.nNumIndexes := by
  induction n generalizing m1 with
  | zero =>
    simp only [cornerLoop, Option.some.injEq] at h
    subst h
    exact ⟨hm, rfl, hle⟩
  | succ n ih =>
    rw [cornerLoop_succ ops m verts vNorms vTexCoords epsilon n (by omega)] at h
    cases hc : cornerLoop ops m verts vNorms vTexCoords epsilon n with
    | none => rw [hc] at h; simp at h
    | some m2 =>
      rw [hc] at h
      simp only at h
      obtain ⟨b2, hi2, hv2⟩ := ih (by omega) m2 hc
      have hb := begun_step ops hcap _ _ _ _ b2 h
      refine ⟨hb, ?_⟩
      have hmax := b2.2.2.1
      rcases addCorner_cases ops m2 _ epsilon m1 h with
        ⟨_, hfull, _⟩ | ⟨j, hj, rfl, _, _⟩ | ⟨g1, _, ha, _⟩
      · exact absurd ⟨by omega, by omega⟩ hfull
      · have e1 : (pushIndex m2 j).nNumIndexes = u32 (m2.nNumIndexes + 1) := rfl
        have e2 : (pushIndex m2 j).nNumVerts = m2.nNumVerts := rfl
        rw [e1, e2, u32_eq_of_lt (by omega)]
        omega
      · obtain ⟨pn, vn, pt, vt, h1, h2, h3, h4, rfl⟩ := appendVertex_some m2 m1 _ ha
        show u32 (m2.nNumIndexes + 1) = _ ∧ u32 (m2.nNumVerts + 1) ≤ u32 (m2.nNumIndexes + 1)
        rw [u32_eq_of_lt (by omega : m2.nNumIndexes + 1 < 2 ^ 32),
          u32_eq_of_lt (by omega : m2.nNumVerts + 1 < 2 ^ 32)]
        omega

theorem addTriangles_count {capacity : Nat} (hcap : capacity < 2 ^ 32) (calls : List (Call F))
    (m m1 : TriangleMesh F) (hm : Begun capacity m) (hle : m.nNumVerts ≤ m.nNumIndexes)
    (hroom : m.nNumIndexes + 3 * calls.length ≤ capacity)
    (h : addTriangles ops m calls = some m1) :
    m1.nNumIndexes = m.nNumIndexes + 3 * calls.length := by
  induction calls generalizing m with
  | nil =>
    simp only [addTriangles, Option.some.injEq] at h
    subst h
    simp
  | cons c cs ih =>
    rw [addTriangles] at h
    rw [List.length_cons] at hroom
    cases hc : AddTriangle ops m c.verts c.vNorms c.vTexCoords c.epsilon with
    | none => rw [hc] at h; simp at h
    | some m2 =>
      rw [hc] at h
      obtain ⟨b2, hi2, hv2⟩ := cornerLoop_count ops hcap m c.verts c.vNorms c.vTexCoords
        c.epsilon hm hle (by omega) 3 (le_refl _) m2 hc
      rw [ih m2 b2 hv2 (by omega) h, hi2, List.length_cons]
      omega

/-- C8, as amended.  In every state reached from `BeginMesh(capacity)` by `n` complete
`AddTriangle` calls (any arguments) with `3n <= capacity`, `nNumIndexes = 3n`, a multiple of
`3`. -/
theorem index_count_multiple_of_three (m0 : TriangleMesh F) (capacity : Nat) (mem : Storage F)
    (h32 : capacity < 2 ^ 32) (calls : List (Call F)) (hroom : 3 * calls.length ≤ capacity)
    (m : TriangleMesh F)
    (hrun : addTriangles ops (BeginMesh m0 capacity mem) calls = some m) :
    m.nNumIndexes = 3 * calls.length ∧ m.nNumIndexes % 3 = 0 := by
  have h := addTriangles_count ops h32 calls (BeginMesh m0 capacity mem) m
    (begun_BeginMesh m0 capacity mem) (le_refl _) (by show 0 + _ ≤ _; omega) hrun
  have hz : (BeginMesh m0 capacity mem).nNumIndexes = 0 := rfl
  rw [hz, Nat.zero_add] at h
  exact ⟨h, by omega⟩

/-- C8, the claim as stated fails.  Capacity `4` and two triangles without a common corner:
both calls complete and `nNumIndexes = 4`, which is not a multiple of `3`. -/
theorem index_count_not_multiple_of_three :
    ∃ m : TriangleMesh ℚ, exampleApart Rat.sqrt 4 ⟨0, 0, 1⟩ ⟨0, 0⟩ = some m ∧
      m.nNumIndexes = 4 ∧ ¬ m.nNumIndexes % 3 = 0 := by
  obtain ⟨m, h, _, h2⟩ := exampleApart_eval Rat.sqrt (⟨0, 0, 1⟩ : M3DVector3f ℚ) ⟨0, 0⟩
  exact ⟨m, h, h2, by omega⟩

end Indexes

/-! ### The bounding sphere -/

section Sphere

variable {F : Type} [LinearOrderedField F]

theorem lengthSquared3_nonneg (u : M3DVector3f F) : 0 ≤ lengthSquared3 u := by
  unfold lengthSquared3
  have h1 := mul_self_nonneg u.x
  have h2 := mul_self_nonneg u.y
  have h3 := mul_self_nonneg u.z
  linarith

end Sphere

/-! ### Saving and loading -/

section RoundTrip
variable {F : Type}

theorem length_le32 (n : Nat) : (le32 n).length = 4 := rfl

theorem de32_le32_append (n : Nat) (h : n < 2 ^ 32) (rest : List Nat) :
    de32 (le32 n ++ rest) = n := by
  simp [de32, le32]
  omega

theorem floatOfBytes_floatBytes (bits : FloatBits F)
    (hbits : ∀ x, bits.toBits x < 2 ^ 32 ∧ bits.ofBits (bits.toBits x) = x) (x : F)
    (rest : List Nat) : floatOfBytes bits (floatBytes bits x ++ rest) = x := by
  unfold floatOfBytes floatBytes
  rw [de32_le32_append _ (hbits x).1, (hbits x).2]

theorem length_vec3Bytes (bits : FloatBits F) (v : M3DVector3f F) :
    (vec3Bytes bits v).length = 12 := rfl

theorem length_vec2Bytes (bits : FloatBits F) (v : M3DVector2f F) :
    (vec2Bytes bits v).length = 8 := rfl

theorem vec3OfBytes_vec3Bytes (bits : FloatBits F)
    (hbits : ∀ x, bits.toBits x < 2 ^ 32 ∧ bits.ofBits (bits.toBits x) = x)
    (v : M3DVector3f F) : vec3OfBytes bits (vec3Bytes bits v) = v := by
  obtain ⟨x, y, z⟩ := v
  have hx := floatOfBytes_floatBytes bits hbits x (floatBytes bits y ++ floatBytes bits z)
  have hy := floatOfBytes_floatBytes bits hbits y (floatBytes bits z)
  have hz := floatOfBytes_floatBytes bits hbits z []
  rw [List.append_nil] at hz
  have d4 : (floatBytes bits x ++ floatBytes bits y ++ floatBytes bits z).drop 4
      = floatBytes bits y ++ floatBytes bits z := rfl
  have d8 : (floatBytes bits x ++ floatBytes bits y ++ floatBytes bits z).drop 8
      = floatBytes bits z := rfl
  rw [List.append_assoc] at d4 d8
  simp only [vec3OfBytes, vec3Bytes, List.append_assoc, d4, d8, hx, hy, hz]

theorem vec2OfBytes_vec2Bytes (bits : FloatBits F)
    (hbits : ∀ x, bits.toBits x < 2 ^ 32 ∧ bits.ofBits (bits.toBits x) = x)
    (v : M3DVector2f F) : vec2OfBytes bits (vec2Bytes bits v) = v := by
  obtain ⟨x, y⟩ := v
  have hx := floatOfBytes_floatBytes bits hbits x (floatBytes bits y)
  have hy := floatOfBytes_floatBytes bits hbits y []
  rw [List.append_nil] at hy
  have d4 : (floatBytes bits x ++ floatBytes bits y).drop 4 = floatBytes bits y := rfl
  simp only [vec2OfBytes, vec2Bytes, d4, hx, hy]

theorem length_arrayBytes {α : Type} (enc : α → List Nat) (size : Nat)
    (henc : ∀ x, (enc x).length = size) (p : Nat → α) (n : Nat) :
    (arrayBytes enc p n).length = n * size := by
  induction n with
  | zero => simp [arrayBytes]
  | succ n ih => rw [arrayBytes, List.length_append, ih, henc, Nat.succ_mul]

theorem slice_arrayBytes {α : Type} (enc : α → List Nat) (size : Nat)
    (henc : ∀ x, (enc x).length = size) (p : Nat → α) (n i : Nat) (hi : i < n) :
    ((arrayBytes enc p n).drop (i * size)).take size = enc (p i) := by
  induction n with
  | zero => omega
  | succ n ih =>
    rw [arrayBytes]
    have hlen := length_arrayBytes enc size henc p n
    rcases Nat.eq_or_lt_of_le (Nat.le_of_lt_succ hi) with heq | hlt
    · subst heq
      rw [List.drop_left' hlen, ← henc (p i), List.take_length]
    · have h1 : i * size + size ≤ n * size := by
        have : (i + 1) * size ≤ n * size := Nat.mul_le_mul_right _ hlt
        rw [Nat.succ_mul] at this
        exact this
      rw [List.drop_append_of_le_length (by rw [hlen]; omega),
        List.take_append_of_le_length (by rw [List.length_drop, hlen]; omega)]
      exact ih hlt

theorem arrayOfBytes_arrayBytes {α : Type} (enc : α → List Nat) (dec : List Nat → α)
    (size : Nat) (henc : ∀ x, (enc x).length = size) (hdec : ∀ x, dec (enc x) = x)
    (p block : Nat → α) (n i : Nat) (hi : i < n) :
    arrayOfBytes dec size (arrayBytes enc p n) block i = p i := by
  unfold arrayOfBytes
  have hlen := length_arrayBytes enc size henc p n
  have h1 : (i + 1) * size ≤ (arrayBytes enc p n).length := by
    rw [hlen]; exact Nat.mul_le_mul_right _ hi
  rw [if_pos h1, slice_arrayBytes enc size henc p n i hi, hdec]

theorem fread_append (size : Nat) (block rest : List Nat) (h : block.length = size) :
    fread size (block ++ rest) = (decide (0 < size), block, rest) := by
  unfold fread
  rw [List.take_left' h, List.drop_left' h]
  have hle : size ≤ (block ++ rest).length := by rw [List.length_append]; omega
  simp only [hle, and_true]


theorem fread_exact (size : Nat) (block : List Nat) (h : block.length = size) :
    fread size block = (decide (0 < size), block, []) := by
  have := fread_append size block [] h
  rwa [List.append_nil] at this

theorem de32_le32 (n : Nat) (h : n < 2 ^ 32) : de32 (le32 n) = n := by
  have := de32_le32_append n h []
  rwa [List.append_nil] at this

theorem floatOfBytes_floatBytes_nil (bits : FloatBits F)
    (hbits : ∀ x, bits.toBits x < 2 ^ 32 ∧ bits.ofBits (bits.toBits x) = x) (x : F) :
    floatOfBytes bits (floatBytes bits x) = x := by
  have := floatOfBytes_floatBytes bits hbits x []
  rwa [List.append_nil] at this

/-- What a mesh loads from the bytes another mesh saved, when that mesh has all four arrays
and its counts fit in 32 bits. -/
theorem LoadMesh_SaveMesh (bits : FloatBits F)
    (hbits : ∀ x, bits.toBits x < 2 ^ 32 ∧ bits.ofBits (bits.toBits x) = x)
    (m f : TriangleMesh F) (mem : Storage F) (pn : Nat → M3DVector3f F)
    (pt : Nat → M3DVector2f F) (hpn : m.pNorms = some pn) (hpt : m.pTexCoords = some pt)
    (hni : m.nNumIndexes < 2 ^ 32) (hnv : m.nNumVerts < 2 ^ 32) :
    LoadMesh bits f (SaveMesh bits m).2 true true mem =
      (true,
        { f with
          nNumIndexes := m.nNumIndexes
          nNumVerts := m.nNumVerts
          boundingSphereRadius := m.boundingSphereRadius
          pIndexes := arrayOfBytes de32 4 (arrayBytes le32 m.pIndexes m.nNumIndexes) mem.indexes
          pVerts := arrayOfBytes (vec3OfBytes bits) 12
            (arrayBytes (vec3Bytes bits) m.pVerts m.nNumVerts) mem.verts
          pNorms := if 0 < 12 * m.nNumVerts then
              some (arrayOfBytes (vec3OfBytes bits) 12
                (arrayBytes (vec3Bytes bits) pn m.nNumVerts) mem.norms)
            else none
          pTexCoords := if 0 < 8 * m.nNumVerts then
              some (arrayOfBytes (vec2OfBytes bits) 8
                (arrayBytes (vec2Bytes bits) pt m.nNumVerts) mem.texCoords)
            else none },
        []) := by
  have lI : (arrayBytes le32 m.pIndexes m.nNumIndexes).length = 4 * m.nNumIndexes := by
    rw [length_arrayBytes le32 4 length_le32, Nat.mul_comm]
  have lV : (arrayBytes (vec3Bytes bits) m.pVerts m.nNumVerts).length = 12 * m.nNumVerts := by
    rw [length_arrayBytes _ 12 (length_vec3Bytes bits), Nat.mul_comm]
  have lN : (arrayBytes (vec3Bytes bits) pn m.nNumVerts).length = 12 * m.nNumVerts := by
    rw [length_arrayBytes _ 12 (length_vec3Bytes bits), Nat.mul_comm]
  have lT : (arrayBytes (vec2Bytes bits) pt m.nNumVerts).length = 8 * m.nNumVerts := by
    rw [length_arrayBytes _ 8 (length_vec2Bytes bits), Nat.mul_comm]
  have e1 : ∀ rest, fread 4 (le32 m.nNumIndexes ++ rest) = (true, le32 m.nNumIndexes, rest) :=
    fun rest => fread_append 4 _ rest rfl
  have e2 : ∀ rest, fread 4 (le32 m.nNumVerts ++ rest) = (true, le32 m.nNumVerts, rest) :=
    fun rest => fread_append 4 _ rest rfl
  have e3 : ∀ rest, fread 4 (floatBytes bits m.boundingSphereRadius ++ rest)
      = (true, floatBytes bits m.boundingSphereRadius, rest) :=
    fun rest => fread_append 4 _ rest rfl
  have e4 := fun rest => fread_append (4 * m.nNumIndexes) _ rest lI
  have e5 := fun rest => fread_append (12 * m.nNumVerts) _ rest lV
  have e6 := fun rest => fread_append (12 * m.nNumVerts) _ rest lN
  have e7 := fread_exact (8 * m.nNumVerts) _ lT
  simp only [LoadMesh, SaveMesh, hpn, hpt, List.append_assoc, e1, e2, e3, if_true,
    de32_le32 _ hni, de32_le32 _ hnv, e4, e5, e6, e7, floatOfBytes_floatBytes_nil bits hbits,
    decide_eq_true_eq]

/-- C4. Save/load round trip.  For a mesh built by `BeginMesh(capacity)`, `AddTriangle` calls
and `End`, with `nNumIndexes <= capacity`, and a `float` representation that loses nothing:
a fresh mesh that loads, with both flags set, the bytes the mesh saved reports success,
consumes the whole stream, and has the same `nNumIndexes`, the same `nNumVerts`, the same
indices below `nNumIndexes`, the same position, normal and texture coordinate in every slot
below `nNumVerts`, and the same `boundingSphereRadius`. -/
theorem save_load_round_trip (ops : FloatOps F) (bits : FloatBits F)
    (hbits : ∀ x, bits.toBits x < 2 ^ 32 ∧ bits.ofBits (bits.toBits x) = x)
    (m0 : TriangleMesh F) (capacity : Nat) (mem : Storage F) (h32 : capacity < 2 ^ 32)
    (calls : List (Call F)) (m : TriangleMesh F)
    (hrun : addTriangles ops (BeginMesh m0 capacity mem) calls = some m)
    (hidx : m.nNumIndexes ≤ capacity) (mem1 mem2 : Storage F) :
    (loadSaved ops bits (End ops m) mem1 mem2).1 = true ∧
    (loadSaved ops bits (End ops m) mem1 mem2).2.2 = [] ∧
    (loadSaved ops bits (End ops m) mem1 mem2).2.1.nNumIndexes = (End ops m).nNumIndexes ∧
    (loadSaved ops bits (End ops m) mem1 mem2).2.1.nNumVerts = (End ops m).nNumVerts ∧
    (∀ k, k < (End ops m).nNumIndexes →
      (loadSaved ops bits (End ops m) mem1 mem2).2.1.pIndexes k = (End ops m).pIndexes k) ∧
    (∀ i, i < (End ops m).nNumVerts →
      (loadSaved ops bits (End ops m) mem1 mem2).2.1.pVerts i = (End ops m).pVerts i ∧
      ((End ops m).vertexAt i).isSome = true ∧
      (loadSaved ops bits (End ops m) mem1 mem2).2.1.vertexAt i = (End ops m).vertexAt i) ∧
    (loadSaved ops bits (End ops m) mem1 mem2).2.1.boundingSphereRadius
      = (End ops m).boundingSphereRadius := by
  obtain ⟨⟨b1, b2, b3, b4⟩, hvalid⟩ := addTriangles_inv ops
    (fun m => Begun capacity m ∧ ValidIndexes m) (valid_step ops h32) calls _ m hrun
    ⟨begun_BeginMesh m0 capacity mem, fun k hk => absurd hk (Nat.not_lt_zero k)⟩
  obtain ⟨pn, hpn⟩ := Option.isSome_iff_exists.mp b1
  obtain ⟨pt, hpt⟩ := Option.isSome_iff_exists.mp b2
  have hpn1 : (End ops m).pNorms = some pn := hpn
  have hpt1 : (End ops m).pTexCoords = some pt := hpt
  have hni : (End ops m).nNumIndexes < 2 ^ 32 := by show m.nNumIndexes < _; omega
  have hnv : (End ops m).nNumVerts < 2 ^ 32 := by show m.nNumVerts < _; omega
  have hload := LoadMesh_SaveMesh bits hbits (End ops m) (TriangleMesh.new ops mem1) mem2 pn pt
    hpn1 hpt1 hni hnv
  have hv3 := vec3OfBytes_vec3Bytes bits hbits
  have hv2 := vec2OfBytes_vec2Bytes bits hbits
  unfold loadSaved
  rw [hload]
  refine ⟨rfl, rfl, rfl, rfl, fun k hk => ?_, fun i hi => ?_, rfl⟩
  · show arrayOfBytes de32 4 (arrayBytes le32 (End ops m).pIndexes (End ops m).nNumIndexes)
      mem2.indexes k = (End ops m).pIndexes k
    have hk1 : k < m.nNumIndexes := hk
    unfold arrayOfBytes
    have hlen := length_arrayBytes le32 4 length_le32 (End ops m).pIndexes (End ops m).nNumIndexes
    have h1 : (k + 1) * 4 ≤ (arrayBytes le32 (End ops m).pIndexes (End ops m).nNumIndexes).length := by
      rw [hlen]; exact Nat.mul_le_mul_right _ hk
    rw [if_pos h1, slice_arrayBytes le32 4 length_le32 _ _ k hk]
    exact de32_le32 _ (by have := hvalid k hk1; show m.pIndexes k < _; omega)
  · have hposn : 0 < 12 * (End ops m).nNumVerts := by omega
    have hpost : 0 < 8 * (End ops m).nNumVerts := by omega
    have e1 := arrayOfBytes_arrayBytes (vec3Bytes bits) (vec3OfBytes bits) 12
      (length_vec3Bytes bits) hv3 (End ops m).pVerts mem2.verts _ i hi
    have e2 := arrayOfBytes_arrayBytes (vec3Bytes bits) (vec3OfBytes bits) 12
      (length_vec3Bytes bits) hv3 pn mem2.norms _ i hi
    have e3 := arrayOfBytes_arrayBytes (vec2Bytes bits) (vec2OfBytes bits) 8
      (length_vec2Bytes bits) hv2 pt mem2.texCoords _ i hi
    refine ⟨e1, by simp [TriangleMesh.vertexAt, hpn1, hpt1], ?_⟩
    simp only [TriangleMesh.vertexAt, hpn1, hpt1, if_pos hposn, if_pos hpost, e1, e2, e3]

end RoundTrip

/-! ### The theorems at concrete inputs -/

section Witnesses

/-- One triangle submitted and the mesh finalized: the script runs and emits three indices. -/
theorem exampleScript_eval :
    ∃ m : TriangleMesh ℚ,
      perform (FloatOps.exact Rat.sqrt)
        (BeginMesh (TriangleMesh.new (FloatOps.exact Rat.sqrt) zeroStorage) 12 zeroStorage)
        [MeshOp.addTriangle ((flatTriangle exampleVerts1 ⟨0, 0, 1⟩ ⟨0, 0⟩).call exampleEpsilon),
         MeshOp.finish] = some m ∧ m.nNumIndexes = 3 := by
  norm_num [perform, AddTriangle, cornerLoop, addCorner, searchLoop, matchAt,
    appendVertex, BeginMesh, cornerOf, FloatOps.exact, closeEnough, u32, pushIndex,
    Function.update, Triangle.call, flatTriangle, exampleVerts1, exampleEpsilon,
    TriangleMesh.new, zeroStorage, End]

/-- The six corners of two triangles without a common corner are pairwise apart. -/
theorem exampleApart_distinct (sqrt : ℚ → ℚ) :
    (allVertices (FloatOps.exact sqrt)
      [flatTriangle exampleVerts1 ⟨0, 0, 1⟩ ⟨0, 0⟩, flatTriangle exampleVerts3 ⟨0, 0, 1⟩ ⟨0, 0⟩]).Pairwise
      (fun a b => closeVertex (FloatOps.exact sqrt) exampleEpsilon a b = false) := by
  norm_num [allVertices, Triangle.vertices, Triangle.vertex, flatTriangle, exampleVerts1,
    exampleVerts3, closeVertex, FloatOps.exact, closeEnough, exampleEpsilon]

theorem patternBits_lossless :
    ∀ x, patternBits.toBits x < 2 ^ 32 ∧ patternBits.ofBits (patternBits.toBits x) = x := by
  intro x
  refine ⟨x.isLt, ?_⟩
  apply Fin.ext
  show x.val % 4294967296 = x.val
  exact Nat.mod_eq_of_lt x.isLt

set_option maxRecDepth 100000 in
/-- C1 at a concrete input, in binary32: the worked example with the normal `(0,0,1)`, whose
second triangle repeats the corner `(0,0,0)` of the first; index `0` was emitted for it and is
emitted again. -/
theorem shared_corner_welds_witness :
    ∃ r r1,
      stateAt FloatOps.binary32 (TriangleMesh.new FloatOps.binary32 float32Storage)
        12 float32Storage float32Epsilon ([] ++ float32Triangle 0 0 1 :: [])
        (float32Triangle2 0 0 1) (0 : Fin 3) = some r ∧
      stateAt FloatOps.binary32 (TriangleMesh.new FloatOps.binary32 float32Storage)
        12 float32Storage float32Epsilon ([] ++ float32Triangle 0 0 1 :: [])
        (float32Triangle2 0 0 1) ((0 : Fin 3) + 1) = some r1 ∧
      emitted r r1 = some 0 ∧ r1.nNumVerts = r.nNumVerts :=
  shared_corner_welds FloatOps.binary32 (TriangleMesh.new FloatOps.binary32 float32Storage) 12
    float32Storage (by norm_num) float32Epsilon []
    (float32Triangle 0 0 1) 0 [] (float32Triangle2 0 0 1) 0 rfl (by decide) 0
    ⟨_, _, rfl, rfl, by decide⟩

/-- C2 at a concrete input: two triangles without a common corner, capacity `12`. -/
theorem distinct_corners_all_kept_witness :
    ∃ m, addTriangles (FloatOps.exact Rat.sqrt)
        (BeginMesh (TriangleMesh.new (FloatOps.exact Rat.sqrt) zeroStorage) 12 zeroStorage)
        ([flatTriangle exampleVerts1 ⟨0, 0, 1⟩ ⟨0, 0⟩,
          flatTriangle exampleVerts3 ⟨0, 0, 1⟩ ⟨0, 0⟩].map (fun t => t.call exampleEpsilon))
        = some m ∧
      m.nNumVerts = 3 * [flatTriangle exampleVerts1 (⟨0, 0, 1⟩ : M3DVector3f ℚ) ⟨0, 0⟩,
          flatTriangle exampleVerts3 ⟨0, 0, 1⟩ ⟨0, 0⟩].length ∧
      m.nNumIndexes = 3 * [flatTriangle exampleVerts1 (⟨0, 0, 1⟩ : M3DVector3f ℚ) ⟨0, 0⟩,
          flatTriangle exampleVerts3 ⟨0, 0, 1⟩ ⟨0, 0⟩].length :=
  distinct_corners_all_kept (FloatOps.exact Rat.sqrt) _ 12 zeroStorage (by norm_num)
    exampleEpsilon _ (by simp) (exampleApart_distinct Rat.sqrt)

/-- C5 at a concrete input: capacity `3` and two triangles without a common corner leave three
vertices and three indices. -/
theorem capacity_exhaustion_drops_witness :
    ∃ m, addTriangles (FloatOps.exact Rat.sqrt)
        (BeginMesh (TriangleMesh.new (FloatOps.exact Rat.sqrt) zeroStorage) 3 zeroStorage)
        ([flatTriangle exampleVerts1 ⟨0, 0, 1⟩ ⟨0, 0⟩,
          flatTriangle exampleVerts3 ⟨0, 0, 1⟩ ⟨0, 0⟩].map (fun t => t.call exampleEpsilon))
        = some m ∧ m.nNumVerts = 3 ∧ m.nNumIndexes = 3 :=
  capacity_exhaustion_drops (FloatOps.exact Rat.sqrt) _ 3 zeroStorage (by norm_num)
    exampleEpsilon _ (exampleApart_distinct Rat.sqrt)

/-- C7 at a concrete input: one triangle submitted, then `End`. -/
theorem index_validity_witness :
    ∃ m : TriangleMesh ℚ,
      perform (FloatOps.exact Rat.sqrt)
        (BeginMesh (TriangleMesh.new (FloatOps.exact Rat.sqrt) zeroStorage) 12 zeroStorage)
        [MeshOp.addTriangle ((flatTriangle exampleVerts1 ⟨0, 0, 1⟩ ⟨0, 0⟩).call exampleEpsilon),
         MeshOp.finish] = some m ∧ m.nNumIndexes = 3 ∧
      ∀ k, k < m.nNumIndexes → m.pIndexes k < m.nNumVerts := by
  obtain ⟨m, hm, h3⟩ := exampleScript_eval
  exact ⟨m, hm, h3, index_validity (FloatOps.exact Rat.sqrt) _ 12 zeroStorage (by norm_num) _ m hm⟩

/-- C8 as amended, at a concrete input: the two calls of the worked example on capacity `12`. -/
theorem index_count_multiple_of_three_witness :
    ∃ m : TriangleMesh ℚ, exampleSupplied Rat.sqrt 12 ⟨0, 0, 1⟩ ⟨0, 0⟩ = some m ∧
      m.nNumIndexes = 6 ∧ m.nNumIndexes % 3 = 0 := by
  obtain ⟨m, hm, _⟩ := exampleSupplied_eval Rat.sqrt (⟨0, 0, 1⟩ : M3DVector3f ℚ) ⟨0, 0⟩
  exact ⟨m, hm, index_count_multiple_of_three (FloatOps.exact Rat.sqrt) _ 12 zeroStorage
    (by norm_num) _ (by simp) m hm⟩

/-- C4 at a concrete input: a mesh of 32-bit patterns built from one triangle on capacity
`12`, finalized, saved and loaded back. -/
theorem save_load_round_trip_witness :
    ∃ m, addTriangles patternOps (BeginMesh (TriangleMesh.new patternOps patternStorage) 12
        patternStorage) [patternTriangle.call 0] = some m ∧
      (loadSaved patternOps patternBits (End patternOps m) patternStorage patternStorage).2.1.nNumIndexes
        = (End patternOps m).nNumIndexes ∧
      (loadSaved patternOps patternBits (End patternOps m) patternStorage patternStorage).2.1.nNumVerts
        = (End patternOps m).nNumVerts ∧
      ∀ i, i < (End patternOps m).nNumVerts →
        (loadSaved patternOps patternBits (End patternOps m) patternStorage patternStorage).2.1.vertexAt i
          = (End patternOps m).vertexAt i := by
  have h12 : (12 : Nat) < 2 ^ 32 := by norm_num
  have hb := begun_BeginMesh (TriangleMesh.new patternOps patternStorage) 12 patternStorage
  obtain ⟨m, hm, _⟩ := addTriangles_total patternOps h12 0 [patternTriangle] _ hb
  have hcount := addTriangles_count patternOps h12 _ _ m hb (le_refl _)
    (by show 0 + 3 * 1 ≤ 12; omega) hm
  have hidx : m.nNumIndexes ≤ 12 := by
    rw [hcount]; show 0 + 3 * 1 ≤ 12; omega
  have h := save_load_round_trip patternOps patternBits patternBits_lossless _ 12 patternStorage
    h12 _ m hm hidx patternStorage patternStorage
  exact ⟨m, hm, h.2.2.1, h.2.2.2.1, fun i hi => (h.2.2.2.2.2.1 i hi).2.2⟩

end Witnesses

/-! ### The frame of one corner -/

section Frame

variable {F : Type} (ops : FloatOps F)

theorem vertexAt_pushIndex (m : TriangleMesh F) (j i : Nat) :
    (pushIndex m j).vertexAt i = m.vertexAt i := rfl

/-- What handling one corner does to a begun mesh, case by case: the corner is dropped, or
the index of its first match is pushed, or the corner is stored in slot `nNumVerts` and that
slot number is pushed. -/
theorem addCorner_step {capacity : Nat} (hcap : capacity < 2 ^ 32) (m m1 : TriangleMesh F)
    (c : Corner F) (e : F) (hm : Begun capacity m) (h : addCorner ops m c e = some m1) :
    (m1 = m ∧ ¬ (m.nNumVerts < capacity ∧ m.nNumIndexes < capacity)) ∨
    (∃ j, j < m.nNumVerts ∧ m1 = pushIndex m j ∧ matchAt ops m j c e = some true ∧
      ∀ k, k < j → matchAt ops m k c e = some false) ∨
    (∃ v : Vertex F, c = v.corner ∧ m.nNumVerts < capacity ∧ m.nNumIndexes < capacity ∧
      m1.nNumVerts = m.nNumVerts + 1 ∧ m1.nNumIndexes = m.nNumIndexes + 1 ∧
      m1.pIndexes = Function.update m.pIndexes m.nNumIndexes m.nNumVerts ∧
      m1.vertexAt m.nNumVerts = some v ∧ m1.pVerts m.nNumVerts = v.vert ∧
      (∀ i, i ≠ m.nNumVerts → m1.vertexAt i = m.vertexAt i ∧ m1.pVerts i = m.pVerts i) ∧
      ∀ k, k < m.nNumVerts → matchAt ops m k c e = some false) := by
  obtain ⟨b1, b2, b3, b4⟩ := hm
  rcases addCorner_cases ops m c e m1 h with ⟨rfl, hfull, _⟩ | ⟨j, hj, rfl, h1, h2⟩ |
    ⟨g1, g2, ha, hall⟩
  · exact Or.inl ⟨rfl, by rw [← b3]; exact hfull⟩
  · exact Or.inr (Or.inl ⟨j, hj, rfl, h1, h2⟩)
  · obtain ⟨pn, vn, pt, vt, h1, h2, h3, h4, hm1⟩ := appendVertex_some m m1 c ha
    have hc : c = (⟨c.vert, vn, vt⟩ : Vertex F).corner := by
      obtain ⟨cv, cn, ct⟩ := c
      simp only [Vertex.corner] at h2 h4 ⊢
      simp only [h2, h4]
    have hva := vertexAt_appendVertex m m1 ⟨c.vert, vn, vt⟩ (by rw [← hc]; exact ha)
    have hlt : m.nNumVerts + 1 < 2 ^ 32 := by omega
    have hlt2 : m.nNumIndexes + 1 < 2 ^ 32 := by omega
    refine Or.inr (Or.inr ⟨⟨c.vert, vn, vt⟩, hc, by omega, by omega, ?_, ?_, ?_, hva.1, ?_,
      fun i hi => ⟨hva.2 i hi, ?_⟩, hall⟩)
    · rw [hm1]; show u32 (m.nNumVerts + 1) = _; exact u32_eq_of_lt hlt
    · rw [hm1]; show u32 (m.nNumIndexes + 1) = _; exact u32_eq_of_lt hlt2
    · rw [hm1]; rfl
    · rw [hm1]; show Function.update m.pVerts m.nNumVerts c.vert m.nNumVerts = _
      rw [Function.update_same]
    · rw [hm1]; show Function.update m.pVerts m.nNumVerts c.vert i = _
      rw [Function.update_noteq hi]

/-- One corner keeps a begun mesh begun and writes no vertex at or past slot `capacity`. -/
theorem bound_step {capacity : Nat} (hcap : capacity < 2 ^ 32) (b : TriangleMesh F) :
    ∀ (m : TriangleMesh F) (c : Corner F) (e : F) (m1 : TriangleMesh F),
      (Begun capacity m ∧ ∀ i, capacity ≤ i → m.vertexAt i = b.vertexAt i ∧ m.pVerts i = b.pVerts i) →
      addCorner ops m c e = some m1 →
      (Begun capacity m1 ∧
        ∀ i, capacity ≤ i → m1.vertexAt i = b.vertexAt i ∧ m1.pVerts i = b.pVerts i) := by
  intro m c e m1 hm h
  refine ⟨begun_step ops hcap m c e m1 hm.1 h, fun i hi => ?_⟩
  rcases addCorner_step ops hcap m m1 c e hm.1 h with ⟨rfl, _⟩ | ⟨j, _, rfl, _, _⟩ |
    ⟨v, _, g1, _, _, _, _, _, _, hother, _⟩
  · exact hm.2 i hi
  · exact hm.2 i hi
  · obtain ⟨e1, e2⟩ := hother i (by omega)
    rw [e1, e2]
    exact hm.2 i hi

/-- C15. Vertex buffer bound.  In every state reached from `BeginMesh(capacity)` by a sequence
of `AddTriangle` calls (any arguments), `nNumVerts <= capacity`, and every slot at or past
`capacity` of the three vertex arrays holds what the allocation left there: no vertex was
ever written at such a slot. -/
theorem vertex_count_bounded (m0 : TriangleMesh F) (capacity : Nat) (mem : Storage F)
    (h32 : capacity < 2 ^ 32) (calls : List (Call F)) (m : TriangleMesh F)
    (hrun : addTriangles ops (BeginMesh m0 capacity mem) calls = some m) :
    m.nNumVerts ≤ capacity ∧
      ∀ i, capacity ≤ i →
        m.vertexAt i = some ⟨mem.verts i, mem.norms i, mem.texCoords i⟩ ∧
        m.pVerts i = mem.verts i := by
  have h := addTriangles_inv ops _ (bound_step ops h32 (BeginMesh m0 capacity mem)) calls _ m hrun
    ⟨begun_BeginMesh m0 capacity mem, fun _ _ => ⟨rfl, rfl⟩⟩
  exact ⟨h.1.2.2.2, fun i hi => ⟨(h.2 i hi).1, (h.2 i hi).2⟩⟩

/-- C17. First match wins.  When the loop of `AddTriangle` reaches a corner (submitted with a
normal and a texture coordinate) that is within `epsilon`, in all eight components, of
stored vertices, and `k` is the smallest slot of such a vertex, then the corner is handled,
the index emitted for it is `k`, `nNumVerts` stays as it is and no slot of the vertex arrays
changes. -/
theorem first_match_wins (m : TriangleMesh F) (t : Triangle F) (epsilon : F) (i : Fin 3)
    (r : TriangleMesh F) (k : Nat) (sv : Vertex F)
    (hr : cornerLoop ops m t.verts (some t.norms) (some t.texCoords) epsilon i = some r)
    (hk : k < r.nNumVerts) (hsv : r.vertexAt k = some sv)
    (hclose : closeVertex ops epsilon sv (t.vertex ops i) = true)
    (hfirst : ∀ j sj, j < r.nNumVerts → r.vertexAt j = some sj →
      closeVertex ops epsilon sj (t.vertex ops i) = true → k ≤ j) :
    ∃ r1, cornerLoop ops m t.verts (some t.norms) (some t.texCoords) epsilon (i + 1) = some r1 ∧
      emitted r r1 = some k ∧ r1.nNumVerts = r.nNumVerts ∧
      (∀ s, r1.vertexAt s = r.vertexAt s) ∧ ∀ s, r1.pVerts s = r.pVerts s := by
  have hpresent : ∀ j, ∃ sj, r.vertexAt j = some sj := by
    intro j
    unfold TriangleMesh.vertexAt at hsv ⊢
    split at hsv
    · rename_i pn pt h1 h2
      simp [h1, h2]
    · simp at hsv
  have hhit : matchAt ops r k (t.vertex ops i).corner epsilon = some true := by
    rw [matchAt_vertex ops r k _ sv epsilon hsv, hclose]
  have hbefore : ∀ j, j < k → matchAt ops r j (t.vertex ops i).corner epsilon = some false := by
    intro j hj
    obtain ⟨sj, hsj⟩ := hpresent j
    rw [matchAt_vertex ops r j _ sj epsilon hsj]
    cases hc : closeVertex ops epsilon sj (t.vertex ops i) with
    | false => rfl
    | true => exact absurd (hfirst j sj (by omega) hsj hc) (by omega)
  refine ⟨pushIndex r k, ?_, by simp [emitted, pushIndex], rfl, fun _ => rfl, fun _ => rfl⟩
  rw [cornerLoop_succ ops _ _ _ _ _ i i.isLt, hr]
  simp only [Fin.eta, cornerOf_triangle]
  exact addCorner_hit ops r _ epsilon k hk hhit hbefore

end Frame

/-! ### The stored vertices are pairwise apart -/

section Apart

variable {F : Type} (ops : FloatOps F)

/-- A property that every corner handled with the tolerance `epsilon` preserves holds at every
later point of the loop of a call made with that tolerance. -/
theorem cornerLoop_inv_eps (Inv : TriangleMesh F → Prop) (epsilon : F)
    (hstep : ∀ m c m1, Inv m → addCorner ops m c epsilon = some m1 → Inv m1)
    (m : TriangleMesh F) (verts : Fin 3 → M3DVector3f F)
    (vNorms : Option (Fin 3 → M3DVector3f F)) (vTexCoords : Option (Fin 3 → M3DVector2f F))
    (n : Nat) (b : TriangleMesh F)
    (hb : cornerLoop ops m verts vNorms vTexCoords epsilon n = some b) (hInv : Inv m) :
    Inv b := by
  induction n generalizing b with
  | zero =>
    simp only [cornerLoop, Option.some.injEq] at hb
    exact hb ▸ hInv
  | succ n ih =>
    rw [cornerLoop] at hb
    cases hc : cornerLoop ops m verts vNorms vTexCoords epsilon n with
    | none => rw [hc] at hb; simp at hb
    | some m1 =>
      rw [hc] at hb
      simp only at hb
      have h1 := ih m1 hc
      split_ifs at hb with hlt
      · exact hstep _ _ _ h1 hb
      · simp only [Option.some.injEq] at hb
        exact hb ▸ h1

theorem addTriangles_inv_eps (Inv : TriangleMesh F → Prop) (epsilon : F)
    (hstep : ∀ m c m1, Inv m → addCorner ops m c epsilon = some m1 → Inv m1)
    (calls : List (Call F)) (heps : ∀ c ∈ calls, c.epsilon = epsilon) (m m1 : TriangleMesh F)
    (h : addTriangles ops m calls = some m1) (hInv : Inv m) : Inv m1 := by
  induction calls generalizing m with
  | nil =>
    simp only [addTriangles, Option.some.injEq] at h
    exact h ▸ hInv
  | cons c cs ih =>
    rw [addTriangles] at h
    cases hc : AddTriangle ops m c.verts c.vNorms c.vTexCoords c.epsilon with
    | none => rw [hc] at h; simp at h
    | some m2 =>
      rw [hc] at h
      have he : c.epsilon = epsilon := heps c (List.mem_cons_self _ _)
      rw [he] at hc
      exact ih (fun c1 hc1 => heps c1 (List.mem_cons_of_mem _ hc1)) m2 h
        (cornerLoop_inv_eps ops Inv epsilon hstep m c.verts c.vNorms c.vTexCoords 3 m2 hc hInv)

/-- One corner handled with the tolerance `epsilon` keeps the stored vertices pairwise
apart: a vertex is appended only after every stored slot failed to match it. -/
theorem apart_step {capacity : Nat} (hcap : capacity < 2 ^ 32) (epsilon : F) :
    ∀ (m : TriangleMesh F) (c : Corner F) (m1 : TriangleMesh F),
      (Begun capacity m ∧ NoWeldablePair ops epsilon m) → addCorner ops m c epsilon = some m1 →
      (Begun capacity m1 ∧ NoWeldablePair ops epsilon m1) := by
  intro m c m1 hm h
  refine ⟨begun_step ops hcap m c epsilon m1 hm.1 h, ?_⟩
  rcases addCorner_step ops hcap m m1 c epsilon hm.1 h with ⟨rfl, _⟩ | ⟨j, _, rfl, _, _⟩ |
    ⟨v, hc, _, _, hv1, _, _, hnew, _, hother, hall⟩
  · exact hm.2
  · exact hm.2
  · intro i j hij hj
    rw [hv1] at hj
    rcases Nat.eq_or_lt_of_le (Nat.le_of_lt_succ hj) with heq | hlt
    · subst heq
      obtain ⟨si, hsi, _⟩ := hm.1.vertexAt i
      refine ⟨si, v, by rw [(hother i (by omega)).1]; exact hsi, hnew, ?_⟩
      have hmiss := hall i hij
      rw [hc, matchAt_vertex ops m i v si epsilon hsi] at hmiss
      simpa using hmiss
    · obtain ⟨si, sj, h1, h2, h3⟩ := hm.2 i j hij hlt
      exact ⟨si, sj, by rw [(hother i (by omega)).1]; exact h1,
        by rw [(hother j (by omega)).1]; exact h2, h3⟩

theorem noWeldablePair_of_run {capacity : Nat} (hcap : capacity < 2 ^ 32) (epsilon : F)
    (m0 : TriangleMesh F) (mem : Storage F) (calls : List (Call F))
    (heps : ∀ c ∈ calls, c.epsilon = epsilon) (m : TriangleMesh F)
    (hrun : addTriangles ops (BeginMesh m0 capacity mem) calls = some m) :
    NoWeldablePair ops epsilon m :=
  (addTriangles_inv_eps ops _ epsilon (apart_step ops hcap epsilon) calls heps _ m hrun
    ⟨begun_BeginMesh m0 capacity mem, fun _ j _ hj => absurd hj (Nat.not_lt_zero j)⟩).2

end Apart

section ApartExact

variable {F : Type} [LinearOrderedField F]

theorem closeEnough_comm (a b epsilon : F) : closeEnough a b epsilon = closeEnough b a epsilon := by
  unfold closeEnough
  rw [abs_sub_comm]

theorem closeVertex_comm (sqrt : F → F) (epsilon : F) (a b : Vertex F) :
    closeVertex (FloatOps.exact sqrt) epsilon a b = closeVertex (FloatOps.exact sqrt) epsilon b a := by
  simp only [closeVertex, FloatOps.exact]
  rw [closeEnough_comm a.vert.x, closeEnough_comm a.vert.y, closeEnough_comm a.vert.z,
    closeEnough_comm a.norm.x, closeEnough_comm a.norm.y, closeEnough_comm a.norm.z,
    closeEnough_comm a.texCoord.x, closeEnough_comm a.texCoord.y]

/-- C20. No weldable pair is stored.  In every state reached from `BeginMesh(capacity)` by
`AddTriangle` calls (any arguments) that all use the same `epsilon`, any two stored vertices
in slots `i < j < nNumVerts` are not within `epsilon` of each other in all eight components,
whichever of the two is taken as the stored one and whichever as the candidate. -/
theorem no_weldable_pair_stored (sqrt : F → F) (m0 : TriangleMesh F) (capacity : Nat)
    (mem : Storage F) (h32 : capacity < 2 ^ 32) (epsilon : F) (calls : List (Call F))
    (heps : ∀ c ∈ calls, c.epsilon = epsilon) (m : TriangleMesh F)
    (hrun : addTriangles (FloatOps.exact sqrt) (BeginMesh m0 capacity mem) calls = some m) :
    ∀ i j, i < j → j < m.nNumVerts →
      ∃ si sj, m.vertexAt i = some si ∧ m.vertexAt j = some sj ∧
        closeVertex (FloatOps.exact sqrt) epsilon si sj = false ∧
        closeVertex (FloatOps.exact sqrt) epsilon sj si = false := by
  intro i j hij hj
  obtain ⟨si, sj, h1, h2, h3⟩ :=
    noWeldablePair_of_run (FloatOps.exact sqrt) h32 epsilon m0 mem calls heps m hrun i j hij hj
  exact ⟨si, sj, h1, h2, h3, by rw [closeVertex_comm]; exact h3⟩

end ApartExact

/-! ### Every emitted index points at a vertex close to the submitted corner -/

section Sound

variable {F : Type} (ops : FloatOps F)

theorem addCornersWith_append (m : TriangleMesh F) (xs ys : List (Vertex F × F)) :
    addCornersWith ops m (xs ++ ys) =
      match addCornersWith ops m xs with
      | none => none
      | some m1 => addCornersWith ops m1 ys := by
  induction xs generalizing m with
  | nil => rfl
  | cons c cs ih =>
    rw [List.cons_append, addCornersWith, addCornersWith]
    cases addCorner ops m c.1.corner c.2 with
    | none => rfl
    | some m2 => exact ih m2

theorem addTriangles_eq_addCornersWith (calls : List (Triangle F × F)) (m : TriangleMesh F) :
    addTriangles ops m (calls.map (fun p => p.1.call p.2)) =
      addCornersWith ops m (submittedCorners ops calls) := by
  induction calls generalizing m with
  | nil => rfl
  | cons p rest ih =>
    rw [List.map_cons, addTriangles, submittedCorners, addCornersWith_append]
    have h1 : AddTriangle ops m (p.1.call p.2).verts (p.1.call p.2).vNorms
        (p.1.call p.2).vTexCoords (p.1.call p.2).epsilon =
        addCorners ops p.2 m ((p.1.vertices ops).map Vertex.corner) :=
      AddTriangle_eq_addCorners ops m p.1 p.2
    have h2 : addCorners ops p.2 m ((p.1.vertices ops).map Vertex.corner) =
        addCornersWith ops m
          [(p.1.vertex ops 0, p.2), (p.1.vertex ops 1, p.2), (p.1.vertex ops 2, p.2)] := by
      simp only [Triangle.vertices, List.map_cons, List.map_nil, addCorners, addCornersWith]
    rw [h1, h2]
    cases addCornersWith ops m
        [(p.1.vertex ops 0, p.2), (p.1.vertex ops 1, p.2), (p.1.vertex ops 2, p.2)] with
    | none => rfl
    | some m1 => exact ih m1

theorem length_submittedCorners (calls : List (Triangle F × F)) :
    (submittedCorners ops calls).length = 3 * calls.length := by
  induction calls with
  | nil => rfl
  | cons p rest ih =>
    simp only [submittedCorners, List.length_append, List.length_cons, List.length_nil, ih]
    omega

theorem Vertex.corner_inj (v w : Vertex F) (h : v.corner = w.corner) : v = w := by
  obtain ⟨a, b, c⟩ := v
  obtain ⟨a2, b2, c2⟩ := w
  simp only [Vertex.corner, Corner.mk.injEq, Option.some.injEq] at h
  simp only [h.1, h.2.1, h.2.2]

/-- While there is room for every corner, each corner is handled, one index is emitted for
it, and the vertex that index points at is the corner itself or a stored vertex that
matched it; later corners change neither that index nor that vertex. -/
theorem addCornersWith_sound {capacity : Nat} (hcap : capacity < 2 ^ 32)
    (cs : List (Vertex F × F)) (m : TriangleMesh F) (hm : Begun capacity m)
    (hle : m.nNumVerts ≤ m.nNumIndexes) (hroom : m.nNumIndexes + cs.length ≤ capacity) :
    ∃ m1, addCornersWith ops m cs = some m1 ∧
      m1.nNumIndexes = m.nNumIndexes + cs.length ∧ m.nNumVerts ≤ m1.nNumVerts ∧
      (∀ i, i < m.nNumVerts → m1.vertexAt i = m.vertexAt i) ∧
      (∀ k, k < m.nNumIndexes → m1.pIndexes k = m.pIndexes k) ∧
      ∀ k v e, cs[k]? = some (v, e) →
        ∃ sv, m1.pIndexes (m.nNumIndexes + k) < m1.nNumVerts ∧
          m1.vertexAt (m1.pIndexes (m.nNumIndexes + k)) = some sv ∧
          (sv = v ∨ closeVertex ops e sv v = true) := by
  induction cs generalizing m with
  | nil =>
    exact ⟨m, rfl, rfl, le_refl _, fun _ _ => rfl, fun _ _ => rfl,
      fun k v e hk => by simp at hk⟩
  | cons p cs ih =>
    obtain ⟨v, e⟩ := p
    rw [List.length_cons] at hroom
    obtain ⟨m2, hstep⟩ := addCorner_total ops m v e hm
    have hb2 := begun_step ops hcap m _ e m2 hm hstep
    rw [addCornersWith, hstep]
    simp only
    -- the facts about the state after this corner
    have key : m2.nNumIndexes = m.nNumIndexes + 1 ∧ m.nNumVerts ≤ m2.nNumVerts ∧
        m2.nNumVerts ≤ m2.nNumIndexes ∧
        (∀ i, i < m.nNumVerts → m2.vertexAt i = m.vertexAt i) ∧
        (∀ k, k < m.nNumIndexes → m2.pIndexes k = m.pIndexes k) ∧
        ∃ sv, m2.pIndexes m.nNumIndexes < m2.nNumVerts ∧
          m2.vertexAt (m2.pIndexes m.nNumIndexes) = some sv ∧
          (sv = v ∨ closeVertex ops e sv v = true) := by
      rcases addCorner_step ops hcap m m2 _ e hm hstep with ⟨_, hfull⟩ |
        ⟨j, hj, rfl, hhit, _⟩ |
        ⟨w, hw, _, _, hv1, hi1, hidx, hnew, _, hother, _⟩
      · exact absurd ⟨by omega, by omega⟩ hfull
      · obtain ⟨sj, hsj, _⟩ := hm.vertexAt j
        have hclose : closeVertex ops e sj v = true := by
          rw [matchAt_vertex ops m j v sj e hsj] at hhit
          simpa using hhit
        refine ⟨?_, le_refl _, ?_, fun _ _ => rfl, fun k hk => ?_, sj, ?_, ?_, Or.inr hclose⟩
        · show u32 (m.nNumIndexes + 1) = _
          exact u32_eq_of_lt (by omega)
        · show m.nNumVerts ≤ u32 (m.nNumIndexes + 1)
          rw [u32_eq_of_lt (by omega)]; omega
        · show Function.update m.pIndexes m.nNumIndexes j k = _
          rw [Function.update_noteq (by omega)]
        · show Function.update m.pIndexes m.nNumIndexes j m.nNumIndexes < m.nNumVerts
          rw [Function.update_same]; exact hj
        · show m.vertexAt (Function.update m.pIndexes m.nNumIndexes j m.nNumIndexes) = _
          rw [Function.update_same]; exact hsj
      · have hwv : w = v := (Vertex.corner_inj v w hw).symm
        subst hwv
        refine ⟨hi1, by omega, by omega, fun i hi => (hother i (by omega)).1, fun k hk => ?_,
          w, ?_, ?_, Or.inl rfl⟩
        · rw [hidx, Function.update_noteq (by omega)]
        · rw [hidx, Function.update_same]; omega
        · rw [hidx, Function.update_same]; exact hnew
    obtain ⟨k1, k2, k3, k4, k5, sv0, k6, k7, k8⟩ := key
    obtain ⟨m1, hrun, r1, r2, r3, r4, r5⟩ := ih m2 hb2 k3 (by omega)
    refine ⟨m1, hrun, by rw [r1, k1, List.length_cons]; omega, by omega,
      fun i hi => by rw [r3 i (by omega), k4 i hi],
      fun k hk => by rw [r4 k (by omega), k5 k hk], fun k w e2 hk => ?_⟩
    cases k with
    | zero =>
      simp only [List.getElem?_cons_zero, Option.some.injEq, Prod.mk.injEq] at hk
      obtain ⟨hv, he⟩ := hk
      subst hv he
      have hidx0 : m1.pIndexes (m.nNumIndexes + 0) = m2.pIndexes m.nNumIndexes := by
        rw [Nat.add_zero]; exact r4 _ (by omega)
      rw [hidx0]
      exact ⟨sv0, by omega, by rw [r3 _ k6]; exact k7, k8⟩
    | succ k =>
      simp only [List.getElem?_cons_succ] at hk
      obtain ⟨sv, s1, s2, s3⟩ := r5 k w e2 hk
      have hshift : m.nNumIndexes + (k + 1) = m2.nNumIndexes + k := by omega
      rw [hshift]
      exact ⟨sv, s1, s2, s3⟩

/-- C19. Weld soundness.  On a mesh begun with a capacity that is at least the number of
submitted corners, with every triangle submitted with normals and texture coordinates and
its own `epsilon`: all calls complete, one index is emitted per corner, and for every `k`
the vertex stored at `pIndexes[k]` is the `k`-th submitted corner itself (position,
normalized normal, texture coordinate) or passes the eight comparisons against it with the
`epsilon` of that corner's call. -/
theorem weld_soundness (m0 : TriangleMesh F) (capacity : Nat) (mem : Storage F)
    (h32 : capacity < 2 ^ 32) (calls : List (Triangle F × F))
    (hcap : 3 * calls.length ≤ capacity) :
    ∃ m, addTriangles ops (BeginMesh m0 capacity mem) (calls.map (fun p => p.1.call p.2)) = some m ∧
      m.nNumIndexes = 3 * calls.length ∧
      ∀ k v e, (submittedCorners ops calls)[k]? = some (v, e) →
        ∃ sv, m.pIndexes k < m.nNumVerts ∧ m.vertexAt (m.pIndexes k) = some sv ∧
          (sv = v ∨ closeVertex ops e sv v = true) := by
  have hlen := length_submittedCorners ops calls
  obtain ⟨m, hrun, h1, _, _, _, h5⟩ := addCornersWith_sound ops h32 (submittedCorners ops calls)
    (BeginMesh m0 capacity mem) (begun_BeginMesh m0 capacity mem) (le_refl _)
    (by rw [hlen]; show 0 + _ ≤ _; omega)
  have hz : (BeginMesh m0 capacity mem).nNumIndexes = 0 := rfl
  rw [hz, Nat.zero_add, hlen] at h1
  refine ⟨m, by rw [addTriangles_eq_addCornersWith]; exact hrun, h1, fun k v e hk => ?_⟩
  have := h5 k v e hk
  rw [hz, Nat.zero_add] at this
  exact this

end Sound

/-! ### The layout of the saved bytes -/

section Layout

variable {F : Type}

/-- A slice that lies inside the middle part of a three-part list is a slice of that part. -/
theorem slice_mid {α : Type} (X A Z : List α) (off a b : Nat) (hX : X.length = off)
    (hab : a + b ≤ A.length) :
    ((X ++ (A ++ Z)).drop (off + a)).take b = (A.drop a).take b := by
  rw [← hX, List.drop_append, List.drop_append_of_le_length (by omega),
    List.take_append_of_le_length (by rw [List.length_drop]; omega)]

theorem slice_whole {α : Type} (A : List α) : (A.drop 0).take A.length = A := by
  rw [List.drop_zero, List.take_length]

/-- The normals block of the saved bytes: present when `pNorms` is not `NULL`. -/
theorem length_normsBlock (bits : FloatBits F) (m : TriangleMesh F) :
    (match m.pNorms with
      | some pNorms => arrayBytes (vec3Bytes bits) pNorms m.nNumVerts
      | none => []).length = if m.pNorms.isSome then 12 * m.nNumVerts else 0 := by
  cases m.pNorms with
  | none => rfl
  | some pn =>
    simp only [Option.isSome_some, if_true]
    rw [length_arrayBytes _ 12 (length_vec3Bytes bits), Nat.mul_comm]

theorem length_texBlock (bits : FloatBits F) (m : TriangleMesh F) :
    (match m.pTexCoords with
      | some pTexCoords => arrayBytes (vec2Bytes bits) pTexCoords m.nNumVerts
      | none => []).length = if m.pTexCoords.isSome then 8 * m.nNumVerts else 0 := by
  cases m.pTexCoords with
  | none => rfl
  | some pt =>
    simp only [Option.isSome_some, if_true]
    rw [length_arrayBytes _ 8 (length_vec2Bytes bits), Nat.mul_comm]

/-- C11. Wire layout.  For every mesh, `SaveMesh` writes `12 + 4*nNumIndexes + 12*nNumVerts`
bytes, plus `12*nNumVerts` when `pNorms` is present and `8*nNumVerts` when `pTexCoords` is
present, and nothing else.  Bytes `0..3` are `nNumIndexes`, bytes `4..7` are `nNumVerts`,
bytes `8..11` are the four bytes of `boundingSphereRadius`; then come the indices, four
bytes each, in slot order; then the positions, twelve bytes each; then the normals, twelve
bytes each; then the texture coordinates, eight bytes each. -/
theorem wire_layout (bits : FloatBits F) (m : TriangleMesh F) :
    (SaveMesh bits m).2.length =
        12 + 4 * m.nNumIndexes + 12 * m.nNumVerts +
          (if m.pNorms.isSome then 12 * m.nNumVerts else 0) +
          (if m.pTexCoords.isSome then 8 * m.nNumVerts else 0) ∧
      (SaveMesh bits m).2.take 4 = le32 m.nNumIndexes ∧
      ((SaveMesh bits m).2.drop 4).take 4 = le32 m.nNumVerts ∧
      ((SaveMesh bits m).2.drop 8).take 4 = floatBytes bits m.boundingSphereRadius ∧
      (∀ k, k < m.nNumIndexes →
        ((SaveMesh bits m).2.drop (12 + 4 * k)).take 4 = le32 (m.pIndexes k)) ∧
      (∀ i, i < m.nNumVerts →
        ((SaveMesh bits m).2.drop (12 + 4 * m.nNumIndexes + 12 * i)).take 12
          = vec3Bytes bits (m.pVerts i)) ∧
      (∀ pNorms, m.pNorms = some pNorms → ∀ i, i < m.nNumVerts →
        ((SaveMesh bits m).2.drop (12 + 4 * m.nNumIndexes + 12 * m.nNumVerts + 12 * i)).take 12
          = vec3Bytes bits (pNorms i)) ∧
      (∀ pTexCoords, m.pTexCoords = some pTexCoords → ∀ i, i < m.nNumVerts →
        ((SaveMesh bits m).2.drop (12 + 4 * m.nNumIndexes + 12 * m.nNumVerts +
            (if m.pNorms.isSome then 12 * m.nNumVerts else 0) + 8 * i)).take 8
          = vec2Bytes bits (pTexCoords i)) := by
  have lI : (arrayBytes le32 m.pIndexes m.nNumIndexes).length = 4 * m.nNumIndexes := by
    rw [length_arrayBytes le32 4 length_le32, Nat.mul_comm]
  have lV : (arrayBytes (vec3Bytes bits) m.pVerts m.nNumVerts).length = 12 * m.nNumVerts := by
    rw [length_arrayBytes _ 12 (length_vec3Bytes bits), Nat.mul_comm]
  have lN := length_normsBlock bits m
  have lT := length_texBlock bits m
  have lf : (floatBytes bits m.boundingSphereRadius).length = 4 := rfl
  generalize hN : (match m.pNorms with
      | some pNorms => arrayBytes (vec3Bytes bits) pNorms m.nNumVerts
      | none => []) = NB at lN
  generalize hT : (match m.pTexCoords with
      | some pTexCoords => arrayBytes (vec2Bytes bits) pTexCoords m.nNumVerts
      | none => []) = TB at lT
  have hB : (SaveMesh bits m).2 =
      le32 m.nNumIndexes ++ le32 m.nNumVerts ++ floatBytes bits m.boundingSphereRadius ++
        arrayBytes le32 m.pIndexes m.nNumIndexes ++
        arrayBytes (vec3Bytes bits) m.pVerts m.nNumVerts ++ NB ++ TB := by
    simp only [SaveMesh, hN, hT]
  rw [hB]
  refine ⟨?_, ?_, ?_, ?_, fun k hk => ?_, fun i hi => ?_, fun pn hpn i hi => ?_,
    fun pt hpt i hi => ?_⟩
  · simp only [List.length_append, length_le32, lf, lI, lV, lN, lT]
  · simp only [List.append_assoc]
    exact List.take_left' rfl
  · simp only [List.append_assoc]
    rw [List.drop_left' (length_le32 m.nNumIndexes)]
    exact List.take_left' rfl
  · simp only [List.append_assoc]
    have h8 : (le32 m.nNumIndexes ++ le32 m.nNumVerts).length = 8 := rfl
    rw [← List.append_assoc (le32 m.nNumIndexes) (le32 m.nNumVerts), List.drop_left' h8]
    exact List.take_left' rfl
  · have := slice_mid
      (le32 m.nNumIndexes ++ le32 m.nNumVerts ++ floatBytes bits m.boundingSphereRadius)
      (arrayBytes le32 m.pIndexes m.nNumIndexes)
      (arrayBytes (vec3Bytes bits) m.pVerts m.nNumVerts ++ (NB ++ TB)) 12 (4 * k) 4 rfl
      (by rw [lI]; omega)
    rw [Nat.mul_comm 4 k, slice_arrayBytes le32 4 length_le32 _ _ k hk] at this
    rw [← this, Nat.mul_comm 4 k]
    simp only [List.append_assoc]
  · have := slice_mid
      (le32 m.nNumIndexes ++ le32 m.nNumVerts ++ floatBytes bits m.boundingSphereRadius ++
        arrayBytes le32 m.pIndexes m.nNumIndexes)
      (arrayBytes (vec3Bytes bits) m.pVerts m.nNumVerts) (NB ++ TB)
      (12 + 4 * m.nNumIndexes) (12 * i) 12
      (by simp only [List.length_append, length_le32, lf, lI])
      (by rw [lV]; omega)
    rw [Nat.mul_comm 12 i, slice_arrayBytes _ 12 (length_vec3Bytes bits) _ _ i hi] at this
    rw [← this, Nat.mul_comm 12 i]
    simp only [List.append_assoc]
  · have hNB : NB = arrayBytes (vec3Bytes bits) pn m.nNumVerts := by
      rw [← hN, hpn]
    have lN2 : NB.length = 12 * m.nNumVerts := by
      rw [hNB, length_arrayBytes _ 12 (length_vec3Bytes bits), Nat.mul_comm]
    have := slice_mid
      (le32 m.nNumIndexes ++ le32 m.nNumVerts ++ floatBytes bits m.boundingSphereRadius ++
        arrayBytes le32 m.pIndexes m.nNumIndexes ++
        arrayBytes (vec3Bytes bits) m.pVerts m.nNumVerts) NB TB
      (12 + 4 * m.nNumIndexes + 12 * m.nNumVerts) (12 * i) 12
      (by simp only [List.length_append, length_le32, lf, lI, lV])
      (by rw [lN2]; omega)
    rw [hNB, Nat.mul_comm 12 i, slice_arrayBytes _ 12 (length_vec3Bytes bits) _ _ i hi] at this
    rw [← this, Nat.mul_comm 12 i, hNB]
    simp only [List.append_assoc]
  · have hTB : TB = arrayBytes (vec2Bytes bits) pt m.nNumVerts := by
      rw [← hT, hpt]
    have lT2 : TB.length = 8 * m.nNumVerts := by
      rw [hTB, length_arrayBytes _ 8 (length_vec2Bytes bits), Nat.mul_comm]
    have := slice_mid
      (le32 m.nNumIndexes ++ le32 m.nNumVerts ++ floatBytes bits m.boundingSphereRadius ++
        arrayBytes le32 m.pIndexes m.nNumIndexes ++
        arrayBytes (vec3Bytes bits) m.pVerts m.nNumVerts ++ NB) TB []
      (12 + 4 * m.nNumIndexes + 12 * m.nNumVerts +
        (if m.pNorms.isSome then 12 * m.nNumVerts else 0)) (8 * i) 8
      (by simp only [List.length_append, length_le32, lf, lI, lV, lN])
      (by rw [lT2]; omega)
    rw [hTB, Nat.mul_comm 8 i, slice_arrayBytes _ 8 (length_vec2Bytes bits) _ _ i hi] at this
    rw [← this, Nat.mul_comm 8 i, hTB]
    simp only [List.append_assoc, List.append_nil]

end Layout

/-! ### Loading a stream with truncated optional blocks -/

section Load

variable {F : Type}

theorem take_slice {α : Type} (l : List α) (n a b : Nat) (hab : a + b ≤ n) :
    ((l.take n).drop a).take b = (l.drop a).take b := by
  rw [List.drop_take, List.take_take]
  congr 1
  omega

/-- What `LoadMesh` returns on a stream that holds a header, an index block and a position
block, field by field. -/
theorem LoadMesh_meshStream (bits : FloatBits F) (f : TriangleMesh F)
    (hIndexes hVerts hRadius indexBlock positionBlock rest : List Nat) (bTexCoords : Bool)
    (mem : Storage F) (h1 : hIndexes.length = 4) (h2 : hVerts.length = 4)
    (h3 : hRadius.length = 4) (hI : indexBlock.length = 4 * de32 hIndexes)
    (hV : positionBlock.length = 12 * de32 hVerts) :
    LoadMesh bits f (meshStream hIndexes hVerts hRadius indexBlock positionBlock rest) true
        bTexCoords mem =
      (true,
        { f with
          nNumIndexes := de32 hIndexes
          nNumVerts := de32 hVerts
          boundingSphereRadius := floatOfBytes bits hRadius
          pIndexes := arrayOfBytes de32 4 indexBlock mem.indexes
          pVerts := arrayOfBytes (vec3OfBytes bits) 12 positionBlock mem.verts
          pNorms := if 0 < 12 * de32 hVerts ∧ 12 * de32 hVerts ≤ rest.length then
              some (arrayOfBytes (vec3OfBytes bits) 12 (rest.take (12 * de32 hVerts)) mem.norms)
            else none
          pTexCoords := if bTexCoords = true then
              (if 0 < 8 * de32 hVerts ∧ 8 * de32 hVerts ≤ (rest.drop (12 * de32 hVerts)).length then
                some (arrayOfBytes (vec2OfBytes bits) 8
                  ((rest.drop (12 * de32 hVerts)).take (8 * de32 hVerts)) mem.texCoords)
              else none)
            else f.pTexCoords },
        if bTexCoords = true then (rest.drop (12 * de32 hVerts)).drop (8 * de32 hVerts)
        else rest.drop (12 * de32 hVerts)) := by
  have e1 : ∀ r, fread 4 (hIndexes ++ r) = (true, hIndexes, r) :=
    fun r => fread_append 4 _ r h1
  have e2 : ∀ r, fread 4 (hVerts ++ r) = (true, hVerts, r) :=
    fun r => fread_append 4 _ r h2
  have e3 : ∀ r, fread 4 (hRadius ++ r) = (true, hRadius, r) :=
    fun r => fread_append 4 _ r h3
  have e4 := fun r => fread_append (4 * de32 hIndexes) indexBlock r hI
  have e5 := fun r => fread_append (12 * de32 hVerts) positionBlock r hV
  cases bTexCoords with
  | true =>
    simp only [LoadMesh, meshStream, e1, e2, e3, e4, e5, if_true]
    simp only [fread, decide_eq_true_eq]
  | false =>
    simp only [LoadMesh, meshStream, e1, e2, e3, e4, e5, if_true]
    simp only [fread, decide_eq_true_eq, Bool.false_eq_true, if_false]

/-- C12, as amended.  All-or-nothing optional blocks on load.  On a stream that holds a
header, an index block and a position block, `LoadMesh` with `bNormals = true` into a fresh
mesh returns `true` and leaves the counts, the radius, the indices and the positions as
read.  The normals are absent exactly when `nNumVerts = 0` or fewer than `12*nNumVerts`
bytes remain after the positions; when present, every normal below `nNumVerts` comes from
those bytes.  With `bTexCoords = true` the same holds for the texture coordinates and the
`8*nNumVerts` bytes after the normals block; with `bTexCoords = false` they are absent. -/
theorem load_optional_blocks (ops : FloatOps F) (bits : FloatBits F)
    (hIndexes hVerts hRadius indexBlock positionBlock rest : List Nat) (bTexCoords : Bool)
    (mem1 mem : Storage F) (h1 : hIndexes.length = 4) (h2 : hVerts.length = 4)
    (h3 : hRadius.length = 4) (hI : indexBlock.length = 4 * de32 hIndexes)
    (hV : positionBlock.length = 12 * de32 hVerts) :
    (LoadMesh bits (TriangleMesh.new ops mem1)
        (meshStream hIndexes hVerts hRadius indexBlock positionBlock rest) true bTexCoords
        mem).1 = true ∧
    (loadFresh ops bits (meshStream hIndexes hVerts hRadius indexBlock positionBlock rest) true
        bTexCoords mem1 mem).nNumIndexes = de32 hIndexes ∧
    (loadFresh ops bits (meshStream hIndexes hVerts hRadius indexBlock positionBlock rest) true
        bTexCoords mem1 mem).nNumVerts = de32 hVerts ∧
    (loadFresh ops bits (meshStream hIndexes hVerts hRadius indexBlock positionBlock rest) true
        bTexCoords mem1 mem).boundingSphereRadius = floatOfBytes bits hRadius ∧
    (∀ k, k < de32 hIndexes →
      (loadFresh ops bits (meshStream hIndexes hVerts hRadius indexBlock positionBlock rest) true
        bTexCoords mem1 mem).pIndexes k = de32 ((indexBlock.drop (4 * k)).take 4)) ∧
    (∀ i, i < de32 hVerts →
      (loadFresh ops bits (meshStream hIndexes hVerts hRadius indexBlock positionBlock rest) true
        bTexCoords mem1 mem).pVerts i = vec3OfBytes bits ((positionBlock.drop (12 * i)).take 12)) ∧
    ((loadFresh ops bits (meshStream hIndexes hVerts hRadius indexBlock positionBlock rest) true
        bTexCoords mem1 mem).pNorms = none ↔
      (de32 hVerts = 0 ∨ rest.length < 12 * de32 hVerts)) ∧
    (∀ pNorms, (loadFresh ops bits
        (meshStream hIndexes hVerts hRadius indexBlock positionBlock rest) true
        bTexCoords mem1 mem).pNorms = some pNorms →
      ∀ i, i < de32 hVerts → pNorms i = vec3OfBytes bits ((rest.drop (12 * i)).take 12)) ∧
    (bTexCoords = true →
      ((loadFresh ops bits (meshStream hIndexes hVerts hRadius indexBlock positionBlock rest) true
          bTexCoords mem1 mem).pTexCoords = none ↔
        (de32 hVerts = 0 ∨ (rest.drop (12 * de32 hVerts)).length < 8 * de32 hVerts)) ∧
      ∀ pTexCoords, (loadFresh ops bits
          (meshStream hIndexes hVerts hRadius indexBlock positionBlock rest) true
          bTexCoords mem1 mem).pTexCoords = some pTexCoords →
        ∀ i, i < de32 hVerts →
          pTexCoords i = vec2OfBytes bits
            (((rest.drop (12 * de32 hVerts)).drop (8 * i)).take 8)) ∧
    (bTexCoords = false →
      (loadFresh ops bits (meshStream hIndexes hVerts hRadius indexBlock positionBlock rest) true
        bTexCoords mem1 mem).pTexCoords = none) := by
  have hL := LoadMesh_meshStream bits (TriangleMesh.new ops mem1) hIndexes hVerts hRadius
    indexBlock positionBlock rest bTexCoords mem h1 h2 h3 hI hV
  unfold loadFresh
  rw [hL]
  refine ⟨rfl, rfl, rfl, rfl, fun k hk => ?_, fun i hi => ?_, ?_, fun pn hpn i hi => ?_,
    fun hT => ⟨?_, fun pt hpt i hi => ?_⟩, fun hT => ?_⟩
  · show arrayOfBytes de32 4 indexBlock mem.indexes k = _
    unfold arrayOfBytes
    rw [if_pos (by rw [hI]; omega), Nat.mul_comm k 4]
  · show arrayOfBytes (vec3OfBytes bits) 12 positionBlock mem.verts i = _
    unfold arrayOfBytes
    rw [if_pos (by rw [hV]; omega), Nat.mul_comm i 12]
  · dsimp only
    by_cases hc : 0 < 12 * de32 hVerts ∧ 12 * de32 hVerts ≤ rest.length
    · rw [if_pos hc]
      constructor
      · intro h; simp at h
      · intro h; omega
    · rw [if_neg hc]
      constructor
      · intro _; omega
      · intro _; rfl
  · have hpn1 : (if 0 < 12 * de32 hVerts ∧ 12 * de32 hVerts ≤ rest.length then
          some (arrayOfBytes (vec3OfBytes bits) 12 (rest.take (12 * de32 hVerts)) mem.norms)
        else none) = some pn := hpn
    by_cases hc : 0 < 12 * de32 hVerts ∧ 12 * de32 hVerts ≤ rest.length
    · rw [if_pos hc] at hpn1
      simp only [Option.some.injEq] at hpn1
      rw [← hpn1]
      unfold arrayOfBytes
      rw [if_pos (by rw [List.length_take]; omega), take_slice _ _ _ _ (by omega),
        Nat.mul_comm i 12]
    · rw [if_neg hc] at hpn1
      simp at hpn1
  · subst hT
    dsimp only
    rw [if_pos rfl]
    by_cases hc : 0 < 8 * de32 hVerts ∧ 8 * de32 hVerts ≤ (rest.drop (12 * de32 hVerts)).length
    · rw [if_pos hc]
      constructor
      · intro h; simp at h
      · intro h; omega
    · rw [if_neg hc]
      constructor
      · intro _; omega
      · intro _; rfl
  · subst hT
    have hpt1 : (if true = true then
        (if 0 < 8 * de32 hVerts ∧ 8 * de32 hVerts ≤ (rest.drop (12 * de32 hVerts)).length then
          some (arrayOfBytes (vec2OfBytes bits) 8
            ((rest.drop (12 * de32 hVerts)).take (8 * de32 hVerts)) mem.texCoords)
          else none)
        else (TriangleMesh.new ops mem1).pTexCoords) = some pt := hpt
    rw [if_pos rfl] at hpt1
    by_cases hc : 0 < 8 * de32 hVerts ∧ 8 * de32 hVerts ≤ (rest.drop (12 * de32 hVerts)).length
    · rw [if_pos hc] at hpt1
      simp only [Option.some.injEq] at hpt1
      rw [← hpt1]
      unfold arrayOfBytes
      rw [if_pos (by rw [List.length_take]; omega), take_slice _ _ _ _ (by omega),
        Nat.mul_comm i 8]
    · rw [if_neg hc] at hpt1
      simp at hpt1
  · subst hT
    rfl

end Load

/-! ### Re-beginning, the composer, and the index count at its limit -/

section Radius

variable {F : Type}

/-- No corner changes `boundingSphereRadius`. -/
theorem radius_step (ops : FloatOps F) (r : F) :
    ∀ (m : TriangleMesh F) (c : Corner F) (e : F) (m1 : TriangleMesh F),
      m.boundingSphereRadius = r → addCorner ops m c e = some m1 →
      m1.boundingSphereRadius = r := by
  intro m c e m1 hm h
  rcases addCorner_cases ops m c e m1 h with ⟨rfl, _, _⟩ | ⟨j, _, rfl, _, _⟩ | ⟨_, _, ha, _⟩
  · exact hm
  · exact hm
  · obtain ⟨pn, vn, pt, vt, _, _, _, _, rfl⟩ := appendVertex_some m m1 c ha
    exact hm

end Radius

section Misc

variable {F : Type} [LinearOrderedField F]

/-- C13. `BeginMesh` does not reset the radius.  The worked example (with normals and texture
coordinates supplied) finalized by `End` has radius `1`; `BeginMesh(12)` on that instance
sets both counts to `0` and leaves `boundingSphereRadius = 1`. -/
theorem begin_keeps_stale_radius :
    ∃ m : TriangleMesh ℝ, exampleSupplied Real.sqrt 12 ⟨0, 0, 1⟩ ⟨0, 0⟩ = some m ∧
      (BeginMesh (End (FloatOps.exact Real.sqrt) m) 12 zeroStorage).nNumVerts = 0 ∧
      (BeginMesh (End (FloatOps.exact Real.sqrt) m) 12 zeroStorage).nNumIndexes = 0 ∧
      (BeginMesh (End (FloatOps.exact Real.sqrt) m) 12 zeroStorage).boundingSphereRadius = 1 ∧
      (BeginMesh (End (FloatOps.exact Real.sqrt) m) 12 zeroStorage).boundingSphereRadius ≠ 0 := by
  obtain ⟨m, h, _, _, _, _, h5⟩ := exampleSupplied_eval Real.sqrt (⟨0, 0, 1⟩ : M3DVector3f ℝ)
    ⟨0, 0⟩
  have hr : (BeginMesh (End (FloatOps.exact Real.sqrt) m) 12 zeroStorage).boundingSphereRadius
      = 1 := by
    show (End (FloatOps.exact Real.sqrt) m).boundingSphereRadius = 1
    rw [h5, Real.sqrt_one]
  exact ⟨m, h, rfl, rfl, hr, by rw [hr]; exact one_ne_zero⟩

/-- C16. Composer order and freshness.  With the stacks at `mModelView` and `mProjection`
bound, `GetModelViewProjectionMatrix` returns the matrix product (top of the projection
stack) x (top of the model-view stack) of the stacks as they are at the call; a second call,
made when the stacks have changed, returns the product of the new tops, whatever the first
call left in `_mModelViewProjection`. -/
theorem composer_order_and_freshness (stacks1 stacks2 : Nat → M3DMatrixStack F)
    (g : M3DGeometryTransform F) (mModelView mProjection : Nat) :
    ∃ g1 g2,
      GetModelViewProjectionMatrix stacks1 (SetMatrixStacks g mModelView mProjection)
        = some ((stacks1 mProjection).top * (stacks1 mModelView).top, g1) ∧
      GetModelViewProjectionMatrix stacks2 g1
        = some ((stacks2 mProjection).top * (stacks2 mModelView).top, g2) :=
  ⟨_, _, rfl, rfl⟩

set_option maxHeartbeats 1000000 in
/-- A call on the state with `nNumIndexes = nMaxIndexes = 2^32 - 1`, with three corners that
match the stored vertex `1`: the first index goes to slot `2^32 - 1`, the count wraps to `0`,
and the next two indices overwrite the slots `0` and `1`. -/
theorem fullIndexState_eval (sqrt : F → F) (N : M3DVector3f F) (T : M3DVector2f F) :
    ∃ m1, AddTriangle (FloatOps.exact sqrt) (fullIndexState sqrt N T)
        (fun _ => ⟨1, 0, 0⟩) (some (fun _ => N)) (some (fun _ => T)) exampleEpsilon = some m1 ∧
      m1.nNumIndexes = 2 ∧ m1.pIndexes 0 = 1 ∧ m1.pIndexes 4294967295 = 1 := by
  norm_num [AddTriangle, cornerLoop, addCorner, searchLoop, matchAt, appendVertex, cornerOf,
    FloatOps.exact, closeEnough, u32, pushIndex, Function.update, exampleEpsilon,
    fullIndexState]

/-- C18. `AddTriangle` is not append-only at the limit of the index count.  In the state with
`nNumIndexes = nMaxIndexes = 4294967295` (so `nNumIndexes <= nMaxIndexes`), a triangle whose
corners match the stored vertex `1` leaves `nNumIndexes = 2`, which is less than before, and
changes the index in slot `0` from `0` to `1`. -/
theorem index_count_wraps_at_limit :
    (fullIndexState Rat.sqrt (⟨0, 0, 1⟩ : M3DVector3f ℚ) ⟨0, 0⟩).nNumIndexes
        ≤ (fullIndexState Rat.sqrt (⟨0, 0, 1⟩ : M3DVector3f ℚ) ⟨0, 0⟩).nMaxIndexes ∧
    (fullIndexState Rat.sqrt (⟨0, 0, 1⟩ : M3DVector3f ℚ) ⟨0, 0⟩).pIndexes 0 = 0 ∧
    ∃ m1, AddTriangle (FloatOps.exact Rat.sqrt) (fullIndexState Rat.sqrt ⟨0, 0, 1⟩ ⟨0, 0⟩)
        (fun _ => ⟨1, 0, 0⟩) (some (fun _ => ⟨0, 0, 1⟩)) (some (fun _ => ⟨0, 0⟩)) exampleEpsilon
        = some m1 ∧
      m1.nNumIndexes = 2 ∧
      m1.nNumIndexes < (fullIndexState Rat.sqrt (⟨0, 0, 1⟩ : M3DVector3f ℚ) ⟨0, 0⟩).nNumIndexes ∧
      m1.pIndexes 0 = 1 := by
  obtain ⟨m1, h, h2, h3, _⟩ := fullIndexState_eval Rat.sqrt (⟨0, 0, 1⟩ : M3DVector3f ℚ) ⟨0, 0⟩
  refine ⟨le_refl _, rfl, m1, h, h2, ?_, h3⟩
  rw [h2]
  show 2 < 4294967295
  omega

end Misc

/-! ### Normals are normalized before they are compared and stored -/

section Normalize

variable {F : Type} [LinearOrderedField F]

/-- The square root of `c^2 x` is `c` times the square root of `x`, for a square root that is
non-negative and squares back. -/
theorem sqrt_mul_self_mul (sqrt : F → F) (hsq : ∀ x, 0 ≤ x → sqrt x * sqrt x = x)
    (hnn : ∀ x, 0 ≤ sqrt x) (c x : F) (hc : 0 < c) (hx : 0 ≤ x) :
    sqrt (c * c * x) = c * sqrt x := by
  have h1 : 0 ≤ c * c * x := mul_nonneg (mul_nonneg hc.le hc.le) hx
  have h2 : sqrt (c * c * x) * sqrt (c * c * x) = (c * sqrt x) * (c * sqrt x) := by
    rw [hsq _ h1]
    have := hsq x hx
    calc c * c * x = c * c * (sqrt x * sqrt x) := by rw [this]
      _ = (c * sqrt x) * (c * sqrt x) := by ring
  exact (mul_self_inj_of_nonneg (hnn _) (mul_nonneg hc.le (hnn _))).mp h2

/-- Normalizing a positive multiple of a vector gives the normalization of the vector. -/
theorem normalize3_scale (sqrt : F → F) (hsq : ∀ x, 0 ≤ x → sqrt x * sqrt x = x)
    (hnn : ∀ x, 0 ≤ sqrt x) (c : F) (hc : 0 < c) (u : M3DVector3f F) :
    normalize3 sqrt ⟨c * u.x, c * u.y, c * u.z⟩ = normalize3 sqrt u := by
  have hL : lengthSquared3 (⟨c * u.x, c * u.y, c * u.z⟩ : M3DVector3f F)
      = c * c * lengthSquared3 u := by
    simp only [lengthSquared3]; ring
  have hs := sqrt_mul_self_mul sqrt hsq hnn c (lengthSquared3 u) hc (lengthSquared3_nonneg u)
  have hc0 : c ≠ 0 := ne_of_gt hc
  simp only [normalize3, hL, hs, M3DVector3f.mk.injEq]
  by_cases hz : sqrt (lengthSquared3 u) = 0
  · simp [hz]
  · refine ⟨?_, ?_, ?_⟩ <;> (field_simp; ring)

/-- The normalization of a non-zero vector has length one. -/
theorem lengthSquared3_normalize3 (sqrt : F → F) (hsq : ∀ x, 0 ≤ x → sqrt x * sqrt x = x)
    (u : M3DVector3f F) (hu : lengthSquared3 u ≠ 0) :
    lengthSquared3 (normalize3 sqrt u) = 1 := by
  have h := hsq _ (lengthSquared3_nonneg u)
  have hz : sqrt (lengthSquared3 u) ≠ 0 := by
    intro h0
    rw [h0, mul_zero] at h
    exact hu h.symm
  have hexp : lengthSquared3 (normalize3 sqrt u)
      = lengthSquared3 u * ((1 / sqrt (lengthSquared3 u)) * (1 / sqrt (lengthSquared3 u))) := by
    simp only [normalize3, lengthSquared3]; ring
  rw [hexp]
  nth_rewrite 1 [← h]
  field_simp

/-- In exact arithmetic, with a square root that is non-negative and squares back: for every
`epsilon > 0`, a later corner with the same position and texture coordinate and a normal that
is `c` times the non-zero normal of an earlier corner, `c > 0`, gets the index emitted for the
earlier corner and stores nothing, and the normalization has length one. -/
theorem scaled_normals_weld_exact (sqrt : F → F)
    (hsq : ∀ x, 0 ≤ x → sqrt x * sqrt x = x) (hnn : ∀ x, 0 ≤ sqrt x)
    (m0 : TriangleMesh F) (capacity : Nat) (mem : Storage F) (hcap : capacity < 2 ^ 32)
    (epsilon : F) (heps : 0 < epsilon)
    (earlier : List (Triangle F)) (t : Triangle F) (i : Fin 3)
    (between : List (Triangle F)) (t2 : Triangle F) (j : Fin 3) (c : F) (hc : 0 < c)
    (hnonzero : lengthSquared3 (t.norms i) ≠ 0)
    (hvert : t2.verts j = t.verts i) (htex : t2.texCoords j = t.texCoords i)
    (hnorm : t2.norms j = ⟨c * (t.norms i).x, c * (t.norms i).y, c * (t.norms i).z⟩)
    (k : Nat) (s s1 : TriangleMesh F)
    (hs : stateAt (FloatOps.exact sqrt) m0 capacity mem epsilon earlier t i = some s)
    (hs1 : stateAt (FloatOps.exact sqrt) m0 capacity mem epsilon earlier t (i + 1) = some s1)
    (hem : emitted s s1 = some k) :
    (∃ r r1,
      stateAt (FloatOps.exact sqrt) m0 capacity mem epsilon (earlier ++ t :: between) t2 j
        = some r ∧
      stateAt (FloatOps.exact sqrt) m0 capacity mem epsilon (earlier ++ t :: between) t2 (j + 1)
        = some r1 ∧
      emitted r r1 = some k ∧ r1.nNumVerts = r.nNumVerts) ∧
    lengthSquared3 (normalize3 sqrt (t.norms i)) = 1 := by
  have hsame : t2.vertex (FloatOps.exact sqrt) j = t.vertex (FloatOps.exact sqrt) i := by
    simp only [Triangle.vertex, hvert, htex, hnorm]
    have := normalize3_scale sqrt hsq hnn c hc (t.norms i)
    simp only [FloatOps.exact, this]
  exact ⟨weld_same_vertex (FloatOps.exact sqrt) m0 capacity mem hcap epsilon earlier t i between
    t2 j hsame (closeVertex_self sqrt epsilon heps _) k s s1 hs hs1 hem,
    lengthSquared3_normalize3 sqrt hsq _ hnonzero⟩

end Normalize

section Normalized

variable {F : Type}

end Normalized

/-! ### Append-only behaviour while the index count cannot wrap -/

section AppendOnly

variable {F : Type} (ops : FloatOps F)

theorem addTriangles_radius (calls : List (Call F)) (m m1 : TriangleMesh F)
    (h : addTriangles ops m calls = some m1) :
    m1.boundingSphereRadius = m.boundingSphereRadius :=
  addTriangles_inv ops (fun x => x.boundingSphereRadius = m.boundingSphereRadius)
    (radius_step ops _) calls m m1 h rfl

/-- One corner, handled while `nNumIndexes + 1` still fits in 32 bits, changes no slot below
the two counts and lowers neither count. -/
theorem append_only_step (m m1 : TriangleMesh F) (c : Corner F) (e : F)
    (hmax : m.nMaxIndexes < 2 ^ 32) (hidx : m.nNumIndexes + 1 < 2 ^ 32)
    (h : addCorner ops m c e = some m1) :
    m1.nMaxIndexes = m.nMaxIndexes ∧ m.nNumVerts ≤ m1.nNumVerts ∧
      m.nNumIndexes ≤ m1.nNumIndexes ∧ m1.nNumIndexes ≤ m.nNumIndexes + 1 ∧
      (∀ i, i < m.nNumVerts → m1.pVerts i = m.pVerts i ∧ m1.vertexAt i = m.vertexAt i) ∧
      ∀ k, k < m.nNumIndexes → m1.pIndexes k = m.pIndexes k := by
  rcases addCorner_cases ops m c e m1 h with ⟨rfl, _, _⟩ | ⟨j, _, rfl, _, _⟩ | ⟨g1, _, ha, _⟩
  · exact ⟨rfl, le_refl _, le_refl _, by omega, fun _ _ => ⟨rfl, rfl⟩, fun _ _ => rfl⟩
  · have e1 : (pushIndex m j).nNumIndexes = m.nNumIndexes + 1 := u32_eq_of_lt hidx
    refine ⟨rfl, le_refl _, by omega, by omega, fun _ _ => ⟨rfl, rfl⟩, fun k hk => ?_⟩
    show Function.update m.pIndexes m.nNumIndexes j k = _
    rw [Function.update_noteq (by omega)]
  · obtain ⟨pn, vn, pt, vt, h1, h2, h3, h4, hm1⟩ := appendVertex_some m m1 c ha
    have hc : c = (⟨c.vert, vn, vt⟩ : Vertex F).corner := by
      obtain ⟨cv, cn, ct⟩ := c
      simp only [Vertex.corner] at h2 h4 ⊢
      simp only [h2, h4]
    have hva := vertexAt_appendVertex m m1 ⟨c.vert, vn, vt⟩ (by rw [← hc]; exact ha)
    have ev : m1.nNumVerts = m.nNumVerts + 1 := by
      rw [hm1]; show u32 (m.nNumVerts + 1) = _; exact u32_eq_of_lt (by omega)
    have ei : m1.nNumIndexes = m.nNumIndexes + 1 := by
      rw [hm1]; show u32 (m.nNumIndexes + 1) = _; exact u32_eq_of_lt hidx
    refine ⟨by rw [hm1]; rfl, by omega, by omega, by omega,
      fun i hi => ⟨?_, hva.2 i (by omega)⟩, fun k hk => ?_⟩
    · rw [hm1]; show Function.update m.pVerts m.nNumVerts c.vert i = _
      rw [Function.update_noteq (by omega)]
    · rw [hm1]; show Function.update m.pIndexes m.nNumIndexes m.nNumVerts k = _
      rw [Function.update_noteq (by omega)]

/-- A call of `AddTriangle` made while `nNumIndexes + 3` still fits in 32 bits is append-only:
positions, normals and texture coordinates below the old `nNumVerts` and indices below the
old `nNumIndexes` are unchanged, and neither count decreases. -/
theorem AddTriangle_append_only (m : TriangleMesh F) (verts : Fin 3 → M3DVector3f F)
    (vNorms : Option (Fin 3 → M3DVector3f F)) (vTexCoords : Option (Fin 3 → M3DVector2f F))
    (epsilon : F) (hmax : m.nMaxIndexes < 2 ^ 32) (hidx : m.nNumIndexes + 3 < 2 ^ 32)
    (n : Nat) (hn : n ≤ 3) (m1 : TriangleMesh F)
    (h : cornerLoop ops m verts vNorms vTexCoords epsilon n = some m1) :
    m1.nMaxIndexes = m.nMaxIndexes ∧ m.nNumVerts ≤ m1.nNumVerts ∧
      m.nNumIndexes ≤ m1.nNumIndexes ∧ m1.nNumIndexes ≤ m.nNumIndexes + n ∧
      (∀ i, i < m.nNumVerts → m1.pVerts i = m.pVerts i ∧ m1.vertexAt i = m.vertexAt i) ∧
      ∀ k, k < m.nNumIndexes → m1.pIndexes k = m.pIndexes k := by
  induction n generalizing m1 with
  | zero =>
    simp only [cornerLoop, Option.some.injEq] at h
    subst h
    exact ⟨rfl, le_refl _, le_refl _, le_refl _, fun _ _ => ⟨rfl, rfl⟩, fun _ _ => rfl⟩
  | succ n ih =>
    rw [cornerLoop_succ ops m verts vNorms vTexCoords epsilon n (by omega)] at h
    cases hc : cornerLoop ops m verts vNorms vTexCoords epsilon n with
    | none => rw [hc] at h; simp at h
    | some m2 =>
      rw [hc] at h
      simp only at h
      obtain ⟨a1, a2, a3, a4, a5, a6⟩ := ih (by omega) m2 hc
      obtain ⟨b1, b2, b3, b4, b5, b6⟩ := append_only_step ops m2 m1 _ epsilon
        (by rw [a1]; exact hmax) (by omega) h
      refine ⟨by rw [b1, a1], by omega, by omega, by omega, fun i hi => ?_, fun k hk => ?_⟩
      · obtain ⟨c1, c2⟩ := b5 i (by omega)
        obtain ⟨d1, d2⟩ := a5 i hi
        exact ⟨by rw [c1, d1], by rw [c2, d2]⟩
      · rw [b6 k (by omega), a6 k hk]

end AppendOnly

/-! ### The theorems of the second part at concrete inputs -/

section Witnesses2

set_option maxHeartbeats 1000000 in
/-- The first triangle of the worked example alone: three vertices, the first of them the
corner `(0,0,0)`. -/
theorem exampleFirst_eval {F : Type} [LinearOrderedField F] (sqrt : F → F) (N : M3DVector3f F)
    (T : M3DVector2f F) :
    ∃ m, addTriangles (FloatOps.exact sqrt)
        (BeginMesh (TriangleMesh.new (FloatOps.exact sqrt) zeroStorage) 12 zeroStorage)
        [(flatTriangle exampleVerts1 N T).call exampleEpsilon] = some m ∧
      m.nNumVerts = 3 ∧
      m.vertexAt 0 = some ⟨⟨0, 0, 0⟩, normalize3 sqrt N, T⟩ ∧
      m.vertexAt 1 = some ⟨⟨1, 0, 0⟩, normalize3 sqrt N, T⟩ := by
  norm_num [addTriangles, AddTriangle, cornerLoop, addCorner, searchLoop, matchAt,
    appendVertex, BeginMesh, cornerOf, FloatOps.exact, closeEnough, u32, pushIndex,
    Function.update, Triangle.call, flatTriangle, exampleVerts1, exampleEpsilon,
    TriangleMesh.new, zeroStorage, TriangleMesh.vertexAt]

/-- C12, the claim as stated fails.  A stream that holds only the header of an empty mesh
(both counts `0`), loaded with both flags set: the normals and the texture coordinates are
absent, although it is not the case that fewer than `12 * 0` (or `8 * 0`) bytes remained. -/
theorem empty_mesh_loads_without_normals :
    (loadFresh patternOps patternBits (meshStream [0, 0, 0, 0] [0, 0, 0, 0] [0, 0, 0, 0] [] [] [])
        true true patternStorage patternStorage).nNumVerts = 0 ∧
    (loadFresh patternOps patternBits (meshStream [0, 0, 0, 0] [0, 0, 0, 0] [0, 0, 0, 0] [] [] [])
        true true patternStorage patternStorage).pNorms = none ∧
    (loadFresh patternOps patternBits (meshStream [0, 0, 0, 0] [0, 0, 0, 0] [0, 0, 0, 0] [] [] [])
        true true patternStorage patternStorage).pTexCoords = none ∧
    ¬ (([] : List Nat).length < 12 * (loadFresh patternOps patternBits
        (meshStream [0, 0, 0, 0] [0, 0, 0, 0] [0, 0, 0, 0] [] [] [])
        true true patternStorage patternStorage).nNumVerts) := by
  refine ⟨rfl, rfl, rfl, ?_⟩
  show ¬ (0 < 12 * 0)
  omega

/-- C12 as amended, at a concrete input: a header that announces no index and one vertex, the
twelve bytes of its position, twelve bytes of normals and three more bytes. -/
theorem load_optional_blocks_witness :
    ((loadFresh patternOps patternBits
        (meshStream [0, 0, 0, 0] [1, 0, 0, 0] [0, 0, 0, 0] []
          [1, 0, 0, 0, 2, 0, 0, 0, 3, 0, 0, 0]
          [4, 0, 0, 0, 5, 0, 0, 0, 6, 0, 0, 0, 7, 8, 9])
        true true patternStorage patternStorage).pNorms = none ↔
      (de32 [1, 0, 0, 0] = 0 ∨
        [4, 0, 0, 0, 5, 0, 0, 0, 6, 0, 0, 0, 7, 8, 9].length < 12 * de32 [1, 0, 0, 0])) ∧
    ((loadFresh patternOps patternBits
        (meshStream [0, 0, 0, 0] [1, 0, 0, 0] [0, 0, 0, 0] []
          [1, 0, 0, 0, 2, 0, 0, 0, 3, 0, 0, 0]
          [4, 0, 0, 0, 5, 0, 0, 0, 6, 0, 0, 0, 7, 8, 9])
        true true patternStorage patternStorage).pTexCoords = none ↔
      (de32 [1, 0, 0, 0] = 0 ∨
        ([4, 0, 0, 0, 5, 0, 0, 0, 6, 0, 0, 0, 7, 8, 9].drop (12 * de32 [1, 0, 0, 0])).length
          < 8 * de32 [1, 0, 0, 0])) := by
  have h := load_optional_blocks patternOps patternBits [0, 0, 0, 0] [1, 0, 0, 0] [0, 0, 0, 0] []
    [1, 0, 0, 0, 2, 0, 0, 0, 3, 0, 0, 0] [4, 0, 0, 0, 5, 0, 0, 0, 6, 0, 0, 0, 7, 8, 9] true
    patternStorage patternStorage rfl rfl rfl (by decide) (by decide)
  exact ⟨h.2.2.2.2.2.2.1, (h.2.2.2.2.2.2.2.2.1 rfl).1⟩

/-- C15 at a concrete input: the worked example on capacity `12`. -/
theorem vertex_count_bounded_witness :
    ∃ m : TriangleMesh ℚ, exampleSupplied Rat.sqrt 12 ⟨0, 0, 1⟩ ⟨0, 0⟩ = some m ∧
      m.nNumVerts ≤ 12 ∧
      ∀ i, 12 ≤ i →
        m.vertexAt i = some ⟨zeroStorage.verts i, zeroStorage.norms i, zeroStorage.texCoords i⟩ ∧
        m.pVerts i = zeroStorage.verts i := by
  obtain ⟨m, hm, _⟩ := exampleSupplied_eval Rat.sqrt (⟨0, 0, 1⟩ : M3DVector3f ℚ) ⟨0, 0⟩
  exact ⟨m, hm, vertex_count_bounded (FloatOps.exact Rat.sqrt) _ 12 zeroStorage (by norm_num)
    _ m hm⟩

/-- C17 at a concrete input: after the first triangle of the worked example, the corner
`(0,0,0)` is submitted with `epsilon = 2`, which puts it within `epsilon` of all three stored
vertices; index `0` is emitted. -/
theorem first_match_wins_witness :
    ∃ m : TriangleMesh ℚ,
      addTriangles (FloatOps.exact Rat.sqrt)
        (BeginMesh (TriangleMesh.new (FloatOps.exact Rat.sqrt) zeroStorage) 12 zeroStorage)
        [(flatTriangle exampleVerts1 ⟨0, 0, 1⟩ ⟨0, 0⟩).call exampleEpsilon] = some m ∧
      ∃ r1, cornerLoop (FloatOps.exact Rat.sqrt) m
          (flatTriangle exampleVerts2 ⟨0, 0, 1⟩ ⟨0, 0⟩).verts
          (some (flatTriangle exampleVerts2 ⟨0, 0, 1⟩ ⟨0, 0⟩).norms)
          (some (flatTriangle exampleVerts2 ⟨0, 0, 1⟩ ⟨0, 0⟩).texCoords) 2 ((0 : Fin 3) + 1)
          = some r1 ∧
        emitted m r1 = some 0 ∧ r1.nNumVerts = m.nNumVerts := by
  obtain ⟨m, hm, h3, hv0, hv1⟩ :=
    exampleFirst_eval Rat.sqrt (⟨0, 0, 1⟩ : M3DVector3f ℚ) ⟨0, 0⟩
  obtain ⟨r1, hr1, he, hn, _⟩ := first_match_wins (FloatOps.exact Rat.sqrt) m
    (flatTriangle exampleVerts2 ⟨0, 0, 1⟩ ⟨0, 0⟩) 2 0 m 0 _ rfl (by omega) hv0
    (by norm_num [closeVertex, FloatOps.exact, closeEnough, Triangle.vertex, flatTriangle,
      exampleVerts2])
    (fun j _ _ _ _ => Nat.zero_le j)
  exact ⟨m, hm, r1, hr1, he, hn⟩

/-- C19 at a concrete input: the two triangles of the worked example on capacity `12`. -/
theorem weld_soundness_witness :
    ∃ m, addTriangles (FloatOps.exact Rat.sqrt)
        (BeginMesh (TriangleMesh.new (FloatOps.exact Rat.sqrt) zeroStorage) 12 zeroStorage)
        ([(flatTriangle exampleVerts1 ⟨0, 0, 1⟩ ⟨0, 0⟩, exampleEpsilon),
          (flatTriangle exampleVerts2 ⟨0, 0, 1⟩ ⟨0, 0⟩, exampleEpsilon)].map
            (fun p => p.1.call p.2)) = some m ∧
      m.nNumIndexes = 3 * [(flatTriangle exampleVerts1 (⟨0, 0, 1⟩ : M3DVector3f ℚ) ⟨0, 0⟩,
          (exampleEpsilon : ℚ)),
          (flatTriangle exampleVerts2 ⟨0, 0, 1⟩ ⟨0, 0⟩, exampleEpsilon)].length ∧
      ∀ k v e, (submittedCorners (FloatOps.exact Rat.sqrt)
          [(flatTriangle exampleVerts1 ⟨0, 0, 1⟩ ⟨0, 0⟩, exampleEpsilon),
           (flatTriangle exampleVerts2 ⟨0, 0, 1⟩ ⟨0, 0⟩, exampleEpsilon)])[k]? = some (v, e) →
        ∃ sv, m.pIndexes k < m.nNumVerts ∧ m.vertexAt (m.pIndexes k) = some sv ∧
          (sv = v ∨ closeVertex (FloatOps.exact Rat.sqrt) e sv v = true) :=
  weld_soundness (FloatOps.exact Rat.sqrt) _ 12 zeroStorage (by norm_num) _ (by simp)

/-- C20 at a concrete input: the worked example on capacity `12`. -/
theorem no_weldable_pair_stored_witness :
    ∃ m : TriangleMesh ℚ, exampleSupplied Rat.sqrt 12 ⟨0, 0, 1⟩ ⟨0, 0⟩ = some m ∧
      ∀ i j, i < j → j < m.nNumVerts →
        ∃ si sj, m.vertexAt i = some si ∧ m.vertexAt j = some sj ∧
          closeVertex (FloatOps.exact Rat.sqrt) exampleEpsilon si sj = false ∧
          closeVertex (FloatOps.exact Rat.sqrt) exampleEpsilon sj si = false := by
  obtain ⟨m, hm, _⟩ := exampleSupplied_eval Rat.sqrt (⟨0, 0, 1⟩ : M3DVector3f ℚ) ⟨0, 0⟩
  exact ⟨m, hm, no_weldable_pair_stored Rat.sqrt _ 12 zeroStorage (by norm_num) exampleEpsilon
    _ (by simp [Triangle.call]) m hm⟩

end Witnesses2

/-! ### The state at the limit of the index count is reached by a run -/

section Reach

variable {F : Type} [LinearOrderedField F] (sqrt : F → F) (N : M3DVector3f F) (T : M3DVector2f F)

theorem pushIndex_fill (v j n : Nat) (hj : j = if n = 0 then 0 else 1) (hn : n + 1 < 2 ^ 32) :
    pushIndex (fillState sqrt N T v n) j = fillState sqrt N T v (n + 1) := by
  have hu : Function.update (fun k : Nat => if k = 0 then 0 else 1) n j
      = fun k => if k = 0 then 0 else 1 := by
    rw [Function.update_eq_self_iff]; exact hj
  simp only [pushIndex, fillState, fullIndexState, hu, u32_eq_of_lt hn]

theorem appendVertex_fill (v n : Nat) (p : M3DVector3f F)
    (hp : p = if v = 0 then ⟨0, 0, 0⟩ else ⟨1, 0, 0⟩) (hi : v = if n = 0 then 0 else 1)
    (hv : v + 1 < 2 ^ 32) (hn : n + 1 < 2 ^ 32) :
    appendVertex (fillState sqrt N T v n) ⟨p, some (normalize3 sqrt N), some T⟩
      = some (fillState sqrt N T (v + 1) (n + 1)) := by
  have hu : Function.update (fun k : Nat => if k = 0 then 0 else 1) n v
      = fun k => if k = 0 then 0 else 1 := by
    rw [Function.update_eq_self_iff]; exact hi
  have hw : Function.update (fun i : Nat => if i = 0 then (⟨0, 0, 0⟩ : M3DVector3f F)
      else ⟨1, 0, 0⟩) v p = fun i => if i = 0 then ⟨0, 0, 0⟩ else ⟨1, 0, 0⟩ := by
    rw [Function.update_eq_self_iff]; exact hp
  have hx : Function.update (fun _ : Nat => normalize3 sqrt N) v (normalize3 sqrt N)
      = fun _ => normalize3 sqrt N := by
    rw [Function.update_eq_self_iff]
  have hy : Function.update (fun _ : Nat => T) v T = fun _ => T := by
    rw [Function.update_eq_self_iff]
  simp only [appendVertex, pushIndex, fillState, fullIndexState, hu, hw, hx, hy,
    u32_eq_of_lt hn, u32_eq_of_lt hv]

/-- A corner `(1,0,0)` submitted when both vertices are stored matches slot `1`, not slot `0`. -/
theorem fill_hit (n : Nat) (hn0 : n ≠ 0) (hn : n + 1 < 2 ^ 32) :
    addCorner (FloatOps.exact sqrt) (fillState sqrt N T 2 n)
      ⟨⟨1, 0, 0⟩, some (normalize3 sqrt N), some T⟩ exampleEpsilon
      = some (fillState sqrt N T 2 (n + 1)) := by
  have h1 : matchAt (FloatOps.exact sqrt) (fillState sqrt N T 2 n) 1
      ⟨⟨1, 0, 0⟩, some (normalize3 sqrt N), some T⟩ exampleEpsilon = some true := by
    norm_num [matchAt, fillState, fullIndexState, FloatOps.exact, closeEnough, exampleEpsilon]
  have h0 : matchAt (FloatOps.exact sqrt) (fillState sqrt N T 2 n) 0
      ⟨⟨1, 0, 0⟩, some (normalize3 sqrt N), some T⟩ exampleEpsilon = some false := by
    norm_num [matchAt, fillState, fullIndexState, FloatOps.exact, closeEnough, exampleEpsilon]
  rw [addCorner_hit (FloatOps.exact sqrt) _ _ _ 1 (by show 1 < 2; omega) h1
    (fun k hk => by have hk0 : k = 0 := by omega
                    rw [hk0]; exact h0)]
  rw [pushIndex_fill sqrt N T 2 1 n (by rw [if_neg hn0]) hn]

/-- The first call of the run stores `(0,0,0)` and `(1,0,0)` and writes the indices `0, 1, 1`. -/
theorem fill_first :
    AddTriangle (FloatOps.exact sqrt) (fillState sqrt N T 0 0)
      ![⟨0, 0, 0⟩, ⟨1, 0, 0⟩, ⟨1, 0, 0⟩] (some (fun _ => N)) (some (fun _ => T)) exampleEpsilon
      = some (fillState sqrt N T 2 3) := by
  have a0 : addCorner (FloatOps.exact sqrt) (fillState sqrt N T 0 0)
      ⟨⟨0, 0, 0⟩, some (normalize3 sqrt N), some T⟩ exampleEpsilon
      = some (fillState sqrt N T 1 1) := by
    rw [addCorner_miss (FloatOps.exact sqrt) _ _ _ (fun k hk => absurd hk (Nat.not_lt_zero k))]
    rw [if_pos (by show 0 < 4294967295 ∧ 0 < 4294967295; omega)]
    exact appendVertex_fill sqrt N T 0 0 _ rfl rfl (by norm_num) (by norm_num)
  have a1 : addCorner (FloatOps.exact sqrt) (fillState sqrt N T 1 1)
      ⟨⟨1, 0, 0⟩, some (normalize3 sqrt N), some T⟩ exampleEpsilon
      = some (fillState sqrt N T 2 2) := by
    have h0 : matchAt (FloatOps.exact sqrt) (fillState sqrt N T 1 1) 0
        ⟨⟨1, 0, 0⟩, some (normalize3 sqrt N), some T⟩ exampleEpsilon = some false := by
      norm_num [matchAt, fillState, fullIndexState, FloatOps.exact, closeEnough, exampleEpsilon]
    rw [addCorner_miss (FloatOps.exact sqrt) _ _ _
      (fun k hk => by have hk0 : k = 0 := by
                        have : k < 1 := hk
                        omega
                      rw [hk0]; exact h0)]
    rw [if_pos (by show 1 < 4294967295 ∧ 1 < 4294967295; omega)]
    exact appendVertex_fill sqrt N T 1 1 _ rfl rfl (by norm_num) (by norm_num)
  have a2 := fill_hit sqrt N T 2 (by omega) (by norm_num)
  unfold AddTriangle
  rw [cornerLoop_succ _ _ _ _ _ _ 2 (by omega), cornerLoop_succ _ _ _ _ _ _ 1 (by omega),
    cornerLoop_succ _ _ _ _ _ _ 0 (by omega)]
  simp only [cornerLoop]
  have e0 : cornerOf (FloatOps.exact sqrt) ![(⟨0, 0, 0⟩ : M3DVector3f F), ⟨1, 0, 0⟩, ⟨1, 0, 0⟩]
      (some (fun _ => N)) (some (fun _ => T)) ⟨0, by omega⟩
      = ⟨⟨0, 0, 0⟩, some (normalize3 sqrt N), some T⟩ := rfl
  have e1 : cornerOf (FloatOps.exact sqrt) ![(⟨0, 0, 0⟩ : M3DVector3f F), ⟨1, 0, 0⟩, ⟨1, 0, 0⟩]
      (some (fun _ => N)) (some (fun _ => T)) ⟨1, by omega⟩
      = ⟨⟨1, 0, 0⟩, some (normalize3 sqrt N), some T⟩ := rfl
  have e2 : cornerOf (FloatOps.exact sqrt) ![(⟨0, 0, 0⟩ : M3DVector3f F), ⟨1, 0, 0⟩, ⟨1, 0, 0⟩]
      (some (fun _ => N)) (some (fun _ => T)) ⟨2, by omega⟩
      = ⟨⟨1, 0, 0⟩, some (normalize3 sqrt N), some T⟩ := rfl
  rw [e0, a0]
  simp only []
  rw [e1, a1]
  simp only []
  rw [e2, a2]

/-- A call with three times the corner `(1,0,0)` writes three indices and nothing else. -/
theorem fill_same (n : Nat) (hn0 : n ≠ 0) (hn : n + 3 < 2 ^ 32) :
    AddTriangle (FloatOps.exact sqrt) (fillState sqrt N T 2 n)
      (sameCornerCall N T).verts (sameCornerCall N T).vNorms (sameCornerCall N T).vTexCoords
      (sameCornerCall N T).epsilon = some (fillState sqrt N T 2 (n + 3)) := by
  have a0 := fill_hit sqrt N T n hn0 (by omega)
  have a1 := fill_hit sqrt N T (n + 1) (by omega) (by omega)
  have a2 := fill_hit sqrt N T (n + 2) (by omega) (by omega)
  have e : ∀ i : Fin 3, cornerOf (FloatOps.exact sqrt) (sameCornerCall N T).verts
      (sameCornerCall N T).vNorms (sameCornerCall N T).vTexCoords i
      = ⟨⟨1, 0, 0⟩, some (normalize3 sqrt N), some T⟩ := fun _ => rfl
  have ee : (sameCornerCall N T).epsilon = (exampleEpsilon : F) := rfl
  unfold AddTriangle
  rw [cornerLoop_succ _ _ _ _ _ _ 2 (by omega), cornerLoop_succ _ _ _ _ _ _ 1 (by omega),
    cornerLoop_succ _ _ _ _ _ _ 0 (by omega)]
  simp only [cornerLoop, e, ee]
  rw [a0]
  simp only []
  rw [a1]
  simp only []
  rw [a2]

theorem fill_many (k n : Nat) (hn0 : n ≠ 0) (hn : n + 3 * k < 2 ^ 32) :
    addTriangles (FloatOps.exact sqrt) (fillState sqrt N T 2 n)
      (List.replicate k (sameCornerCall N T)) = some (fillState sqrt N T 2 (n + 3 * k)) := by
  induction k generalizing n with
  | zero => rfl
  | succ k ih =>
    rw [List.replicate_succ]
    unfold addTriangles
    rw [fill_same sqrt N T n hn0 (by omega)]
    simp only []
    rw [ih (n + 3) (by omega) (by omega)]
    have : n + 3 + 3 * k = n + 3 * (k + 1) := by ring
    rw [this]

/-- The state `fullIndexState` is reached from `BeginMesh(4294967295)` on a fresh instance by
the calls `fullIndexCalls`. -/
theorem fullIndexState_reached :
    addTriangles (FloatOps.exact sqrt)
      (BeginMesh (TriangleMesh.new (FloatOps.exact sqrt) (fullStorage sqrt N T)) 4294967295
        (fullStorage sqrt N T))
      (fullIndexCalls N T) = some (fullIndexState sqrt N T) := by
  have hb : BeginMesh (TriangleMesh.new (FloatOps.exact sqrt) (fullStorage sqrt N T)) 4294967295
      (fullStorage sqrt N T) = fillState sqrt N T 0 0 := rfl
  rw [hb]
  unfold fullIndexCalls
  unfold addTriangles
  rw [fill_first sqrt N T]
  simp only []
  rw [fill_many sqrt N T 1431655764 3 (by omega) (by norm_num)]
  rfl

end Reach

/-! ### Welding in binary32: NaN normals and rounded normalizations -/

section Float32

/-- In binary32 the comparison `m3dCloseEnough` accepts every finite value against itself when
`epsilon` is positive. -/
theorem binary32_close_self (a : Bool) (x : Nat) (epsilon : Binary32)
    (heps : (Binary32.finite false 0).lt epsilon = true) :
    FloatOps.binary32.m3dCloseEnough (Binary32.finite a x) (Binary32.finite a x) epsilon
      = true := by
  cases a <;>
    simpa [FloatOps.binary32, Binary32.sub, Binary32.neg, Binary32.add, Binary32.abs] using heps

/-- In binary32 the comparison `m3dCloseEnough` accepts nothing against a NaN, and no NaN
against anything. -/
theorem binary32_nan_not_close (b epsilon : Binary32) :
    FloatOps.binary32.m3dCloseEnough Binary32.nan b epsilon = false ∧
    FloatOps.binary32.m3dCloseEnough b Binary32.nan epsilon = false := by
  cases b <;> simp [FloatOps.binary32, Binary32.sub, Binary32.neg, Binary32.add, Binary32.abs,
    Binary32.lt]

set_option maxRecDepth 100000 in
/-- In binary32 the zero vector normalizes to three NaNs: the length is `0`, `1.0f / 0` is an
infinity and `0` times an infinity is NaN. -/
theorem binary32_normalize_zero :
    (FloatOps.binary32.m3dNormalizeVector3 (float32Vector 0 0 0)).x = Binary32.nan ∧
    (FloatOps.binary32.m3dNormalizeVector3 (float32Vector 0 0 0)).y = Binary32.nan ∧
    (FloatOps.binary32.m3dNormalizeVector3 (float32Vector 0 0 0)).z = Binary32.nan := by
  decide

set_option maxRecDepth 100000 in
/-- C1, the claim as stated fails.  In binary32, with `epsilon = 1e-7f > 0` and capacity `12`,
the triangle with the positions `(0,0,0), (1,0,0), (0,1,0)`, the normal `(0,0,0)` and the
texture coordinate `(0,0)` at every corner is submitted twice.  The first call emits index `0`
for its corner `0`.  The second call reaches the identical corner with `indexCount = 3 < 12`,
emits index `3` for it, not `0`, and stores a new vertex: the normalized normal is NaN, which
is close to nothing.  The mesh ends with `6` vertices. -/
theorem zero_normal_corner_not_welded :
    (Binary32.finite false 0).lt float32Epsilon = true ∧
    (float32Triangle 0 0 0).supplied 0 = (float32Triangle 0 0 0).supplied 0 ∧
    (∃ s s1 r r1,
      stateAt FloatOps.binary32 (TriangleMesh.new FloatOps.binary32 float32Storage)
        12 float32Storage float32Epsilon [] (float32Triangle 0 0 0) (0 : Fin 3) = some s ∧
      stateAt FloatOps.binary32 (TriangleMesh.new FloatOps.binary32 float32Storage)
        12 float32Storage float32Epsilon [] (float32Triangle 0 0 0) ((0 : Fin 3) + 1)
        = some s1 ∧
      emitted s s1 = some 0 ∧
      stateAt FloatOps.binary32 (TriangleMesh.new FloatOps.binary32 float32Storage)
        12 float32Storage float32Epsilon ([] ++ float32Triangle 0 0 0 :: [])
        (float32Triangle 0 0 0) (0 : Fin 3) = some r ∧
      stateAt FloatOps.binary32 (TriangleMesh.new FloatOps.binary32 float32Storage)
        12 float32Storage float32Epsilon ([] ++ float32Triangle 0 0 0 :: [])
        (float32Triangle 0 0 0) ((0 : Fin 3) + 1) = some r1 ∧
      r.nNumIndexes = 3 ∧ emitted r r1 = some 3 ∧ r1.nNumVerts = r.nNumVerts + 1) ∧
    (addTriangles FloatOps.binary32
      (BeginMesh (TriangleMesh.new FloatOps.binary32 float32Storage) 12 float32Storage)
      [(float32Triangle 0 0 0).call float32Epsilon,
       (float32Triangle 0 0 0).call float32Epsilon]).map (fun m => m.nNumVerts) = some 6 :=
  ⟨by decide, rfl, ⟨_, _, _, _, rfl, rfl, by decide, rfl, rfl, by decide, by decide, by decide⟩,
    by decide⟩

end Float32

/-! ### The binary32 operations: the integer square root and some roundings -/

section Float32Model

/-- The loop counts enough digits: `(n + 1) * 2^count <= 2^result`. -/
theorem bitLengthLoop_bound : ∀ (fuel n count : Nat), n ≤ fuel →
    (n + 1) * 2 ^ count ≤ 2 ^ bitLengthLoop fuel n count := by
  intro fuel
  induction fuel with
  | zero =>
    intro n count hn
    have h0 : n = 0 := by omega
    subst h0
    simp [bitLengthLoop]
  | succ fuel ih =>
    intro n count hn
    unfold bitLengthLoop
    by_cases h0 : n = 0
    · subst h0
      simp
    · rw [if_neg h0]
      have h := ih (n / 2) (count + 1) (by omega)
      have h1 : n + 1 ≤ (n / 2 + 1) * 2 := by omega
      calc (n + 1) * 2 ^ count ≤ (n / 2 + 1) * 2 * 2 ^ count :=
            Nat.mul_le_mul_right _ h1
        _ = (n / 2 + 1) * 2 ^ (count + 1) := by rw [pow_succ]; ring
        _ ≤ _ := h

/-- Every number is below two to the power of its number of binary digits. -/
theorem lt_two_pow_bitLength (n : Nat) : n < 2 ^ bitLength n := by
  have h := bitLengthLoop_bound n n 0 (le_refl n)
  simp only [pow_zero, mul_one] at h
  exact h

/-- One step of the iteration stays above the root: if `0 < x` then `n` is below the square
of `(x + n / x) / 2 + 1`. -/
theorem sqrt_step_bound (n x : Nat) (hx : 0 < x) :
    n < ((x + n / x) / 2 + 1) * ((x + n / x) / 2 + 1) := by
  have h1 : n < x * (n / x + 1) := Nat.lt_mul_div_succ n hx
  generalize n / x = q at h1 ⊢
  have h2 : x + q + 1 ≤ 2 * ((x + q) / 2 + 1) := by omega
  generalize (x + q) / 2 = y at h2 ⊢
  have h3 : (x + q + 1) * (x + q + 1) ≤ (2 * (y + 1)) * (2 * (y + 1)) := Nat.mul_le_mul h2 h2
  have h4 : 4 * (x * (q + 1)) ≤ (x + q + 1) * (x + q + 1) := by
    zify
    nlinarith [sq_nonneg ((x : ℤ) - ((q : ℤ) + 1))]
  have h5 : (2 * (y + 1)) * (2 * (y + 1)) = 4 * ((y + 1) * (y + 1)) := by ring
  omega

/-- The iteration, started from a value that is not below the root, ends at the root. -/
theorem sqrtLoop_spec (n : Nat) : ∀ (fuel x : Nat), x ≤ fuel → n < (x + 1) * (x + 1) →
    sqrtLoop n fuel x * sqrtLoop n fuel x ≤ n ∧
      n < (sqrtLoop n fuel x + 1) * (sqrtLoop n fuel x + 1) := by
  intro fuel
  induction fuel with
  | zero =>
    intro x hx hn
    have h0 : x = 0 := by omega
    subst h0
    exact ⟨Nat.zero_le _, hn⟩
  | succ fuel ih =>
    intro x hx hn
    unfold sqrtLoop
    by_cases hlt : (x + n / x) / 2 < x
    · rw [if_pos hlt]
      exact ih _ (Nat.lt_succ_iff.mp (lt_of_lt_of_le hlt hx))
        (sqrt_step_bound n x (Nat.pos_of_ne_zero (fun h0 => by rw [h0] at hlt; omega)))
    · rw [if_neg hlt]
      refine ⟨?_, hn⟩
      by_cases h0 : x = 0
      · subst h0; exact Nat.zero_le _
      · have hq : x ≤ n / x := by
          generalize n / x = q at hlt
          omega
        exact (Nat.le_div_iff_mul_le (by omega)).mp hq

/-- The function `natSqrt` is the integer square root. -/
theorem natSqrt_spec (n : Nat) :
    natSqrt n * natSqrt n ≤ n ∧ n < (natSqrt n + 1) * (natSqrt n + 1) := by
  apply sqrtLoop_spec n _ _ (le_refl _)
  have h1 := lt_two_pow_bitLength n
  have h2 : 2 ^ bitLength n ≤ 2 ^ ((bitLength n + 1) / 2) * 2 ^ ((bitLength n + 1) / 2) := by
    rw [← pow_add]
    exact Nat.pow_le_pow_right (by omega) (by omega)
  generalize 2 ^ ((bitLength n + 1) / 2) = p at h2 ⊢
  have h3 : p * p ≤ (p + 1) * (p + 1) := Nat.mul_le_mul (by omega) (by omega)
  omega

/-- The function `natSqrt` agrees with the library square root of natural numbers. -/
theorem natSqrt_eq (n : Nat) : natSqrt n = Nat.sqrt n :=
  Nat.eq_sqrt.mpr (natSqrt_spec n)

set_option maxRecDepth 100000 in
/-- Some roundings of the binary32 operations: ties go to the even neighbour
(`16777217 -> 16777216`, `16777219 -> 16777220`), `1/3`, `sqrt 2` and `1/10` are the known
values `0x3EAAAAAB`, `0x3FB504F3` and `0x3DCCCCCD`, half of the smallest subnormal is `0`,
and twice the largest finite value is an infinity. -/
theorem binary32_rounding_examples :
    Binary32.ofNat 16777217 = Binary32.ofNat 16777216 ∧
    Binary32.ofNat 16777219 = Binary32.ofNat 16777220 ∧
    (Binary32.ofNat 1).div (Binary32.ofNat 3) = Binary32.finite false (11184811 * 2 ^ 124) ∧
    (Binary32.ofNat 2).sqrt = Binary32.finite false (11863283 * 2 ^ 126) ∧
    (Binary32.ofNat 1).div (Binary32.ofNat 10) = Binary32.finite false (13421773 * 2 ^ 122) ∧
    (Binary32.finite false 1).div (Binary32.ofNat 2) = Binary32.finite false 0 ∧
    (Binary32.finite false 3).div (Binary32.ofNat 2) = Binary32.finite false 2 ∧
    (Binary32.finite false ((2 ^ 24 - 1) * 2 ^ 253)).add
      (Binary32.finite false ((2 ^ 24 - 1) * 2 ^ 253)) = Binary32.inf false ∧
    (Binary32.ofNat 0).div (Binary32.ofNat 0) = Binary32.nan := by
  decide

end Float32Model

/-! ### When the matcher accepts a corner against itself in binary32 -/

section Float32Self

/-- In binary32 the comparison `m3dCloseEnough` accepts a value against itself exactly when
the value is finite and `epsilon` is positive: an infinity minus itself is NaN. -/
theorem binary32_close_self_iff (a epsilon : Binary32) :
    FloatOps.binary32.m3dCloseEnough a a epsilon = true ↔
      a.isFinite = true ∧ (Binary32.finite false 0).lt epsilon = true := by
  cases a with
  | nan => simp [FloatOps.binary32, Binary32.sub, Binary32.neg, Binary32.add, Binary32.abs,
      Binary32.lt, Binary32.isFinite]
  | inf s => cases s <;> simp [FloatOps.binary32, Binary32.sub, Binary32.neg, Binary32.add,
      Binary32.abs, Binary32.lt, Binary32.isFinite]
  | finite s x => cases s <;> simp [FloatOps.binary32, Binary32.sub, Binary32.neg,
      Binary32.add, Binary32.abs, Binary32.isFinite]

/-- In binary32 the eight comparisons accept a vertex against itself exactly when its eight
components are finite and `epsilon` is positive. -/
theorem binary32_closeVertex_self_iff (epsilon : Binary32) (v : Vertex Binary32) :
    closeVertex FloatOps.binary32 epsilon v v = true ↔
      ((v.vert.x.isFinite = true ∧ v.vert.y.isFinite = true ∧ v.vert.z.isFinite = true ∧
        v.norm.x.isFinite = true ∧ v.norm.y.isFinite = true ∧ v.norm.z.isFinite = true ∧
        v.texCoord.x.isFinite = true ∧ v.texCoord.y.isFinite = true) ∧
        (Binary32.finite false 0).lt epsilon = true) := by
  simp only [closeVertex, Bool.and_eq_true, binary32_close_self_iff]
  tauto

end Float32Self

end Math3D
